import Mathlib

/-!
# An open-addressing hash table with quadratic probing and tombstones

Shallow embedding of `src/main.cpp` (classes `WarhammerMiniature` and
`WarhammerHashTable`) followed by theorems about its operations.

Modelling conventions.

* A `std::string` is the Lean `String` with the same bytes in UTF-8
  (`nameBytes`, equal to what `String.toUTF8` gives); its `char`s are those
  bytes.  `char` is signed, as on x86-64: a byte from 128 on is the negative
  `char` `byte - 256` (`charValue`), and `static_cast<size_t>` sign-extends
  it.  Byte strings that are not UTF-8 have no counterpart in the model.
* `int` fields are `Int`; `static_cast<size_t>` of an `int` is reduction modulo
  `2 ^ 64` (`toSizeT`).
* `size_t` arithmetic inside `hashFunction` and `quadraticProbe` wraps modulo
  `2 ^ 64`, written out explicitly.
* The three `std::vector`s are `List`s read with `List.getD` and written with
  `List.set`; an access outside the vector (undefined behaviour in the source)
  reads the default and writes nothing.
* `capacity` and `count` are natural numbers.  `capacity *= 2` and `count++`
  are not wrapped: a table of more than `2 ^ 63` slots cannot be allocated.
  The unsigned decrement `count--` is wrapped explicitly (`sizeDec`).
  Where a theorem depends on the size of the table (termination of `insert`)
  it is stated for fewer than `2 ^ 61` occupied slots, which every table in a
  64-bit address space has.
* `insert` and `rehash` call each other in the source; the model threads a
  recursion budget (`fuel`) through both and returns `none` when it runs out.
-/

namespace Warhammer

set_option maxRecDepth 8192

/-- The record stored in the table (`class WarhammerMiniature`). -/
structure WarhammerMiniature where
  pointsCost : Int
  modelName : String
  releaseYear : Int
deriving DecidableEq, Repr

/-- The default constructor `WarhammerMiniature()`: cost 0, empty name, year 0. -/
instance : Inhabited WarhammerMiniature := ⟨⟨0, "", 0⟩⟩

/-- The member `operator==`: all three fields are compared. -/
def WarhammerMiniature.opEq (a other : WarhammerMiniature) : Bool :=
  a.pointsCost == other.pointsCost &&
  a.modelName == other.modelName &&
  a.releaseYear == other.releaseYear

/-- The member `operator!=`, the negation of `operator==`. -/
def WarhammerMiniature.opNe (a other : WarhammerMiniature) : Bool :=
  !(a.opEq other)

/-- The state of a `WarhammerHashTable` object: its five data members. -/
structure WarhammerHashTable where
  table : List WarhammerMiniature
  occupied : List Bool
  deleted : List Bool
  capacity : Nat
  count : Nat
deriving DecidableEq, Repr

/-- Conversion `static_cast<size_t>(x)` of an `int`: the value modulo `2 ^ 64`. -/
def toSizeT (x : Int) : Nat := (x % (2 ^ 64 : Int)).toNat

/-- The unsigned decrement `count--` on a 64-bit `size_t`. -/
def sizeDec (n : Nat) : Nat := if n = 0 then 2 ^ 64 - 1 else n - 1

/-- The bytes that one character takes in a `std::string` (UTF-8). -/
def utf8Bytes (c : Char) : List Nat :=
  if c.toNat < 0x80 then [c.toNat]
  else if c.toNat < 0x800 then [0xC0 + c.toNat / 0x40, 0x80 + c.toNat % 0x40]
  else if c.toNat < 0x10000 then
    [0xE0 + c.toNat / 0x1000, 0x80 + c.toNat / 0x40 % 0x40, 0x80 + c.toNat % 0x40]
  else
    [0xF0 + c.toNat / 0x40000, 0x80 + c.toNat / 0x1000 % 0x40,
      0x80 + c.toNat / 0x40 % 0x40, 0x80 + c.toNat % 0x40]

/-- The sequence of `char`s of a `std::string`, each given by its byte. -/
def nameBytes (name : String) : List Nat :=
  name.toList.flatMap utf8Bytes

/-- The value of the (signed) `char` whose byte is `b`. -/
def charValue (b : Nat) : Int :=
  if b < 128 then (b : Int) else (b : Int) - 256

/-- The private method `hashFunction`, with the member `capacity` made explicit.
The loop variable `c` runs over the `char`s of `modelName`. -/
def hashFunction (capacity : Nat) (mini : WarhammerMiniature) : Nat :=
  let hash := (nameBytes mini.modelName).foldl
    (fun hash c => (hash * 31 + toSizeT (charValue c)) % 2 ^ 64) 0
  let hash := hash ^^^ ((toSizeT mini.pointsCost * 2 ^ 3) % 2 ^ 64)
  let hash := hash ^^^ ((toSizeT mini.releaseYear * 2 ^ 7) % 2 ^ 64)
  hash % capacity

/-- The private method `quadraticProbe`, with the member `capacity` made explicit. -/
def quadraticProbe (capacity index attempt : Nat) : Nat :=
  ((index + (attempt * attempt) % 2 ^ 64) % 2 ^ 64) % capacity

/-- The constructor `WarhammerHashTable(initialCapacity)`. -/
def construct (initialCapacity : Nat) : WarhammerHashTable :=
  { table := List.replicate initialCapacity default
    occupied := List.replicate initialCapacity false
    deleted := List.replicate initialCapacity false
    capacity := initialCapacity
    count := 0 }

/-- The load test `static_cast<double>(count) / capacity >= 0.5` of `insert`.
For a positive capacity the quotient of the two integers is at least one half
exactly when `capacity ≤ 2 * count` (the conversions to `double` and the
rounded division agree with the exact quotient on this test for sizes below
`2 ^ 53`); for capacity 0 the quotient is `inf` (test true) when `count` is
positive and `NaN` (test false) when it is 0. -/
def loadAtLeastHalf (count capacity : Nat) : Bool :=
  if capacity = 0 then decide (0 < count) else decide (capacity ≤ 2 * count)

/-- The `while` loop of `insert`.  `index` and `attempt` are the loop variables;
the result is `some index` when the loop condition fails at `index` (the slot
to write) and `none` when `attempt` reaches `capacity` (the overflow branch).
The first argument bounds the number of iterations; the loop is run with
`capacity` iterations, which the overflow test never lets it exceed. -/
def insertLoop (t : WarhammerHashTable) (mini : WarhammerMiniature) :
    Nat → Nat → Nat → Option Nat
  | 0, _, _ => none
  | steps + 1, index, attempt =>
    if t.occupied.getD index false && !t.deleted.getD index false &&
        (t.table.getD index default).opNe mini then
      if t.capacity ≤ attempt + 1 then none
      else insertLoop t mini steps
        (quadraticProbe t.capacity (hashFunction t.capacity mini) (attempt + 1)) (attempt + 1)
    else some index

/-- The four assignments that end `insert`: write the record at `index`, set
the occupied flag, clear the deleted flag, increment `count`. -/
def place (t : WarhammerHashTable) (index : Nat) (mini : WarhammerMiniature) :
    WarhammerHashTable :=
  { t with
    table := t.table.set index mini
    occupied := t.occupied.set index true
    deleted := t.deleted.set index false
    count := t.count + 1 }

/-- The `for` loop of `rehash` over the saved copies `oldTable` and
`oldOccupied`.  As in the source, the deleted flag is read from the current
(already reassigned) `deleted` vector of the table being rebuilt.  `ins` is the
recursive call to `insert`. -/
def rehashLoop (ins : WarhammerHashTable → WarhammerMiniature → Option WarhammerHashTable)
    (oldTable : List WarhammerMiniature) (oldOccupied : List Bool) :
    Nat → Nat → WarhammerHashTable → Option WarhammerHashTable
  | 0, _, t => some t
  | n + 1, i, t =>
    if oldOccupied.getD i false && !t.deleted.getD i false then
      match ins t (oldTable.getD i default) with
      | none => none
      | some t1 => rehashLoop ins oldTable oldOccupied n (i + 1) t1
    else rehashLoop ins oldTable oldOccupied n (i + 1) t

/-- The body of `rehash`, with the recursive call to `insert` as a parameter. -/
def rehashWith (ins : WarhammerHashTable → WarhammerMiniature → Option WarhammerHashTable)
    (t : WarhammerHashTable) : Option WarhammerHashTable :=
  let oldTable := t.table
  let oldOccupied := t.occupied
  let capacity := t.capacity * 2
  rehashLoop ins oldTable oldOccupied oldTable.length 0
    { table := List.replicate capacity default
      occupied := List.replicate capacity false
      deleted := List.replicate capacity false
      capacity := capacity
      count := 0 }

/-- The body of `insert`, with the recursive call to `insert` as a parameter
(used by `rehash` and by the overflow branch). -/
def insertWith (ins : WarhammerHashTable → WarhammerMiniature → Option WarhammerHashTable)
    (t : WarhammerHashTable) (mini : WarhammerMiniature) : Option WarhammerHashTable :=
  match (if loadAtLeastHalf t.count t.capacity then rehashWith ins t else some t) with
  | none => none
  | some t1 =>
    match insertLoop t1 mini t1.capacity (hashFunction t1.capacity mini) 0 with
    | some index => some (place t1 index mini)
    | none =>
      match rehashWith ins t1 with
      | none => none
      | some t2 => ins t2 mini

/-- The public method `insert`.  `fuel` bounds the depth of the mutual
recursion between `insert` and `rehash`; `none` means the budget ran out. -/
def insert : Nat → WarhammerHashTable → WarhammerMiniature → Option WarhammerHashTable
  | 0, _, _ => none
  | fuel + 1, t, mini => insertWith (insert fuel) t mini

/-- The private method `rehash`, whose calls to `insert` have budget `fuel`. -/
def rehash (fuel : Nat) (t : WarhammerHashTable) : Option WarhammerHashTable :=
  rehashWith (insert fuel) t

/-- The `while` loop of `find`: `some r` is `return true` with `result = r`,
`none` is `return false`.  The first argument bounds the number of iterations,
as in `insertLoop`. -/
def findLoop (t : WarhammerHashTable) (mini : WarhammerMiniature) :
    Nat → Nat → Nat → Option WarhammerMiniature
  | 0, _, _ => none
  | steps + 1, index, attempt =>
    if t.occupied.getD index false || t.deleted.getD index false then
      if t.occupied.getD index false && !t.deleted.getD index false &&
          (t.table.getD index default).opEq mini then
        some (t.table.getD index default)
      else if t.capacity ≤ attempt + 1 then none
      else findLoop t mini steps
        (quadraticProbe t.capacity (hashFunction t.capacity mini) (attempt + 1)) (attempt + 1)
    else none

/-- The public method `find`: `some r` when it returns `true` having stored
`r` in `result`, `none` when it returns `false`. -/
def find (t : WarhammerHashTable) (mini : WarhammerMiniature) : Option WarhammerMiniature :=
  findLoop t mini t.capacity (hashFunction t.capacity mini) 0

/-- The two assignments of a successful `remove`: set the deleted flag at
`index`, decrement `count`. -/
def markDeleted (t : WarhammerHashTable) (index : Nat) : WarhammerHashTable :=
  { t with deleted := t.deleted.set index true, count := sizeDec t.count }

/-- The `while` loop of `remove`, returning the table after the call and the
returned boolean. -/
def removeLoop (t : WarhammerHashTable) (mini : WarhammerMiniature) :
    Nat → Nat → Nat → WarhammerHashTable × Bool
  | 0, _, _ => (t, false)
  | steps + 1, index, attempt =>
    if t.occupied.getD index false || t.deleted.getD index false then
      if t.occupied.getD index false && !t.deleted.getD index false &&
          (t.table.getD index default).opEq mini then
        (markDeleted t index, true)
      else if t.capacity ≤ attempt + 1 then (t, false)
      else removeLoop t mini steps
        (quadraticProbe t.capacity (hashFunction t.capacity mini) (attempt + 1)) (attempt + 1)
    else (t, false)

/-- The public method `remove`: the table after the call and the result. -/
def remove (t : WarhammerHashTable) (mini : WarhammerMiniature) : WarhammerHashTable × Bool :=
  removeLoop t mini t.capacity (hashFunction t.capacity mini) 0

/-! ## Slot states, well-formedness, reachability -/

/-- Slot `i` is not Empty: its occupied flag or its deleted flag is set (the
loop condition of `find` and `remove`). -/
def slotNonEmpty (t : WarhammerHashTable) (i : Nat) : Bool :=
  t.occupied.getD i false || t.deleted.getD i false

/-- Slot `i` is Occupied (occupied flag set, deleted flag clear) with a record
equal to `mini` (the match test of `find` and `remove`). -/
def slotHolds (t : WarhammerHashTable) (i : Nat) (mini : WarhammerMiniature) : Bool :=
  t.occupied.getD i false && !t.deleted.getD i false && (t.table.getD i default).opEq mini

/-- Slot `i` is Occupied with a record different from `mini` (the loop
condition of `insert`). -/
def slotBlocks (t : WarhammerHashTable) (i : Nat) (mini : WarhammerMiniature) : Bool :=
  t.occupied.getD i false && !t.deleted.getD i false && (t.table.getD i default).opNe mini

/-- Slot `i` is a Tombstone: occupied flag set and deleted flag set (what
`print` reports as `[Deleted]`). -/
def slotTombstone (t : WarhammerHashTable) (i : Nat) : Bool :=
  t.occupied.getD i false && t.deleted.getD i false

/-- The three vectors have length `capacity` and `capacity` is at least 1. -/
structure WellFormed (t : WarhammerHashTable) : Prop where
  capacity_pos : 1 ≤ t.capacity
  table_length : t.table.length = t.capacity
  occupied_length : t.occupied.length = t.capacity
  deleted_length : t.deleted.length = t.capacity

/-- No slot has its deleted flag set. -/
def NoDeleted (t : WarhammerHashTable) : Prop :=
  ∀ i, t.deleted.getD i false = false

/-- Tables reachable from a constructed table of capacity at least 1 by calls
of `insert` that return and calls of `remove`. -/
inductive Reachable : WarhammerHashTable → Prop
  | init (c : Nat) (hc : 1 ≤ c) : Reachable (construct c)
  | step_insert (t t' : WarhammerHashTable) (fuel : Nat) (mini : WarhammerMiniature) :
      Reachable t → insert fuel t mini = some t' → Reachable t'
  | step_remove (t : WarhammerHashTable) (mini : WarhammerMiniature) :
      Reachable t → Reachable (remove t mini).1

/-- A call of one of the two mutating public methods. -/
inductive Call where
  | ins (mini : WarhammerMiniature)
  | rem (mini : WarhammerMiniature)

/-- Run a sequence of calls, each `insert` with recursion budget `fuel`. -/
def runCalls (fuel : Nat) : WarhammerHashTable → List Call → Option WarhammerHashTable
  | t, [] => some t
  | t, Call.ins mini :: rest =>
    match insert fuel t mini with
    | none => none
    | some t1 => runCalls fuel t1 rest
  | t, Call.rem mini :: rest => runCalls fuel (remove t mini).1 rest

/-- What the proofs need to know about a call of `insert` that returns: the
vectors keep the length `capacity`, the inserted record is found, every record
found before is still found, and no deleted flag appears. -/
def InsertSpec (ins : WarhammerHashTable → WarhammerMiniature → Option WarhammerHashTable) :
    Prop :=
  ∀ (t t' : WarhammerHashTable) (m : WarhammerMiniature), WellFormed t → ins t m = some t' →
    WellFormed t' ∧ find t' m = some m ∧
    (∀ x r, find t x = some r → find t' x = some x) ∧
    (NoDeleted t → NoDeleted t')

/-- The indices below `capacity` whose occupied flag is set. -/
def occSet (t : WarhammerHashTable) : Finset Nat :=
  (Finset.range t.capacity).filter (fun i => t.occupied.getD i false = true)

/-- The indices below `capacity` that hold a record equal to `mini`. -/
def holders (t : WarhammerHashTable) (mini : WarhammerMiniature) : List Nat :=
  (List.range t.capacity).filter (fun i => slotHolds t i mini)

/-! ## Concrete records and tables -/

/-- The first record of `main`. -/
def captain : WarhammerMiniature := ⟨100, "Space Marine Captain", 2020⟩

/-- The second record of `main`. -/
def guard : WarhammerMiniature := ⟨50, "Imperial Guard", 2019⟩

/-- The third record of `main`. -/
def warboss : WarhammerMiniature := ⟨75, "Ork Warboss", 2021⟩

/-- A record with the empty name and year 0; its hash under capacity `c` is
`(8 * cost) % c` for a cost between 0 and `2 ^ 61`. -/
def plain (cost : Int) : WarhammerMiniature := ⟨cost, "", 0⟩

/-- The table of `main` after its three inserts: capacity 5, `guard` in slot 1,
`captain` in slot 2 (its home slot) and `warboss`, which has the same home
slot 2, in slot 3. -/
def mainTable : WarhammerHashTable :=
  { table := [default, guard, captain, warboss, default]
    occupied := [false, true, true, true, false]
    deleted := [false, false, false, false, false]
    capacity := 5
    count := 3 }

/-- The table `mainTable` after one more insert, of `plain 7`: the insert
starts with a rehash to capacity 10. -/
def mainGrown : WarhammerHashTable :=
  { table := [plain 7, default, captain, default, default, default, guard, warboss,
      default, default]
    occupied := [true, false, true, false, false, false, true, true, false, false]
    deleted := List.replicate 10 false
    capacity := 10
    count := 4 }

/-- A capacity-5 table holding `plain 5` in slot 0 and `plain 10`, which has the
same home slot 0, in slot 1. -/
def collided : WarhammerHashTable :=
  { table := [plain 5, plain 10, default, default, default]
    occupied := [true, true, false, false, false]
    deleted := [false, false, false, false, false]
    capacity := 5
    count := 2 }

/-- The table `collided` after `remove (plain 5)`: slot 0 is a tombstone in
front of the slot that holds `plain 10`. -/
def tombFirst : WarhammerHashTable :=
  { table := [plain 5, plain 10, default, default, default]
    occupied := [true, true, false, false, false]
    deleted := [true, false, false, false, false]
    capacity := 5
    count := 1 }

/-- The table `tombFirst` after `insert (plain 10)`: the record is written into
the tombstone, so slots 0 and 1 both hold it. -/
def twoCopies : WarhammerHashTable :=
  { table := [plain 10, plain 10, default, default, default]
    occupied := [true, true, false, false, false]
    deleted := [false, false, false, false, false]
    capacity := 5
    count := 2 }

/-- A capacity-5 table in which `plain 5` was inserted and removed (tombstone in
slot 0) and `plain 1`, `plain 2`, `plain 3` were then inserted. -/
def tombAndThree : WarhammerHashTable :=
  { table := [plain 5, plain 2, default, plain 1, plain 3]
    occupied := [true, true, false, true, true]
    deleted := [true, false, false, false, false]
    capacity := 5
    count := 3 }

/-- The table `tombAndThree` after `insert (plain 4)`, which starts with a
rehash to capacity 10. -/
def tombRevived : WarhammerHashTable :=
  { table := [plain 5, default, plain 4, default, plain 3, default, plain 2, default,
      plain 1, default]
    occupied := [true, false, true, false, true, false, true, false, true, false]
    deleted := List.replicate 10 false
    capacity := 10
    count := 5 }

/-! ## Further notions used by the invariants -/

/-- The indices below `capacity` whose slot is Occupied: occupied flag set and
deleted flag clear. -/
def liveSet (t : WarhammerHashTable) : Finset Nat :=
  (Finset.range t.capacity).filter
    (fun i => t.occupied.getD i false = true ∧ t.deleted.getD i false = false)


/-- What an `insert` that returns does to a table in which `count` bounds the
number of occupied flags (as in every table a rehash is filling): the bound is
kept and `count` grows by at most 1. -/
def CountSpec (ins : WarhammerHashTable → WarhammerMiniature → Option WarhammerHashTable) :
    Prop :=
  ∀ (t t' : WarhammerHashTable) (m : WarhammerMiniature), WellFormed t →
    (occSet t).card ≤ t.count → ins t m = some t' →
    WellFormed t' ∧ (occSet t').card ≤ t'.count ∧ t'.count ≤ t.count + 1
/-- The polynomial hash of a name as the specification words it: starting from
`h`, each character is folded in as `h := h * 31 + charCode`, in 64-bit
unsigned arithmetic, `charCode` being the code of the character. -/
def nameHashSpec : List Char → Nat → Nat
  | [], h => h
  | c :: rest, h => nameHashSpec rest ((h * 31 + c.toNat) % 2 ^ 64)

/-- The hash as the specification words it: the polynomial hash `p` of the
name, XOR `cost * 2 ^ 3`, XOR `year * 2 ^ 7`, every intermediate value taken
modulo `2 ^ 64`, reduced modulo `capacity`. -/
def hashSpec (capacity : Nat) (name : String) (cost year : Int) : Nat :=
  let p := nameHashSpec name.toList 0
  let shiftedCost := ((cost * 2 ^ 3) % 2 ^ 64).toNat
  let shiftedYear := ((year * 2 ^ 7) % 2 ^ 64).toNat
  (p ^^^ shiftedCost ^^^ shiftedYear) % capacity

/-- The number folded in for one byte of a name: the byte itself below 128 (the
code of an ASCII character), and `2 ^ 64 - 256 + byte` from 128 on. -/
def byteCode (byte : Nat) : Nat :=
  if byte < 128 then byte else 2 ^ 64 - 256 + byte

/-- The polynomial hash over the bytes of a name: starting from `h`, each byte
is folded in as `h := h * 31 + byteCode`, in 64-bit unsigned arithmetic. -/
def nameHashBytes : List Nat → Nat → Nat
  | [], h => h
  | b :: rest, h => nameHashBytes rest ((h * 31 + byteCode b) % 2 ^ 64)

/-- The hash in terms of the bytes of the name: the polynomial hash `p` of the
bytes, XOR `cost * 2 ^ 3`, XOR `year * 2 ^ 7`, every intermediate value taken
modulo `2 ^ 64`, reduced modulo `capacity`. -/
def hashSpecBytes (capacity : Nat) (bytes : List Nat) (cost year : Int) : Nat :=
  let p := nameHashBytes bytes 0
  let shiftedCost := ((cost * 2 ^ 3) % 2 ^ 64).toNat
  let shiftedYear := ((year * 2 ^ 7) % 2 ^ 64).toNat
  (p ^^^ shiftedCost ^^^ shiftedYear) % capacity
/-- Every slot that holds a record lies on the probe sequence of that record,
at an attempt below `capacity`, behind non-empty slots only. -/
def Chained (t : WarhammerHashTable) : Prop :=
  ∀ (j : Nat) (S : WarhammerMiniature), slotHolds t j S = true →
    ∃ a, a < t.capacity ∧ quadraticProbe t.capacity (hashFunction t.capacity S) a = j ∧
      ∀ b, b < a →
        slotNonEmpty t (quadraticProbe t.capacity (hashFunction t.capacity S) b) = true
/-! ## A bounds-checked reading of the four operations

The operations once more, with every vector access and every `% capacity`
guarded: an access outside a vector or a division by zero stops the run with
`Run.fault`.  Apart from the guards the control flow is that of the
definitions above. -/

/-- The outcome of a bounds-checked run. -/
inductive Run (α : Type) where
  | fault : Run α
  | stuck : Run α
  | done : α → Run α
deriving DecidableEq, Repr

/-- The outcome that corresponds to a result of the unchecked `insert`:
`none` (recursion budget exhausted) is `stuck`. -/
def Run.ofOption {α : Type} : Option α → Run α
  | none => Run.stuck
  | some a => Run.done a

/-- Guard of one loop iteration of `insert`, `find` or `remove`: `index` is
inside each of the three vectors and `capacity`, the divisor of the hash and
of the probe, is not zero. -/
def inRange (t : WarhammerHashTable) (index : Nat) : Bool :=
  decide (index < t.table.length) && decide (index < t.occupied.length) &&
  decide (index < t.deleted.length) && decide (t.capacity ≠ 0)

/-- The loop of `find`, bounds-checked. -/
def findLoopChecked (t : WarhammerHashTable) (mini : WarhammerMiniature) :
    Nat → Nat → Nat → Run (Option WarhammerMiniature)
  | 0, _, _ => Run.done none
  | steps + 1, index, attempt =>
    if inRange t index then
      if t.occupied.getD index false || t.deleted.getD index false then
        if t.occupied.getD index false && !t.deleted.getD index false &&
            (t.table.getD index default).opEq mini then
          Run.done (some (t.table.getD index default))
        else if t.capacity ≤ attempt + 1 then Run.done none
        else findLoopChecked t mini steps
          (quadraticProbe t.capacity (hashFunction t.capacity mini) (attempt + 1)) (attempt + 1)
      else Run.done none
    else Run.fault

/-- The method `find`, bounds-checked. -/
def findChecked (t : WarhammerHashTable) (mini : WarhammerMiniature) :
    Run (Option WarhammerMiniature) :=
  if t.capacity = 0 then Run.fault
  else findLoopChecked t mini t.capacity (hashFunction t.capacity mini) 0

/-- The loop of `remove`, bounds-checked. -/
def removeLoopChecked (t : WarhammerHashTable) (mini : WarhammerMiniature) :
    Nat → Nat → Nat → Run (WarhammerHashTable × Bool)
  | 0, _, _ => Run.done (t, false)
  | steps + 1, index, attempt =>
    if inRange t index then
      if t.occupied.getD index false || t.deleted.getD index false then
        if t.occupied.getD index false && !t.deleted.getD index false &&
            (t.table.getD index default).opEq mini then
          Run.done (markDeleted t index, true)
        else if t.capacity ≤ attempt + 1 then Run.done (t, false)
        else removeLoopChecked t mini steps
          (quadraticProbe t.capacity (hashFunction t.capacity mini) (attempt + 1)) (attempt + 1)
      else Run.done (t, false)
    else Run.fault

/-- The method `remove`, bounds-checked. -/
def removeChecked (t : WarhammerHashTable) (mini : WarhammerMiniature) :
    Run (WarhammerHashTable × Bool) :=
  if t.capacity = 0 then Run.fault
  else removeLoopChecked t mini t.capacity (hashFunction t.capacity mini) 0

/-- The loop of `insert`, bounds-checked.  The slot it returns has passed the
guard, so the final writes of `insert` at that slot are in range. -/
def insertLoopChecked (t : WarhammerHashTable) (mini : WarhammerMiniature) :
    Nat → Nat → Nat → Run (Option Nat)
  | 0, _, _ => Run.done none
  | steps + 1, index, attempt =>
    if inRange t index then
      if t.occupied.getD index false && !t.deleted.getD index false &&
          (t.table.getD index default).opNe mini then
        if t.capacity ≤ attempt + 1 then Run.done none
        else insertLoopChecked t mini steps
          (quadraticProbe t.capacity (hashFunction t.capacity mini) (attempt + 1)) (attempt + 1)
      else Run.done (some index)
    else Run.fault

/-- The loop of `rehash`, bounds-checked: `i` must be inside the two saved
vectors and inside the current `deleted` vector. -/
def rehashLoopChecked (ins : WarhammerHashTable → WarhammerMiniature → Run WarhammerHashTable)
    (oldTable : List WarhammerMiniature) (oldOccupied : List Bool) :
    Nat → Nat → WarhammerHashTable → Run WarhammerHashTable
  | 0, _, t => Run.done t
  | n + 1, i, t =>
    if decide (i < oldTable.length) && decide (i < oldOccupied.length) &&
        decide (i < t.deleted.length) then
      if oldOccupied.getD i false && !t.deleted.getD i false then
        match ins t (oldTable.getD i default) with
        | Run.fault => Run.fault
        | Run.stuck => Run.stuck
        | Run.done t1 => rehashLoopChecked ins oldTable oldOccupied n (i + 1) t1
      else rehashLoopChecked ins oldTable oldOccupied n (i + 1) t
    else Run.fault

/-- The body of `rehash`, bounds-checked. -/
def rehashWithChecked (ins : WarhammerHashTable → WarhammerMiniature → Run WarhammerHashTable)
    (t : WarhammerHashTable) : Run WarhammerHashTable :=
  rehashLoopChecked ins t.table t.occupied t.table.length 0 (construct (t.capacity * 2))

/-- The body of `insert`, bounds-checked. -/
def insertWithChecked (ins : WarhammerHashTable → WarhammerMiniature → Run WarhammerHashTable)
    (t : WarhammerHashTable) (mini : WarhammerMiniature) : Run WarhammerHashTable :=
  match (if loadAtLeastHalf t.count t.capacity then rehashWithChecked ins t
      else Run.done t) with
  | Run.fault => Run.fault
  | Run.stuck => Run.stuck
  | Run.done t1 =>
    if t1.capacity = 0 then Run.fault
    else
      match insertLoopChecked t1 mini t1.capacity (hashFunction t1.capacity mini) 0 with
      | Run.fault => Run.fault
      | Run.stuck => Run.stuck
      | Run.done (some index) => Run.done (place t1 index mini)
      | Run.done none =>
        match rehashWithChecked ins t1 with
        | Run.fault => Run.fault
        | Run.stuck => Run.stuck
        | Run.done t2 => ins t2 mini

/-- The method `insert`, bounds-checked, with recursion budget `fuel`. -/
def insertChecked : Nat → WarhammerHashTable → WarhammerMiniature → Run WarhammerHashTable
  | 0, _, _ => Run.stuck
  | fuel + 1, t, mini => insertWithChecked (insertChecked fuel) t mini

/-- The method `rehash`, bounds-checked. -/
def rehashChecked (fuel : Nat) (t : WarhammerHashTable) : Run WarhammerHashTable :=
  rehashWithChecked (insertChecked fuel) t
/-- Records whose 64-bit hash before the reduction modulo `capacity` is 0 for
every `k` from 0 to `2 ^ 27 - 1`: `(16 * k) * 8` and `k * 128` cancel under
XOR.  They share their probe sequence at every capacity. -/
def coll (k : Int) : WarhammerMiniature := ⟨16 * k, "", k⟩

/-- The table reached from an empty table of capacity 5 by inserting `coll 1`
to `coll 6`: capacity 20, and the six records fill the six slots 0, 1, 4, 5,
9, 16 that the probe sequence from home slot 0 visits. -/
def collSix : WarhammerHashTable :=
  { table := [coll 1, coll 2, default, default, coll 3, coll 6, default, default, default,
      coll 5, default, default, default, default, default, default, coll 4, default,
      default, default]
    occupied := [true, true, false, false, true, true, false, false, false, true, false,
      false, false, false, false, false, true, false, false, false]
    deleted := List.replicate 20 false
    capacity := 20
    count := 6 }

/-- The capacity of the wide table: `5 * 2 ^ 30` slots. -/
def wideCap : Nat := 5 * 2 ^ 30

/-- A record whose home slot in the wide table is `s`: cost 0, the one ASCII
character with code `s % 128` as name, year `s / 128`. -/
def wideRec (s : Nat) : WarhammerMiniature :=
  ⟨0, String.singleton (Char.ofNat (s % 128)), ((s / 128 : Nat) : Int)⟩

/-- The slot `a² mod capacity` of the wide table. -/
def wideSlot (a : Nat) : Nat := a * a % wideCap

/-- The wide table after `n` inserts into the empty table of capacity
`5 * 2 ^ 30`: for each `a < n` the record `wideRec (wideSlot a)` has been written
into its home slot `wideSlot a`. -/
def wideFill : Nat → WarhammerHashTable
  | 0 => construct wideCap
  | n + 1 => place (wideFill n) (wideSlot n) (wideRec (wideSlot n))

/-- The number of inserts after which every slot `a² mod (5 * 2 ^ 30)` is
Occupied. -/
@[irreducible] def wideCount : Nat := 5 * 2 ^ 28 + 1

/-- The slot probed by `quadraticProbe` at attempt `2 ^ 32 + 1` from home slot 0
in the wide table: `(2 ^ 32 + 1)² mod 2 ^ 64 = 2 ^ 33 + 1`, reduced modulo
`5 * 2 ^ 30`. -/
def widePos : Nat := 3 * 2 ^ 30 + 1

/-- The wide table after one more insert, of the record `plain 0` (home slot
0), which the insertion loop writes into slot `widePos`. -/
def wideTable : WarhammerHashTable :=
  place (wideFill wideCount) widePos (plain 0)

/-! ## Basic lemmas -/

theorem opEq_iff (a b : WarhammerMiniature) : a.opEq b = true ↔ a = b := by
  cases a; cases b
  simp [WarhammerMiniature.opEq, and_assoc]

theorem opNe_iff (a b : WarhammerMiniature) : a.opNe b = true ↔ a ≠ b := by
  simp [WarhammerMiniature.opNe, ← opEq_iff]

theorem hashFunction_lt (c : Nat) (hc : 1 ≤ c) (m : WarhammerMiniature) :
    hashFunction c m < c := by
  unfold hashFunction
  exact Nat.mod_lt _ hc

theorem quadraticProbe_lt (c : Nat) (hc : 1 ≤ c) (i a : Nat) : quadraticProbe c i a < c := by
  unfold quadraticProbe
  exact Nat.mod_lt _ hc

theorem getD_set_self {α : Type} (l : List α) (i : Nat) (v d : α) (h : i < l.length) :
    (l.set i v).getD i d = v := by
  simp [List.getD_eq_getElem?_getD, h]

theorem getD_set_other {α : Type} (l : List α) (i j : Nat) (v d : α) (h : i ≠ j) :
    (l.set i v).getD j d = l.getD j d := by
  simp [List.getD_eq_getElem?_getD, List.getElem?_set_ne h]

theorem getD_replicate_same {α : Type} (n i : Nat) (d : α) :
    (List.replicate n d).getD i d = d := by
  simp only [List.getD_eq_getElem?_getD, List.getElem?_replicate]
  split <;> rfl


theorem insertLoop_succ (t : WarhammerHashTable) (m : WarhammerMiniature) (s idx a : Nat) :
    insertLoop t m (s + 1) idx a =
      if slotBlocks t idx m then
        if t.capacity ≤ a + 1 then none
        else insertLoop t m s (quadraticProbe t.capacity (hashFunction t.capacity m) (a + 1)) (a + 1)
      else some idx := rfl

theorem findLoop_succ (t : WarhammerHashTable) (m : WarhammerMiniature) (s idx a : Nat) :
    findLoop t m (s + 1) idx a =
      if slotNonEmpty t idx then
        if slotHolds t idx m then some (t.table.getD idx default)
        else if t.capacity ≤ a + 1 then none
        else findLoop t m s (quadraticProbe t.capacity (hashFunction t.capacity m) (a + 1)) (a + 1)
      else none := rfl

theorem removeLoop_succ (t : WarhammerHashTable) (m : WarhammerMiniature) (s idx a : Nat) :
    removeLoop t m (s + 1) idx a =
      if slotNonEmpty t idx then
        if slotHolds t idx m then
          (markDeleted t idx, true)
        else if t.capacity ≤ a + 1 then (t, false)
        else removeLoop t m s (quadraticProbe t.capacity (hashFunction t.capacity m) (a + 1)) (a + 1)
      else (t, false) := rfl

theorem slotHolds_record (t : WarhammerHashTable) (i : Nat) (m : WarhammerMiniature)
    (h : slotHolds t i m = true) : t.table.getD i default = m := by
  simp only [slotHolds, Bool.and_eq_true] at h
  exact (opEq_iff _ _).1 h.2

theorem slotHolds_nonEmpty (t : WarhammerHashTable) (i : Nat) (m : WarhammerMiniature)
    (h : slotHolds t i m = true) : slotNonEmpty t i = true := by
  simp only [slotHolds, Bool.and_eq_true] at h
  simp only [slotNonEmpty, Bool.or_eq_true]
  exact Or.inl h.1.1

theorem slotBlocks_nonEmpty (t : WarhammerHashTable) (i : Nat) (m : WarhammerMiniature)
    (h : slotBlocks t i m = true) : slotNonEmpty t i = true := by
  simp only [slotBlocks, Bool.and_eq_true] at h
  simp only [slotNonEmpty, Bool.or_eq_true]
  exact Or.inl h.1.1

theorem slotBlocks_not_holds (t : WarhammerHashTable) (i : Nat) (m : WarhammerMiniature)
    (h : slotBlocks t i m = true) : slotHolds t i m = false := by
  simp only [slotBlocks, Bool.and_eq_true, WarhammerMiniature.opNe, Bool.not_eq_true'] at h
  simp only [slotHolds, h.2, Bool.and_false]

/-- A slot holding a record different from `m` blocks the insertion of `m`. -/
theorem slotHolds_blocks (t : WarhammerHashTable) (i : Nat) (s m : WarhammerMiniature)
    (hne : s ≠ m) (h : slotHolds t i s = true) : slotBlocks t i m = true := by
  have hrec := slotHolds_record t i s h
  simp only [slotHolds, Bool.and_eq_true] at h
  simp only [slotBlocks, Bool.and_eq_true]
  refine ⟨h.1, ?_⟩
  rw [hrec]
  exact (opNe_iff _ _).2 hne

/-- The slot returned by the insertion loop does not block the record. -/
theorem insertLoop_not_blocks (t : WarhammerHashTable) (m : WarhammerMiniature) :
    ∀ (s idx a i : Nat), insertLoop t m s idx a = some i → slotBlocks t i m = false := by
  intro s
  induction s with
  | zero => intro idx a i h; simp [insertLoop] at h
  | succ s ih =>
    intro idx a i h
    rw [insertLoop_succ] at h
    by_cases hb : slotBlocks t idx m = true
    · rw [if_pos hb] at h
      by_cases hcap : t.capacity ≤ a + 1
      · rw [if_pos hcap] at h; exact absurd h (by simp)
      · rw [if_neg hcap] at h
        exact ih _ _ _ h
    · rw [if_neg hb] at h
      have : idx = i := by simpa using h
      subst this
      simpa using hb

/-- The slot returned by the insertion loop is inside the table. -/
theorem insertLoop_lt (t : WarhammerHashTable) (m : WarhammerMiniature) (hc : 1 ≤ t.capacity) :
    ∀ (s idx a i : Nat), idx < t.capacity → insertLoop t m s idx a = some i → i < t.capacity := by
  intro s
  induction s with
  | zero => intro idx a i _ h; simp [insertLoop] at h
  | succ s ih =>
    intro idx a i hidx h
    rw [insertLoop_succ] at h
    by_cases hb : slotBlocks t idx m = true
    · rw [if_pos hb] at h
      by_cases hcap : t.capacity ≤ a + 1
      · rw [if_pos hcap] at h; exact absurd h (by simp)
      · rw [if_neg hcap] at h
        exact ih _ _ _ (quadraticProbe_lt _ hc _ _) h
    · rw [if_neg hb] at h
      have : idx = i := by simpa using h
      subst this
      exact hidx

theorem place_capacity (t : WarhammerHashTable) (i : Nat) (m : WarhammerMiniature) :
    (place t i m).capacity = t.capacity := rfl

theorem place_wellFormed (t : WarhammerHashTable) (i : Nat) (m : WarhammerMiniature)
    (h : WellFormed t) : WellFormed (place t i m) := by
  refine ⟨h.capacity_pos, ?_, ?_, ?_⟩
  · simpa [place] using h.table_length
  · simpa [place] using h.occupied_length
  · simpa [place] using h.deleted_length

theorem place_noDeleted (t : WarhammerHashTable) (i : Nat) (m : WarhammerMiniature)
    (h : NoDeleted t) : NoDeleted (place t i m) := by
  intro j
  by_cases hij : i = j
  · subst hij
    by_cases hl : i < t.deleted.length
    · exact getD_set_self _ _ _ _ hl
    · have : (place t i m).deleted = t.deleted := by
        simp only [place]
        exact List.set_eq_of_length_le (Nat.le_of_not_lt hl)
      rw [this]; exact h i
  · have : (place t i m).deleted.getD j false = t.deleted.getD j false :=
      getD_set_other _ _ _ _ _ hij
    rw [this]; exact h j

theorem place_slotHolds_self (t : WarhammerHashTable) (i : Nat) (m : WarhammerMiniature)
    (h : WellFormed t) (hi : i < t.capacity) : slotHolds (place t i m) i m = true := by
  have h1 : (place t i m).occupied.getD i false = true :=
    getD_set_self _ _ _ _ (by rw [h.occupied_length]; exact hi)
  have h2 : (place t i m).deleted.getD i false = false :=
    getD_set_self _ _ _ _ (by rw [h.deleted_length]; exact hi)
  have h3 : (place t i m).table.getD i default = m :=
    getD_set_self _ _ _ _ (by rw [h.table_length]; exact hi)
  simp only [slotHolds, h1, h2, h3, Bool.not_false, Bool.and_self, Bool.true_and]
  exact (opEq_iff _ _).2 rfl

theorem place_occupied_other (t : WarhammerHashTable) (i j : Nat) (m : WarhammerMiniature)
    (hij : i ≠ j) : (place t i m).occupied.getD j false = t.occupied.getD j false :=
  getD_set_other _ _ _ _ _ hij

theorem place_deleted_other (t : WarhammerHashTable) (i j : Nat) (m : WarhammerMiniature)
    (hij : i ≠ j) : (place t i m).deleted.getD j false = t.deleted.getD j false :=
  getD_set_other _ _ _ _ _ hij

theorem place_table_other (t : WarhammerHashTable) (i j : Nat) (m : WarhammerMiniature)
    (hij : i ≠ j) : (place t i m).table.getD j default = t.table.getD j default :=
  getD_set_other _ _ _ _ _ hij

theorem place_slotHolds_other (t : WarhammerHashTable) (i j : Nat) (m x : WarhammerMiniature)
    (hij : i ≠ j) : slotHolds (place t i m) j x = slotHolds t j x := by
  simp only [slotHolds, place_occupied_other t i j m hij, place_deleted_other t i j m hij,
    place_table_other t i j m hij]

theorem place_slotNonEmpty_other (t : WarhammerHashTable) (i j : Nat) (m : WarhammerMiniature)
    (hij : i ≠ j) : slotNonEmpty (place t i m) j = slotNonEmpty t j := by
  simp only [slotNonEmpty, place_occupied_other t i j m hij, place_deleted_other t i j m hij]

/-- Writing a record makes no non-empty slot empty. -/
theorem place_slotNonEmpty_mono (t : WarhammerHashTable) (i j : Nat) (m : WarhammerMiniature)
    (h : WellFormed t) (hi : i < t.capacity) (hj : slotNonEmpty t j = true) :
    slotNonEmpty (place t i m) j = true := by
  by_cases hij : i = j
  · subst hij
    exact slotHolds_nonEmpty _ _ m (place_slotHolds_self t i m h hi)
  · rw [place_slotNonEmpty_other t i j m hij]; exact hj

/-- Writing `m` into a slot that does not block `m` keeps every held record held. -/
theorem place_slotHolds_mono (t : WarhammerHashTable) (i j : Nat) (m x : WarhammerMiniature)
    (h : WellFormed t) (hi : i < t.capacity) (hb : slotBlocks t i m = false)
    (hj : slotHolds t j x = true) : slotHolds (place t i m) j x = true := by
  by_cases hij : i = j
  · subst hij
    by_cases hxm : x = m
    · subst hxm; exact place_slotHolds_self t i x h hi
    · rw [slotHolds_blocks t i x m hxm hj] at hb
      exact absurd hb (by simp)
  · rw [place_slotHolds_other t i j m x hij]; exact hj

/-- Round trip on the loops: if the insertion loop stops at slot `i`, the search
loop started from the same state on the table with the record written at `i`
finds the record. -/
theorem findLoop_place (t : WarhammerHashTable) (m : WarhammerMiniature) (h : WellFormed t) :
    ∀ (s idx a i : Nat), insertLoop t m s idx a = some i → i < t.capacity →
      findLoop (place t i m) m s idx a = some m := by
  intro s
  induction s with
  | zero => intro idx a i hl; simp [insertLoop] at hl
  | succ s ih =>
    intro idx a i hl hi
    have hstop := insertLoop_not_blocks t m _ _ _ _ hl
    rw [insertLoop_succ] at hl
    rw [findLoop_succ, place_capacity]
    by_cases hb : slotBlocks t idx m = true
    · have hne : i ≠ idx := by
        intro e; rw [e, hb] at hstop; exact absurd hstop (by simp)
      rw [if_pos hb] at hl
      by_cases hcap : t.capacity ≤ a + 1
      · rw [if_pos hcap] at hl; exact absurd hl (by simp)
      · rw [if_neg hcap] at hl
        rw [place_slotNonEmpty_other t i idx m hne, place_slotHolds_other t i idx m m hne,
          slotBlocks_nonEmpty t idx m hb, slotBlocks_not_holds t idx m hb]
        simp only [if_true, if_neg hcap]
        exact ih _ _ _ hl hi
    · rw [if_neg hb] at hl
      have : idx = i := by simpa using hl
      subst this
      have hh := place_slotHolds_self t idx m h hi
      rw [slotHolds_nonEmpty _ _ _ hh, hh]
      simp only [if_true]
      rw [slotHolds_record _ _ _ hh]

/-- Monotonicity of the search loop: if every non-empty slot of `t` is non-empty
in `u` and every slot holding `x` in `t` holds `x` in `u`, a successful search
for `x` in `t` is successful in `u`. -/
theorem findLoop_mono (t u : WarhammerHashTable) (x : WarhammerMiniature)
    (hcap : u.capacity = t.capacity)
    (hne : ∀ j, slotNonEmpty t j = true → slotNonEmpty u j = true)
    (hh : ∀ j, slotHolds t j x = true → slotHolds u j x = true) :
    ∀ (s idx a : Nat) (r : WarhammerMiniature), findLoop t x s idx a = some r →
      findLoop u x s idx a = some x := by
  intro s
  induction s with
  | zero => intro idx a r hf; simp [findLoop] at hf
  | succ s ih =>
    intro idx a r hf
    rw [findLoop_succ] at hf
    rw [findLoop_succ, hcap]
    by_cases hn : slotNonEmpty t idx = true
    · rw [if_pos hn] at hf
      rw [if_pos (hne idx hn)]
      by_cases hu : slotHolds u idx x = true
      · rw [if_pos hu, slotHolds_record _ _ _ hu]
      · rw [if_neg hu]
        have ht : ¬ slotHolds t idx x = true := fun e => hu (hh idx e)
        rw [if_neg ht] at hf
        by_cases hc : t.capacity ≤ a + 1
        · rw [if_pos hc] at hf; exact absurd hf (by simp)
        · rw [if_neg hc] at hf
          rw [if_neg hc]
          exact ih _ _ _ hf
    · rw [if_neg hn] at hf; exact absurd hf (by simp)

/-- A successful search returns the record searched for. -/
theorem findLoop_result (t : WarhammerHashTable) (x : WarhammerMiniature) :
    ∀ (s idx a : Nat) (r : WarhammerMiniature), findLoop t x s idx a = some r → r = x := by
  intro s idx a r hf
  have := findLoop_mono t t x rfl (fun _ h => h) (fun _ h => h) s idx a r hf
  rw [this] at hf
  exact (Option.some.inj hf).symm

/-- A successful search has seen a slot that holds the record. -/
theorem findLoop_holds (t : WarhammerHashTable) (x : WarhammerMiniature) :
    ∀ (s idx a : Nat) (r : WarhammerMiniature), findLoop t x s idx a = some r →
      ∃ j, slotHolds t j x = true := by
  intro s
  induction s with
  | zero => intro idx a r hf; simp [findLoop] at hf
  | succ s ih =>
    intro idx a r hf
    rw [findLoop_succ] at hf
    by_cases hn : slotNonEmpty t idx = true
    · rw [if_pos hn] at hf
      by_cases ht : slotHolds t idx x = true
      · exact ⟨idx, ht⟩
      · rw [if_neg ht] at hf
        by_cases hc : t.capacity ≤ a + 1
        · rw [if_pos hc] at hf; exact absurd hf (by simp)
        · rw [if_neg hc] at hf
          exact ih _ _ _ hf
    · rw [if_neg hn] at hf; exact absurd hf (by simp)

theorem rehashLoop_spec (ins : WarhammerHashTable → WarhammerMiniature → Option WarhammerHashTable)
    (hins : InsertSpec ins) (oT : List WarhammerMiniature) (oO : List Bool) :
    ∀ (n i : Nat) (tc t' : WarhammerHashTable), WellFormed tc → NoDeleted tc →
      rehashLoop ins oT oO n i tc = some t' →
      WellFormed t' ∧ NoDeleted t' ∧
      (∀ x r, find tc x = some r → find t' x = some x) ∧
      (∀ j, i ≤ j → j < i + n → oO.getD j false = true →
        find t' (oT.getD j default) = some (oT.getD j default)) := by
  intro n
  induction n with
  | zero =>
    intro i tc t' hwf hnd h
    simp only [rehashLoop, Option.some.injEq] at h
    subst h
    refine ⟨hwf, hnd, ?_, ?_⟩
    · intro x r hf
      rw [find] at hf ⊢
      exact findLoop_mono tc tc x rfl (fun _ h => h) (fun _ h => h) _ _ _ r hf
    · intro j h1 h2; omega
  | succ n ih =>
    intro i tc t' hwf hnd h
    rw [rehashLoop] at h
    by_cases ho : oO.getD i false = true
    · have hcond : (oO.getD i false && !tc.deleted.getD i false) = true := by
        rw [ho, hnd i]; rfl
      rw [if_pos hcond] at h
      cases hi : ins tc (oT.getD i default) with
      | none => rw [hi] at h; exact absurd h (by simp)
      | some t1 =>
        rw [hi] at h
        obtain ⟨hwf1, hf1, hp1, hnd1⟩ := hins tc t1 _ hwf hi
        obtain ⟨hwf2, hnd2, hp2, hall⟩ := ih (i + 1) t1 t' hwf1 (hnd1 hnd) h
        refine ⟨hwf2, hnd2, fun x r hf => hp2 x x (hp1 x r hf), ?_⟩
        intro j h1 h2 hj
        by_cases hji : j = i
        · subst hji; exact hp2 _ _ hf1
        · exact hall j (by omega) (by omega) hj
    · have hcond : ¬ (oO.getD i false && !tc.deleted.getD i false) = true := by
        simp only [Bool.and_eq_true]; exact fun e => ho e.1
      rw [if_neg hcond] at h
      obtain ⟨hwf2, hnd2, hp2, hall⟩ := ih (i + 1) tc t' hwf hnd h
      refine ⟨hwf2, hnd2, hp2, ?_⟩
      intro j h1 h2 hj
      by_cases hji : j = i
      · subst hji; exact absurd hj ho
      · exact hall j (by omega) (by omega) hj

/-- A rehash that returns gives a well-formed table without deleted flags in
which every record of a slot whose occupied flag was set is found, whatever
the deleted flag of that slot was. -/
theorem rehashWith_spec (ins : WarhammerHashTable → WarhammerMiniature → Option WarhammerHashTable)
    (hins : InsertSpec ins) (t t' : WarhammerHashTable) (hwf : WellFormed t)
    (h : rehashWith ins t = some t') :
    WellFormed t' ∧ NoDeleted t' ∧
    (∀ j, t.occupied.getD j false = true →
      find t' (t.table.getD j default) = some (t.table.getD j default)) := by
  unfold rehashWith at h
  have hwf0 : WellFormed
      { table := List.replicate (t.capacity * 2) default
        occupied := List.replicate (t.capacity * 2) false
        deleted := List.replicate (t.capacity * 2) false
        capacity := t.capacity * 2
        count := 0 } := by
    refine ⟨?_, ?_, ?_, ?_⟩
    · have := hwf.capacity_pos
      show 1 ≤ t.capacity * 2
      omega
    · exact List.length_replicate _ _
    · exact List.length_replicate _ _
    · exact List.length_replicate _ _
  have hnd0 : NoDeleted
      { table := List.replicate (t.capacity * 2) default
        occupied := List.replicate (t.capacity * 2) false
        deleted := List.replicate (t.capacity * 2) false
        capacity := t.capacity * 2
        count := 0 } := fun i => getD_replicate_same _ _ _
  obtain ⟨h1, h2, _, h4⟩ := rehashLoop_spec ins hins _ _ _ _ _ _ hwf0 hnd0 h
  refine ⟨h1, h2, ?_⟩
  intro j hj
  have hlt : j < t.table.length := by
    rw [hwf.table_length, ← hwf.occupied_length]
    by_contra hge
    rw [List.getD_eq_default _ _ (Nat.le_of_not_lt hge)] at hj
    exact absurd hj (by simp)
  exact h4 j (Nat.zero_le _) (by omega) hj

/-- A rehash that returns keeps every found record found. -/
theorem rehashWith_find (ins : WarhammerHashTable → WarhammerMiniature → Option WarhammerHashTable)
    (hins : InsertSpec ins) (t t' : WarhammerHashTable) (hwf : WellFormed t)
    (h : rehashWith ins t = some t') (x r : WarhammerMiniature) (hf : find t x = some r) :
    find t' x = some x := by
  obtain ⟨j, hj⟩ := findLoop_holds t x _ _ _ r hf
  have hrec := slotHolds_record t j x hj
  simp only [slotHolds, Bool.and_eq_true] at hj
  have := (rehashWith_spec ins hins t t' hwf h).2.2 j hj.1.1
  rw [hrec] at this
  exact this

/-- The final write of `insert` on a well-formed table satisfies the insertion
specification. -/
theorem place_spec (t : WarhammerHashTable) (m : WarhammerMiniature) (i : Nat)
    (hwf : WellFormed t)
    (hl : insertLoop t m t.capacity (hashFunction t.capacity m) 0 = some i) :
    WellFormed (place t i m) ∧ find (place t i m) m = some m ∧
    (∀ x r, find t x = some r → find (place t i m) x = some x) ∧
    (NoDeleted t → NoDeleted (place t i m)) := by
  have hi : i < t.capacity :=
    insertLoop_lt t m hwf.capacity_pos _ _ _ _ (hashFunction_lt _ hwf.capacity_pos _) hl
  have hb := insertLoop_not_blocks t m _ _ _ _ hl
  refine ⟨place_wellFormed t i m hwf, ?_, ?_, place_noDeleted t i m⟩
  · exact findLoop_place t m hwf _ _ _ _ hl hi
  · intro x r hf
    exact findLoop_mono t (place t i m) x rfl
      (fun j hj => place_slotNonEmpty_mono t i j m hwf hi hj)
      (fun j hj => place_slotHolds_mono t i j m x hwf hi hb hj) _ _ _ r hf

theorem insertWith_spec (ins : WarhammerHashTable → WarhammerMiniature → Option WarhammerHashTable)
    (hins : InsertSpec ins) : InsertSpec (insertWith ins) := by
  intro t t' m hwf h
  unfold insertWith at h
  -- the table after the load test
  have hpre : ∀ t1, (if loadAtLeastHalf t.count t.capacity = true then rehashWith ins t
        else some t) = some t1 →
      WellFormed t1 ∧ (∀ x r, find t x = some r → find t1 x = some x) ∧
      (NoDeleted t → NoDeleted t1) := by
    intro t1 h1
    by_cases hload : loadAtLeastHalf t.count t.capacity = true
    · rw [if_pos hload] at h1
      obtain ⟨a, b, _⟩ := rehashWith_spec ins hins t t1 hwf h1
      exact ⟨a, fun x r hf => rehashWith_find ins hins t t1 hwf h1 x r hf, fun _ => b⟩
    · rw [if_neg hload] at h1
      have : t = t1 := Option.some.inj h1
      subst this
      exact ⟨hwf, fun x r hf => by rw [hf, findLoop_result t x _ _ _ r hf], fun e => e⟩
  cases h1 : (if loadAtLeastHalf t.count t.capacity = true then rehashWith ins t
      else some t) with
  | none => rw [h1] at h; exact absurd h (by simp)
  | some t1 =>
    rw [h1] at h
    obtain ⟨hwf1, hp1, hnd1⟩ := hpre t1 h1
    simp only at h
    cases hl : insertLoop t1 m t1.capacity (hashFunction t1.capacity m) 0 with
    | some i =>
      rw [hl] at h
      have : place t1 i m = t' := Option.some.inj h
      subst this
      obtain ⟨a, b, c, d⟩ := place_spec t1 m i hwf1 hl
      exact ⟨a, b, fun x r hf => c x x (hp1 x r hf), fun e => d (hnd1 e)⟩
    | none =>
      rw [hl] at h
      simp only at h
      cases h2 : rehashWith ins t1 with
      | none => rw [h2] at h; exact absurd h (by simp)
      | some t2 =>
        rw [h2] at h
        simp only at h
        obtain ⟨hwf2, hnd2, _⟩ := rehashWith_spec ins hins t1 t2 hwf1 h2
        obtain ⟨a, b, c, d⟩ := hins t2 t' m hwf2 h
        exact ⟨a, b,
          fun x r hf => c x x (rehashWith_find ins hins t1 t2 hwf1 h2 x x (hp1 x r hf)),
          fun _ => d hnd2⟩

/-- Every call of `insert` that returns satisfies the insertion specification. -/
theorem insert_spec (fuel : Nat) : InsertSpec (insert fuel) := by
  induction fuel with
  | zero => intro t t' m _ h; simp [insert] at h
  | succ n ih =>
    intro t t' m hwf h
    rw [insert] at h
    exact insertWith_spec (insert n) ih t t' m hwf h

theorem construct_wellFormed (c : Nat) (hc : 1 ≤ c) : WellFormed (construct c) :=
  ⟨hc, List.length_replicate _ _, List.length_replicate _ _, List.length_replicate _ _⟩

/-- The removal loop and the search loop take the same path: either both fail
and the table is returned as it was, or both stop at a slot holding the record,
which the removal marks deleted. -/
theorem removeLoop_cases (t : WarhammerHashTable) (m : WarhammerMiniature) :
    ∀ (s idx a : Nat),
      (removeLoop t m s idx a = (t, false) ∧ findLoop t m s idx a = none) ∨
      (∃ i, slotHolds t i m = true ∧ removeLoop t m s idx a = (markDeleted t i, true) ∧
        findLoop t m s idx a = some m) := by
  intro s
  induction s with
  | zero => intro idx a; exact Or.inl ⟨rfl, rfl⟩
  | succ s ih =>
    intro idx a
    rw [removeLoop_succ, findLoop_succ]
    by_cases hn : slotNonEmpty t idx = true
    · rw [if_pos hn, if_pos hn]
      by_cases hh : slotHolds t idx m = true
      · rw [if_pos hh, if_pos hh]
        exact Or.inr ⟨idx, hh, rfl, by rw [slotHolds_record t idx m hh]⟩
      · rw [if_neg hh, if_neg hh]
        by_cases hc : t.capacity ≤ a + 1
        · rw [if_pos hc, if_pos hc]; exact Or.inl ⟨rfl, rfl⟩
        · rw [if_neg hc, if_neg hc]; exact ih _ _
    · rw [if_neg hn, if_neg hn]; exact Or.inl ⟨rfl, rfl⟩

theorem remove_cases (t : WarhammerHashTable) (m : WarhammerMiniature) :
    (remove t m = (t, false) ∧ find t m = none) ∨
    (∃ i, slotHolds t i m = true ∧ remove t m = (markDeleted t i, true) ∧
      find t m = some m) :=
  removeLoop_cases t m _ _ _

theorem markDeleted_wellFormed (t : WarhammerHashTable) (i : Nat) (h : WellFormed t) :
    WellFormed (markDeleted t i) := by
  refine ⟨h.capacity_pos, h.table_length, h.occupied_length, ?_⟩
  simpa [markDeleted] using h.deleted_length

theorem remove_wellFormed (t : WarhammerHashTable) (m : WarhammerMiniature)
    (h : WellFormed t) : WellFormed (remove t m).1 := by
  rcases remove_cases t m with ⟨e, _⟩ | ⟨i, _, e, _⟩
  · rw [e]; exact h
  · rw [e]; exact markDeleted_wellFormed t i h

/-- Every reachable table is well formed. -/
theorem Reachable.wellFormed {t : WarhammerHashTable} (h : Reachable t) : WellFormed t := by
  induction h with
  | init c hc => exact construct_wellFormed c hc
  | step_insert t t' fuel mini _ hins ih => exact (insert_spec fuel t t' mini ih hins).1
  | step_remove t mini _ ih => exact remove_wellFormed t mini ih

/-- The search loop only depends on which slots are non-empty and which hold
the record searched for. -/
theorem findLoop_congr (t u : WarhammerHashTable) (x : WarhammerMiniature)
    (hcap : u.capacity = t.capacity)
    (hne : ∀ j, slotNonEmpty u j = slotNonEmpty t j)
    (hh : ∀ j, slotHolds u j x = slotHolds t j x) :
    ∀ (s idx a : Nat), findLoop u x s idx a = findLoop t x s idx a := by
  intro s
  induction s with
  | zero => intro idx a; rfl
  | succ s ih =>
    intro idx a
    rw [findLoop_succ, findLoop_succ, hcap, hne idx, hh idx, ih]
    by_cases hn : slotNonEmpty t idx = true
    · rw [if_pos hn, if_pos hn]
      by_cases ht : slotHolds t idx x = true
      · rw [if_pos ht, if_pos ht, slotHolds_record t idx x ht,
          slotHolds_record u idx x (by rw [hh idx]; exact ht)]
      · rw [if_neg ht, if_neg ht]
    · rw [if_neg hn, if_neg hn]

/-- Marking a slot that holds `a` deleted does not change any search for a
different record `b`. -/
theorem find_markDeleted (t : WarhammerHashTable) (i : Nat) (a b : WarhammerMiniature)
    (hab : a ≠ b) (hi : slotHolds t i a = true) : find (markDeleted t i) b = find t b := by
  have hrec := slotHolds_record t i a hi
  have hocc : t.occupied.getD i false = true := by
    simp only [slotHolds, Bool.and_eq_true] at hi; exact hi.1.1
  have hfalse : (t.table.getD i default).opEq b = false := by
    rw [hrec]
    cases hq : a.opEq b with
    | false => rfl
    | true => exact absurd ((opEq_iff a b).1 hq) hab
  unfold find
  show findLoop (markDeleted t i) b t.capacity (hashFunction t.capacity b) 0 = _
  apply findLoop_congr t (markDeleted t i) b rfl
  · intro j
    by_cases hij : i = j
    · subst hij
      show (t.occupied.getD i false || (t.deleted.set i true).getD i false) =
        (t.occupied.getD i false || t.deleted.getD i false)
      rw [hocc]; rfl
    · show (t.occupied.getD j false || (t.deleted.set i true).getD j false) = _
      rw [getD_set_other _ _ _ _ _ hij]; rfl
  · intro j
    by_cases hij : i = j
    · subst hij
      show (t.occupied.getD i false && !(t.deleted.set i true).getD i false &&
          (t.table.getD i default).opEq b) =
        (t.occupied.getD i false && !t.deleted.getD i false && (t.table.getD i default).opEq b)
      rw [hfalse, Bool.and_false, Bool.and_false]
    · show (t.occupied.getD j false && !(t.deleted.set i true).getD j false &&
          (t.table.getD j default).opEq b) = _
      rw [getD_set_other _ _ _ _ _ hij]; rfl

/-! ## The iteration and recursion budgets -/

/-- The insertion loop does not depend on its iteration budget once the budget
covers the attempts left before `capacity`. -/
theorem insertLoop_steps (t : WarhammerHashTable) (m : WarhammerMiniature) :
    ∀ (s s' idx a : Nat), a < t.capacity → t.capacity ≤ s + a → t.capacity ≤ s' + a →
      insertLoop t m s idx a = insertLoop t m s' idx a := by
  intro s
  induction s with
  | zero => intro s' idx a h1 h2 _; omega
  | succ s ih =>
    intro s' idx a h1 h2 h3
    cases s' with
    | zero => omega
    | succ s' =>
      rw [insertLoop_succ, insertLoop_succ]
      by_cases hcap : t.capacity ≤ a + 1
      · rw [if_pos hcap, if_pos hcap]
      · rw [if_neg hcap, if_neg hcap, ih s' _ (a + 1) (by omega) (by omega) (by omega)]

/-- The search loop does not depend on its iteration budget once the budget
covers the attempts left before `capacity`. -/
theorem findLoop_steps (t : WarhammerHashTable) (m : WarhammerMiniature) :
    ∀ (s s' idx a : Nat), a < t.capacity → t.capacity ≤ s + a → t.capacity ≤ s' + a →
      findLoop t m s idx a = findLoop t m s' idx a := by
  intro s
  induction s with
  | zero => intro s' idx a h1 h2 _; omega
  | succ s ih =>
    intro s' idx a h1 h2 h3
    cases s' with
    | zero => omega
    | succ s' =>
      rw [findLoop_succ, findLoop_succ]
      by_cases hcap : t.capacity ≤ a + 1
      · rw [if_pos hcap, if_pos hcap]
      · rw [if_neg hcap, if_neg hcap, ih s' _ (a + 1) (by omega) (by omega) (by omega)]

/-- The removal loop does not depend on its iteration budget once the budget
covers the attempts left before `capacity`. -/
theorem removeLoop_steps (t : WarhammerHashTable) (m : WarhammerMiniature) :
    ∀ (s s' idx a : Nat), a < t.capacity → t.capacity ≤ s + a → t.capacity ≤ s' + a →
      removeLoop t m s idx a = removeLoop t m s' idx a := by
  intro s
  induction s with
  | zero => intro s' idx a h1 h2 _; omega
  | succ s ih =>
    intro s' idx a h1 h2 h3
    cases s' with
    | zero => omega
    | succ s' =>
      rw [removeLoop_succ, removeLoop_succ]
      by_cases hcap : t.capacity ≤ a + 1
      · rw [if_pos hcap, if_pos hcap]
      · rw [if_neg hcap, if_neg hcap, ih s' _ (a + 1) (by omega) (by omega) (by omega)]

theorem rehashLoop_mono
    (ins ins' : WarhammerHashTable → WarhammerMiniature → Option WarhammerHashTable)
    (h : ∀ t m t', ins t m = some t' → ins' t m = some t')
    (oT : List WarhammerMiniature) (oO : List Bool) :
    ∀ (k i : Nat) (tc t' : WarhammerHashTable),
      rehashLoop ins oT oO k i tc = some t' → rehashLoop ins' oT oO k i tc = some t' := by
  intro k
  induction k with
  | zero => intro i tc t' hr; exact hr
  | succ k ih =>
    intro i tc t' hr
    rw [rehashLoop] at hr ⊢
    by_cases hcond : (oO.getD i false && !tc.deleted.getD i false) = true
    · rw [if_pos hcond] at hr ⊢
      cases hi : ins tc (oT.getD i default) with
      | none => rw [hi] at hr; exact absurd hr (by simp)
      | some t1 =>
        rw [hi] at hr
        rw [h _ _ _ hi]
        exact ih _ _ _ hr
    · rw [if_neg hcond] at hr ⊢
      exact ih _ _ _ hr

theorem insertWith_mono
    (ins ins' : WarhammerHashTable → WarhammerMiniature → Option WarhammerHashTable)
    (h : ∀ t m t', ins t m = some t' → ins' t m = some t')
    (t t' : WarhammerHashTable) (m : WarhammerMiniature)
    (hr : insertWith ins t m = some t') : insertWith ins' t m = some t' := by
  have hre : ∀ u u', rehashWith ins u = some u' → rehashWith ins' u = some u' :=
    fun u u' e => rehashLoop_mono ins ins' h _ _ _ _ _ _ e
  unfold insertWith at hr ⊢
  by_cases hload : loadAtLeastHalf t.count t.capacity = true
  · rw [if_pos hload] at hr ⊢
    cases h1 : rehashWith ins t with
    | none => rw [h1] at hr; exact absurd hr (by simp)
    | some t1 =>
      rw [h1] at hr
      rw [hre _ _ h1]
      simp only at hr ⊢
      cases hl : insertLoop t1 m t1.capacity (hashFunction t1.capacity m) 0 with
      | some i => rw [hl] at hr; exact hr
      | none =>
        rw [hl] at hr
        simp only at hr ⊢
        cases h2 : rehashWith ins t1 with
        | none => rw [h2] at hr; exact absurd hr (by simp)
        | some t2 =>
          rw [h2] at hr
          rw [hre _ _ h2]
          exact h _ _ _ hr
  · rw [if_neg hload] at hr ⊢
    simp only at hr ⊢
    cases hl : insertLoop t m t.capacity (hashFunction t.capacity m) 0 with
    | some i => rw [hl] at hr; exact hr
    | none =>
      rw [hl] at hr
      simp only at hr ⊢
      cases h2 : rehashWith ins t with
      | none => rw [h2] at hr; exact absurd hr (by simp)
      | some t2 =>
        rw [h2] at hr
        rw [hre _ _ h2]
        exact h _ _ _ hr

/-- A larger recursion budget does not change the result of an `insert` that
returned. -/
theorem insert_fuel_succ (fuel : Nat) :
    ∀ (t t' : WarhammerHashTable) (m : WarhammerMiniature),
      insert fuel t m = some t' → insert (fuel + 1) t m = some t' := by
  induction fuel with
  | zero => intro t t' m h; simp [insert] at h
  | succ n ih =>
    intro t t' m h
    rw [insert] at h ⊢
    exact insertWith_mono (insert n) (insert (n + 1)) (fun u x u' e => ih u u' x e) t t' m h

theorem insert_fuel_le (fuel fuel' : Nat) (hle : fuel ≤ fuel')
    (t t' : WarhammerHashTable) (m : WarhammerMiniature)
    (h : insert fuel t m = some t') : insert fuel' t m = some t' := by
  induction hle with
  | refl => exact h
  | step _ ih => exact insert_fuel_succ _ t t' m ih

/-! ## Sparse tables: inserts that cannot overflow -/

theorem quadraticProbe_small (c h a : Nat) (hh : h < 10) (ha : a < 4) :
    quadraticProbe c h a = (h + a * a) % c := by
  unfold quadraticProbe
  have h1 : a * a < 16 := by nlinarith
  have h2 : (a * a) % 2 ^ 64 = a * a := Nat.mod_eq_of_lt (by omega)
  have h3 : (h + a * a) % 2 ^ 64 = h + a * a := Nat.mod_eq_of_lt (by omega)
  rw [h2, h3]

theorem rehashWith_eq (ins : WarhammerHashTable → WarhammerMiniature → Option WarhammerHashTable)
    (t : WarhammerHashTable) :
    rehashWith ins t = rehashLoop ins t.table t.occupied t.table.length 0
      (construct (t.capacity * 2)) := rfl

theorem occSet_construct (c : Nat) : occSet (construct c) = ∅ := by
  unfold occSet
  apply Finset.filter_false_of_mem
  intro i _
  show ¬ (List.replicate c false).getD i false = true
  rw [getD_replicate_same]
  simp

theorem occSet_place_card (t : WarhammerHashTable) (i : Nat) (m : WarhammerMiniature) :
    (occSet (place t i m)).card ≤ (occSet t).card + 1 := by
  have hsub : occSet (place t i m) ⊆ Insert.insert i (occSet t) := by
    intro j hj
    simp only [occSet, Finset.mem_filter, Finset.mem_range] at hj
    by_cases hij : i = j
    · subst hij; exact Finset.mem_insert_self _ _
    · apply Finset.mem_insert_of_mem
      simp only [occSet, Finset.mem_filter, Finset.mem_range]
      refine ⟨hj.1, ?_⟩
      rw [← place_occupied_other t i j m hij]
      exact hj.2
  exact le_trans (Finset.card_le_card hsub) (Finset.card_insert_le _ _)

theorem slotBlocks_mem_occSet (t : WarhammerHashTable) (j : Nat) (m : WarhammerMiniature)
    (hwf : WellFormed t) (h : slotBlocks t j m = true) : j ∈ occSet t := by
  simp only [slotBlocks, Bool.and_eq_true] at h
  simp only [occSet, Finset.mem_filter, Finset.mem_range]
  refine ⟨?_, h.1.1⟩
  rw [← hwf.occupied_length]
  by_contra hge
  have := h.1.1
  rw [List.getD_eq_default _ _ (Nat.le_of_not_lt hge)] at this
  exact absurd this (by simp)

/-- If the insertion loop, started with enough iterations, overflows, then the
slot it started at and every later probe blocked the record. -/
theorem insertLoop_none_blocks (t : WarhammerHashTable) (m : WarhammerMiniature) :
    ∀ (s idx a : Nat), a < t.capacity → t.capacity ≤ s + a → insertLoop t m s idx a = none →
      slotBlocks t idx m = true ∧
      ∀ j, a < j → j < t.capacity →
        slotBlocks t (quadraticProbe t.capacity (hashFunction t.capacity m) j) m = true := by
  intro s
  induction s with
  | zero => intro idx a h1 h2 _; omega
  | succ s ih =>
    intro idx a h1 h2 h
    rw [insertLoop_succ] at h
    by_cases hb : slotBlocks t idx m = true
    · refine ⟨hb, ?_⟩
      rw [if_pos hb] at h
      by_cases hcap : t.capacity ≤ a + 1
      · intro j h3 h4; omega
      · rw [if_neg hcap] at h
        obtain ⟨h5, h6⟩ := ih _ (a + 1) (by omega) (by omega) h
        intro j h3 h4
        by_cases hj : j = a + 1
        · subst hj; exact h5
        · exact h6 j (by omega) h4
    · rw [if_neg hb] at h; exact absurd h (by simp)

/-- In a table of capacity 5 with at most two occupied flags the insertion loop
finds a slot: the probes of attempts 0, 1 and 2 are three different slots. -/
theorem insertLoop_five (t : WarhammerHashTable) (m : WarhammerMiniature)
    (hwf : WellFormed t) (hcap : t.capacity = 5) (hcard : (occSet t).card ≤ 2) :
    ∃ i, insertLoop t m t.capacity (hashFunction t.capacity m) 0 = some i := by
  cases hl : insertLoop t m t.capacity (hashFunction t.capacity m) 0 with
  | some i => exact ⟨i, rfl⟩
  | none =>
    exfalso
    obtain ⟨h0, hrest⟩ := insertLoop_none_blocks t m _ _ 0 (by omega) (by omega) hl
    have hh : hashFunction t.capacity m < 5 := by
      rw [hcap]; exact hashFunction_lt 5 (by decide) m
    have h1 := hrest 1 (by omega) (by omega)
    have h2 := hrest 2 (by omega) (by omega)
    rw [quadraticProbe_small _ _ _ (by omega) (by omega), hcap] at h1 h2
    have m0 := slotBlocks_mem_occSet t _ m hwf h0
    have m1 := slotBlocks_mem_occSet t _ m hwf h1
    have m2 := slotBlocks_mem_occSet t _ m hwf h2
    rw [hcap] at m0
    have hsub : ({hashFunction 5 m, (hashFunction 5 m + 1 * 1) % 5,
        (hashFunction 5 m + 2 * 2) % 5} : Finset Nat) ⊆ occSet t := by
      intro x hx
      simp only [Finset.mem_insert, Finset.mem_singleton] at hx
      rcases hx with rfl | rfl | rfl
      · exact m0
      · exact m1
      · exact m2
    have hthree : ({hashFunction 5 m, (hashFunction 5 m + 1 * 1) % 5,
        (hashFunction 5 m + 2 * 2) % 5} : Finset Nat).card = 3 := by
      rw [hcap] at hh
      rw [Finset.card_insert_of_not_mem, Finset.card_insert_of_not_mem, Finset.card_singleton]
      · simp only [Finset.mem_singleton]; omega
      · simp only [Finset.mem_insert, Finset.mem_singleton]; omega
    have := Finset.card_le_card hsub
    omega

/-- In a table of capacity 10 with at most three occupied flags the insertion
loop finds a slot: the probes of attempts 0 to 3 are four different slots. -/
theorem insertLoop_ten (t : WarhammerHashTable) (m : WarhammerMiniature)
    (hwf : WellFormed t) (hcap : t.capacity = 10) (hcard : (occSet t).card ≤ 3) :
    ∃ i, insertLoop t m t.capacity (hashFunction t.capacity m) 0 = some i := by
  cases hl : insertLoop t m t.capacity (hashFunction t.capacity m) 0 with
  | some i => exact ⟨i, rfl⟩
  | none =>
    exfalso
    obtain ⟨h0, hrest⟩ := insertLoop_none_blocks t m _ _ 0 (by omega) (by omega) hl
    have hh : hashFunction t.capacity m < 10 := by
      rw [hcap]; exact hashFunction_lt 10 (by decide) m
    have h1 := hrest 1 (by omega) (by omega)
    have h2 := hrest 2 (by omega) (by omega)
    have h3 := hrest 3 (by omega) (by omega)
    rw [quadraticProbe_small _ _ _ (by omega) (by omega), hcap] at h1 h2 h3
    have m0 := slotBlocks_mem_occSet t _ m hwf h0
    have m1 := slotBlocks_mem_occSet t _ m hwf h1
    have m2 := slotBlocks_mem_occSet t _ m hwf h2
    have m3 := slotBlocks_mem_occSet t _ m hwf h3
    rw [hcap] at m0
    have hsub : ({hashFunction 10 m, (hashFunction 10 m + 1 * 1) % 10,
        (hashFunction 10 m + 2 * 2) % 10, (hashFunction 10 m + 3 * 3) % 10} : Finset Nat)
        ⊆ occSet t := by
      intro x hx
      simp only [Finset.mem_insert, Finset.mem_singleton] at hx
      rcases hx with rfl | rfl | rfl | rfl
      · exact m0
      · exact m1
      · exact m2
      · exact m3
    have hfour : ({hashFunction 10 m, (hashFunction 10 m + 1 * 1) % 10,
        (hashFunction 10 m + 2 * 2) % 10, (hashFunction 10 m + 3 * 3) % 10} : Finset Nat).card
        = 4 := by
      rw [hcap] at hh
      rw [Finset.card_insert_of_not_mem, Finset.card_insert_of_not_mem,
        Finset.card_insert_of_not_mem, Finset.card_singleton]
      · simp only [Finset.mem_singleton]; omega
      · simp only [Finset.mem_insert, Finset.mem_singleton]; omega
      · simp only [Finset.mem_insert, Finset.mem_singleton]; omega
    have := Finset.card_le_card hsub
    omega

theorem insert_of_insertLoop (n : Nat) (t : WarhammerHashTable) (m : WarhammerMiniature)
    (i : Nat) (hload : loadAtLeastHalf t.count t.capacity = false)
    (hl : insertLoop t m t.capacity (hashFunction t.capacity m) 0 = some i) :
    insert (n + 1) t m = some (place t i m) := by
  rw [insert, insertWith, hload]
  simp only [Bool.false_eq_true, if_false]
  rw [hl]

theorem loadAtLeastHalf_false (count capacity : Nat) (hc : 1 ≤ capacity)
    (h : 2 * count < capacity) : loadAtLeastHalf count capacity = false := by
  unfold loadAtLeastHalf
  rw [if_neg (by omega)]
  exact decide_eq_false (by omega)

/-- An insert into a table of capacity 5 whose `count` is at most 2 and bounds
the number of occupied flags returns without a rehash. -/
theorem insert_five (n : Nat) (t : WarhammerHashTable) (m : WarhammerMiniature)
    (hwf : WellFormed t) (hcap : t.capacity = 5) (hcard : (occSet t).card ≤ t.count)
    (hcount : t.count ≤ 2) :
    ∃ t', insert (n + 1) t m = some t' ∧ WellFormed t' ∧ t'.capacity = 5 ∧
      (occSet t').card ≤ t'.count ∧ t'.count = t.count + 1 := by
  obtain ⟨i, hi⟩ := insertLoop_five t m hwf hcap (by omega)
  refine ⟨place t i m, ?_, place_wellFormed t i m hwf, hcap, ?_, rfl⟩
  · exact insert_of_insertLoop n t m i
      (loadAtLeastHalf_false _ _ hwf.capacity_pos (by omega)) hi
  · have := occSet_place_card t i m
    show (occSet (place t i m)).card ≤ t.count + 1
    omega

/-- An insert into a table of capacity 10 whose `count` is at most 3 and bounds
the number of occupied flags returns without a rehash. -/
theorem insert_ten (n : Nat) (t : WarhammerHashTable) (m : WarhammerMiniature)
    (hwf : WellFormed t) (hcap : t.capacity = 10) (hcard : (occSet t).card ≤ t.count)
    (hcount : t.count ≤ 3) :
    ∃ t', insert (n + 1) t m = some t' ∧ WellFormed t' ∧ t'.capacity = 10 ∧
      (occSet t').card ≤ t'.count ∧ t'.count = t.count + 1 := by
  obtain ⟨i, hi⟩ := insertLoop_ten t m hwf hcap (by omega)
  refine ⟨place t i m, ?_, place_wellFormed t i m hwf, hcap, ?_, rfl⟩
  · exact insert_of_insertLoop n t m i
      (loadAtLeastHalf_false _ _ hwf.capacity_pos (by omega)) hi
  · have := occSet_place_card t i m
    show (occSet (place t i m)).card ≤ t.count + 1
    omega

/-- The loop of `rehash` into a table of capacity 10, when the records still to
be reinserted and those already counted are at most 3 together: every
reinsertion returns without a nested rehash. -/
theorem rehashLoop_ten (n : Nat) (oT : List WarhammerMiniature) (oO : List Bool) :
    ∀ (k i : Nat) (tc : WarhammerHashTable), WellFormed tc → tc.capacity = 10 →
      (occSet tc).card ≤ tc.count →
      tc.count + ((Finset.Ico i (i + k)).filter (fun j => oO.getD j false = true)).card ≤ 3 →
      ∃ t', rehashLoop (insert (n + 1)) oT oO k i tc = some t' ∧ WellFormed t' ∧
        t'.capacity = 10 ∧ (occSet t').card ≤ t'.count ∧ t'.count ≤ 3 := by
  intro k
  induction k with
  | zero =>
    intro i tc hwf hcap hcard hsum
    exact ⟨tc, rfl, hwf, hcap, hcard, by omega⟩
  | succ k ih =>
    intro i tc hwf hcap hcard hsum
    have hIco : Finset.Ico i (i + (k + 1)) = Insert.insert i (Finset.Ico (i + 1) (i + 1 + k)) := by
      ext x
      simp only [Finset.mem_Ico, Finset.mem_insert]
      omega
    rw [rehashLoop]
    by_cases hcond : (oO.getD i false && !tc.deleted.getD i false) = true
    · rw [if_pos hcond]
      have ho : oO.getD i false = true := by
        simp only [Bool.and_eq_true] at hcond; exact hcond.1
      rw [hIco, Finset.filter_insert, if_pos ho, Finset.card_insert_of_not_mem
        (by simp only [Finset.mem_filter, Finset.mem_Ico]; omega)] at hsum
      obtain ⟨t1, h1, hwf1, hcap1, hcard1, hcount1⟩ :=
        insert_ten n tc (oT.getD i default) hwf hcap hcard (by omega)
      rw [h1]
      exact ih (i + 1) t1 hwf1 hcap1 hcard1 (by omega)
    · rw [if_neg hcond]
      have hmono : ((Finset.Ico (i + 1) (i + 1 + k)).filter
          (fun j => oO.getD j false = true)).card ≤
          ((Finset.Ico i (i + (k + 1))).filter (fun j => oO.getD j false = true)).card := by
        apply Finset.card_le_card
        apply Finset.filter_subset_filter
        rw [hIco]
        exact Finset.subset_insert _ _
      exact ih (i + 1) tc hwf hcap hcard (by omega)

/-! ## Concrete tables are reachable -/

theorem runCalls_reachable (fuel : Nat) (calls : List Call) :
    ∀ (t t' : WarhammerHashTable), Reachable t → runCalls fuel t calls = some t' →
      Reachable t' := by
  induction calls with
  | nil =>
    intro t t' hr h
    have : t = t' := by simpa [runCalls] using h
    rw [← this]; exact hr
  | cons c rest ih =>
    intro t t' hr h
    cases c with
    | ins mini =>
      rw [runCalls] at h
      cases hi : insert fuel t mini with
      | none => rw [hi] at h; exact absurd h (by simp)
      | some t1 =>
        rw [hi] at h
        exact ih t1 t' (Reachable.step_insert t t1 fuel mini hr hi) h
    | rem mini =>
      rw [runCalls] at h
      exact ih _ t' (Reachable.step_remove t mini hr) h

theorem mainTable_reachable : Reachable mainTable :=
  runCalls_reachable 1 [Call.ins captain, Call.ins guard, Call.ins warboss] (construct 5)
    mainTable (Reachable.init 5 (by decide)) (by decide)

theorem tombFirst_reachable : Reachable tombFirst :=
  runCalls_reachable 1 [Call.ins (plain 5), Call.ins (plain 10), Call.rem (plain 5)]
    (construct 5) tombFirst (Reachable.init 5 (by decide)) (by decide)

theorem tombAndThree_reachable : Reachable tombAndThree :=
  runCalls_reachable 1 [Call.ins (plain 5), Call.rem (plain 5), Call.ins (plain 1),
    Call.ins (plain 2), Call.ins (plain 3)]
    (construct 5) tombAndThree (Reachable.init 5 (by decide)) (by decide)

/-- An insert whose load test fails and whose home slot has its occupied flag
clear writes the record into the home slot. -/
theorem insert_at_home (n : Nat) (t : WarhammerHashTable) (m : WarhammerMiniature)
    (hc : 1 ≤ t.capacity) (hload : loadAtLeastHalf t.count t.capacity = false)
    (hfree : t.occupied.getD (hashFunction t.capacity m) false = false) :
    insert (n + 1) t m = some (place t (hashFunction t.capacity m) m) := by
  apply insert_of_insertLoop n t m _ hload
  obtain ⟨s, hs⟩ : ∃ s, t.capacity = s + 1 := ⟨t.capacity - 1, by omega⟩
  have hb : slotBlocks t (hashFunction t.capacity m) m = false := by
    simp only [slotBlocks, hfree, Bool.false_and]
  conv => lhs; arg 3; rw [hs]
  rw [insertLoop_succ, hb]
  simp only [Bool.false_eq_true, if_false]

/-! ## Invariants carried through insert and rehash -/

/-- A property kept by every reinsertion is kept by the loop of `rehash`. -/
theorem rehashLoop_invariant (P : WarhammerHashTable → Prop)
    (ins : WarhammerHashTable → WarhammerMiniature → Option WarhammerHashTable)
    (hins : ∀ t t' m, WellFormed t → P t → ins t m = some t' → WellFormed t' ∧ P t')
    (oT : List WarhammerMiniature) (oO : List Bool) :
    ∀ (k i : Nat) (tc t' : WarhammerHashTable), WellFormed tc → P tc →
      rehashLoop ins oT oO k i tc = some t' → WellFormed t' ∧ P t' := by
  intro k
  induction k with
  | zero =>
    intro i tc t' hwf hp h
    have : tc = t' := by simpa [rehashLoop] using h
    subst this
    exact ⟨hwf, hp⟩
  | succ k ih =>
    intro i tc t' hwf hp h
    rw [rehashLoop] at h
    by_cases hcond : (oO.getD i false && !tc.deleted.getD i false) = true
    · rw [if_pos hcond] at h
      cases hi : ins tc (oT.getD i default) with
      | none => rw [hi] at h; exact absurd h (by simp)
      | some t1 =>
        rw [hi] at h
        obtain ⟨hwf1, hp1⟩ := hins tc t1 _ hwf hp hi
        exact ih _ _ _ hwf1 hp1 h
    · rw [if_neg hcond] at h
      exact ih _ _ _ hwf hp h

/-- Induction principle for `insert`: a property that holds for every freshly
constructed table and is kept by the final write of `insert` is kept by every
call of `insert` that returns, whatever rehashes it goes through. -/
theorem insert_invariant (P : WarhammerHashTable → Prop)
    (hfresh : ∀ c, 1 ≤ c → P (construct c))
    (hplace : ∀ t m i, WellFormed t → P t →
      insertLoop t m t.capacity (hashFunction t.capacity m) 0 = some i → P (place t i m)) :
    ∀ (fuel : Nat) (t t' : WarhammerHashTable) (m : WarhammerMiniature),
      WellFormed t → P t → insert fuel t m = some t' → WellFormed t' ∧ P t' := by
  intro fuel
  induction fuel with
  | zero => intro t t' m _ _ h; simp [insert] at h
  | succ n ih =>
    intro t t' m hwf hp h
    have hre : ∀ u u', WellFormed u → rehashWith (insert n) u = some u' →
        WellFormed u' ∧ P u' := by
      intro u u' hu hr
      rw [rehashWith_eq] at hr
      have hc : 1 ≤ u.capacity * 2 := by have := hu.capacity_pos; omega
      exact rehashLoop_invariant P (insert n) ih _ _ _ _ _ _
        (construct_wellFormed _ hc) (hfresh _ hc) hr
    rw [insert, insertWith] at h
    have hpre : ∃ t1, (if loadAtLeastHalf t.count t.capacity = true then
        rehashWith (insert n) t else some t) = some t1 ∧ WellFormed t1 ∧ P t1 := by
      by_cases hload : loadAtLeastHalf t.count t.capacity = true
      · rw [if_pos hload] at h ⊢
        cases h1 : rehashWith (insert n) t with
        | none => rw [h1] at h; exact absurd h (by simp)
        | some t1 => exact ⟨t1, rfl, hre t t1 hwf h1⟩
      · rw [if_neg hload]
        exact ⟨t, rfl, hwf, hp⟩
    obtain ⟨t1, e1, hwf1, hp1⟩ := hpre
    rw [e1] at h
    simp only at h
    cases hl : insertLoop t1 m t1.capacity (hashFunction t1.capacity m) 0 with
    | some i =>
      rw [hl] at h
      have : place t1 i m = t' := Option.some.inj h
      subst this
      exact ⟨place_wellFormed t1 i m hwf1, hplace t1 m i hwf1 hp1 hl⟩
    | none =>
      rw [hl] at h
      simp only at h
      cases h2 : rehashWith (insert n) t1 with
      | none => rw [h2] at h; exact absurd h (by simp)
      | some t2 =>
        rw [h2] at h
        simp only at h
        obtain ⟨hwf2, hp2⟩ := hre t1 t2 hwf1 h2
        exact ih t2 t' m hwf2 hp2 h

theorem liveSet_construct (c : Nat) : liveSet (construct c) = ∅ := by
  unfold liveSet
  apply Finset.filter_false_of_mem
  intro i _ h
  have : (List.replicate c false).getD i false = true := h.1
  rw [getD_replicate_same] at this
  exact absurd this (by simp)

theorem liveSet_place_card (t : WarhammerHashTable) (i : Nat) (m : WarhammerMiniature) :
    (liveSet (place t i m)).card ≤ (liveSet t).card + 1 := by
  have hsub : liveSet (place t i m) ⊆ Insert.insert i (liveSet t) := by
    intro j hj
    simp only [liveSet, Finset.mem_filter, Finset.mem_range] at hj
    by_cases hij : i = j
    · subst hij; exact Finset.mem_insert_self _ _
    · apply Finset.mem_insert_of_mem
      simp only [liveSet, Finset.mem_filter, Finset.mem_range]
      refine ⟨hj.1, ?_, ?_⟩
      · rw [← place_occupied_other t i j m hij]; exact hj.2.1
      · rw [← place_deleted_other t i j m hij]; exact hj.2.2
  exact le_trans (Finset.card_le_card hsub) (Finset.card_insert_le _ _)

/-- A slot that holds a record is one of the live slots. -/
theorem slotHolds_mem_liveSet (t : WarhammerHashTable) (i : Nat) (m : WarhammerMiniature)
    (hwf : WellFormed t) (h : slotHolds t i m = true) : i ∈ liveSet t := by
  simp only [slotHolds, Bool.and_eq_true, Bool.not_eq_true'] at h
  simp only [liveSet, Finset.mem_filter, Finset.mem_range]
  refine ⟨?_, h.1.1, h.1.2⟩
  rw [← hwf.occupied_length]
  by_contra hge
  have := h.1.1
  rw [List.getD_eq_default _ _ (Nat.le_of_not_lt hge)] at this
  exact absurd this (by simp)

/-- Marking a live slot deleted removes exactly that slot from the live slots. -/
theorem liveSet_markDeleted (t : WarhammerHashTable) (i : Nat) (hwf : WellFormed t)
    (hi : i ∈ liveSet t) : liveSet (markDeleted t i) = (liveSet t).erase i := by
  have hlt : i < t.capacity := by
    simp only [liveSet, Finset.mem_filter, Finset.mem_range] at hi; exact hi.1
  ext j
  simp only [liveSet, Finset.mem_filter, Finset.mem_range, Finset.mem_erase]
  by_cases hij : i = j
  · subst hij
    have hd : (markDeleted t i).deleted.getD i false = true :=
      getD_set_self _ _ _ _ (by rw [hwf.deleted_length]; exact hlt)
    constructor
    · intro h; rw [hd] at h; exact absurd h.2.2 (by simp)
    · intro h; exact absurd rfl h.1
  · have hd : (markDeleted t i).deleted.getD j false = t.deleted.getD j false :=
      getD_set_other _ _ _ _ _ hij
    have ho : (markDeleted t i).occupied = t.occupied := rfl
    have hc : (markDeleted t i).capacity = t.capacity := rfl
    rw [hd, ho, hc]
    constructor
    · intro h; exact ⟨fun e => hij e.symm, h⟩
    · intro h; exact h.2

/-- The number of live slots never exceeds `count` in a reachable table. -/
theorem Reachable.live_le_count {t : WarhammerHashTable} (h : Reachable t) :
    (liveSet t).card ≤ t.count := by
  induction h with
  | init c hc => rw [liveSet_construct]; exact Nat.zero_le _
  | step_insert t t' fuel mini hr hins ih =>
    refine (insert_invariant (fun u => (liveSet u).card ≤ u.count) ?_ ?_ fuel t t' mini
      hr.wellFormed ih hins).2
    · intro c _; rw [liveSet_construct]; exact Nat.zero_le _
    · intro u m i _ hu _
      have := liveSet_place_card u i m
      show (liveSet (place u i m)).card ≤ u.count + 1
      omega
  | step_remove t mini hr ih =>
    rcases remove_cases t mini with ⟨e, _⟩ | ⟨i, hi, e, _⟩
    · rw [e]; exact ih
    · rw [e]
      have hmem := slotHolds_mem_liveSet t i mini hr.wellFormed hi
      rw [liveSet_markDeleted t i hr.wellFormed hmem, Finset.card_erase_of_mem hmem]
      have hpos : 0 < (liveSet t).card := Finset.card_pos.2 ⟨i, hmem⟩
      show (liveSet t).card - 1 ≤ sizeDec t.count
      unfold sizeDec
      rw [if_neg (by omega)]
      omega


/-! ## The probe sequence -/

theorem nameHash_lt (l : List Nat) :
    ∀ init, init < 2 ^ 64 →
      l.foldl (fun hash c => (hash * 31 + toSizeT (charValue c)) % 2 ^ 64) init < 2 ^ 64 := by
  induction l with
  | nil => intro init h; exact h
  | cons c rest ih =>
    intro init _
    rw [List.foldl_cons]
    exact ih _ (Nat.mod_lt _ (by norm_num))

/-- The home slot is below `2 ^ 64` as well as below `capacity`. -/
theorem hashFunction_lt_word (c : Nat) (m : WarhammerMiniature) :
    hashFunction c m < 2 ^ 64 := by
  unfold hashFunction
  have h1 := nameHash_lt (nameBytes m.modelName) 0 (by norm_num)
  have h2 : (toSizeT m.pointsCost * 2 ^ 3) % 2 ^ 64 < 2 ^ 64 := Nat.mod_lt _ (by norm_num)
  have h3 : (toSizeT m.releaseYear * 2 ^ 7) % 2 ^ 64 < 2 ^ 64 := Nat.mod_lt _ (by norm_num)
  exact lt_of_le_of_lt (Nat.mod_le _ _) (Nat.xor_lt_two_pow (Nat.xor_lt_two_pow h1 h2) h3)

/-- Attempt 0 of the probe sequence is the home slot. -/
theorem quadraticProbe_zero (c : Nat) (hc : 1 ≤ c) (m : WarhammerMiniature) :
    quadraticProbe c (hashFunction c m) 0 = hashFunction c m := by
  unfold quadraticProbe
  have h1 := hashFunction_lt_word c m
  have h2 := hashFunction_lt c hc m
  simp only [Nat.mul_zero, Nat.zero_mod, Nat.add_zero]
  rw [Nat.mod_eq_of_lt h1, Nat.mod_eq_of_lt h2]

/-- A removal loop that returns true stopped at the first attempt whose slot
holds the record; every slot probed before was non-empty and did not hold it. -/
theorem removeLoop_first (t : WarhammerHashTable) (m : WarhammerMiniature) :
    ∀ (s a0 : Nat), a0 < t.capacity →
      (removeLoop t m s (quadraticProbe t.capacity (hashFunction t.capacity m) a0) a0).2 = true →
      ∃ a, a0 ≤ a ∧ a < t.capacity ∧
        slotHolds t (quadraticProbe t.capacity (hashFunction t.capacity m) a) m = true ∧
        (∀ b, a0 ≤ b → b < a →
          slotHolds t (quadraticProbe t.capacity (hashFunction t.capacity m) b) m = false ∧
          slotNonEmpty t (quadraticProbe t.capacity (hashFunction t.capacity m) b) = true) ∧
        removeLoop t m s (quadraticProbe t.capacity (hashFunction t.capacity m) a0) a0 =
          (markDeleted t (quadraticProbe t.capacity (hashFunction t.capacity m) a), true) := by
  intro s
  induction s with
  | zero => intro a0 _ h; simp [removeLoop] at h
  | succ s ih =>
    intro a0 ha0 h
    rw [removeLoop_succ] at h ⊢
    by_cases hn : slotNonEmpty t (quadraticProbe t.capacity (hashFunction t.capacity m) a0) = true
    · rw [if_pos hn] at h ⊢
      by_cases hh : slotHolds t (quadraticProbe t.capacity (hashFunction t.capacity m) a0) m = true
      · rw [if_pos hh]
        exact ⟨a0, le_refl _, ha0, hh, fun b h1 h2 => by omega, rfl⟩
      · rw [if_neg hh] at h ⊢
        by_cases hc : t.capacity ≤ a0 + 1
        · rw [if_pos hc] at h; exact absurd h (by simp)
        · rw [if_neg hc] at h ⊢
          obtain ⟨a, h1, h2, h3, h4, h5⟩ := ih (a0 + 1) (by omega) h
          refine ⟨a, by omega, h2, h3, ?_, h5⟩
          intro b hb1 hb2
          by_cases hb : b = a0
          · subst hb; exact ⟨by simpa using hh, hn⟩
          · exact h4 b (by omega) hb2
    · rw [if_neg hn] at h; exact absurd h (by simp)

/-- A successful `remove`: the attempt at which it stopped, with the table it
returns. -/
theorem remove_first (t : WarhammerHashTable) (m : WarhammerMiniature)
    (hc : 1 ≤ t.capacity) (h : (remove t m).2 = true) :
    ∃ a, a < t.capacity ∧
      slotHolds t (quadraticProbe t.capacity (hashFunction t.capacity m) a) m = true ∧
      (∀ b, b < a →
        slotHolds t (quadraticProbe t.capacity (hashFunction t.capacity m) b) m = false ∧
        slotNonEmpty t (quadraticProbe t.capacity (hashFunction t.capacity m) b) = true) ∧
      remove t m =
        (markDeleted t (quadraticProbe t.capacity (hashFunction t.capacity m) a), true) := by
  unfold remove at h ⊢
  have h0 := quadraticProbe_zero t.capacity hc m
  have key := removeLoop_first t m t.capacity 0 (by omega) (by rw [h0]; exact h)
  obtain ⟨a, _, h2, h3, h4, h5⟩ := key
  rw [h0] at h5
  exact ⟨a, h2, h3, fun b hb => h4 b (Nat.zero_le _) hb, h5⟩

/-- In a reachable table a successful `remove` finds `count` at least 1, so the
unsigned decrement does not wrap. -/
theorem Reachable.remove_count {t : WarhammerHashTable} (hr : Reachable t)
    (m : WarhammerMiniature) (h : (remove t m).2 = true) :
    1 ≤ t.count ∧ (remove t m).1.count + 1 = t.count := by
  rcases remove_cases t m with ⟨e, _⟩ | ⟨i, hi, e, _⟩
  · rw [e] at h; exact absurd h (by simp)
  · have hmem := slotHolds_mem_liveSet t i m hr.wellFormed hi
    have hpos : 0 < (liveSet t).card := Finset.card_pos.2 ⟨i, hmem⟩
    have hle := hr.live_le_count
    rw [e]
    refine ⟨by omega, ?_⟩
    show sizeDec t.count + 1 = t.count
    unfold sizeDec
    rw [if_neg (by omega)]
    omega


/-! ## Capacity and count across insert and rehash -/

theorem rehashLoop_capacity
    (ins : WarhammerHashTable → WarhammerMiniature → Option WarhammerHashTable)
    (hins : ∀ t t' m, ins t m = some t' → ∃ k, t'.capacity = t.capacity * 2 ^ k)
    (oT : List WarhammerMiniature) (oO : List Bool) :
    ∀ (n i : Nat) (tc t' : WarhammerHashTable), rehashLoop ins oT oO n i tc = some t' →
      ∃ k, t'.capacity = tc.capacity * 2 ^ k := by
  intro n
  induction n with
  | zero =>
    intro i tc t' h
    have : tc = t' := by simpa [rehashLoop] using h
    subst this
    exact ⟨0, by simp⟩
  | succ n ih =>
    intro i tc t' h
    rw [rehashLoop] at h
    by_cases hcond : (oO.getD i false && !tc.deleted.getD i false) = true
    · rw [if_pos hcond] at h
      cases hi : ins tc (oT.getD i default) with
      | none => rw [hi] at h; exact absurd h (by simp)
      | some t1 =>
        rw [hi] at h
        obtain ⟨k1, e1⟩ := hins tc t1 _ hi
        obtain ⟨k2, e2⟩ := ih _ _ _ h
        exact ⟨k1 + k2, by rw [e2, e1, pow_add, Nat.mul_assoc]⟩
    · rw [if_neg hcond] at h
      exact ih _ _ _ h

/-- A rehash that returns has multiplied the capacity by a power of two that
is at least 2. -/
theorem rehashWith_capacity
    (ins : WarhammerHashTable → WarhammerMiniature → Option WarhammerHashTable)
    (hins : ∀ t t' m, ins t m = some t' → ∃ k, t'.capacity = t.capacity * 2 ^ k)
    (t t' : WarhammerHashTable) (h : rehashWith ins t = some t') :
    ∃ k, t'.capacity = t.capacity * 2 ^ (k + 1) := by
  rw [rehashWith_eq] at h
  obtain ⟨k, e⟩ := rehashLoop_capacity ins hins _ _ _ _ _ _ h
  refine ⟨k, ?_⟩
  rw [e]
  show t.capacity * 2 * 2 ^ k = t.capacity * 2 ^ (k + 1)
  rw [pow_succ, Nat.mul_assoc, Nat.mul_comm 2 (2 ^ k)]

/-- An `insert` that returns has multiplied the capacity by a power of two,
and by at least 2 when the load test succeeded at entry. -/
theorem insert_capacity (fuel : Nat) :
    ∀ (t t' : WarhammerHashTable) (m : WarhammerMiniature), insert fuel t m = some t' →
      ∃ k, t'.capacity = t.capacity * 2 ^ k ∧
        (loadAtLeastHalf t.count t.capacity = true → 1 ≤ k) := by
  induction fuel with
  | zero => intro t t' m h; simp [insert] at h
  | succ n ih =>
    intro t t' m h
    have ih' : ∀ u u' x, insert n u x = some u' → ∃ k, u'.capacity = u.capacity * 2 ^ k :=
      fun u u' x e => (ih u u' x e).imp fun _ hk => hk.1
    rw [insert, insertWith] at h
    have hpre : ∃ t1 k1, (if loadAtLeastHalf t.count t.capacity = true then
        rehashWith (insert n) t else some t) = some t1 ∧
        t1.capacity = t.capacity * 2 ^ k1 ∧
        (loadAtLeastHalf t.count t.capacity = true → 1 ≤ k1) := by
      by_cases hload : loadAtLeastHalf t.count t.capacity = true
      · rw [if_pos hload] at h ⊢
        cases h1 : rehashWith (insert n) t with
        | none => rw [h1] at h; exact absurd h (by simp)
        | some t1 =>
          obtain ⟨k, e⟩ := rehashWith_capacity (insert n) ih' t t1 h1
          exact ⟨t1, k + 1, rfl, e, fun _ => by omega⟩
      · rw [if_neg hload]
        exact ⟨t, 0, rfl, by simp, fun e => absurd e hload⟩
    obtain ⟨t1, k1, e1, hc1, hk1⟩ := hpre
    rw [e1] at h
    simp only at h
    cases hl : insertLoop t1 m t1.capacity (hashFunction t1.capacity m) 0 with
    | some i =>
      rw [hl] at h
      have : place t1 i m = t' := Option.some.inj h
      subst this
      exact ⟨k1, hc1, hk1⟩
    | none =>
      rw [hl] at h
      simp only at h
      cases h2 : rehashWith (insert n) t1 with
      | none => rw [h2] at h; exact absurd h (by simp)
      | some t2 =>
        rw [h2] at h
        simp only at h
        obtain ⟨k2, e2⟩ := rehashWith_capacity (insert n) ih' t1 t2 h2
        obtain ⟨k3, e3⟩ := ih' t2 t' m h
        refine ⟨k1 + (k2 + 1) + k3, ?_, fun _ => by omega⟩
        rw [e3, e2, hc1]
        ring

theorem insert_capacity_le (fuel : Nat) (t t' : WarhammerHashTable) (m : WarhammerMiniature)
    (h : insert fuel t m = some t') : t.capacity ≤ t'.capacity := by
  obtain ⟨k, e, _⟩ := insert_capacity fuel t t' m h
  rw [e]
  exact Nat.le_mul_of_pos_right _ (pow_pos (by norm_num) k)

theorem remove_capacity (t : WarhammerHashTable) (m : WarhammerMiniature) :
    (remove t m).1.capacity = t.capacity := by
  rcases remove_cases t m with ⟨e, _⟩ | ⟨i, _, e, _⟩
  · rw [e]
  · rw [e]; rfl

theorem occSet_card_le_capacity (t : WarhammerHashTable) : (occSet t).card ≤ t.capacity := by
  have := Finset.card_le_card (Finset.filter_subset
    (fun i => t.occupied.getD i false = true) (Finset.range t.capacity))
  rw [Finset.card_range] at this
  exact this
theorem rehashLoop_count
    (ins : WarhammerHashTable → WarhammerMiniature → Option WarhammerHashTable)
    (hins : CountSpec ins) (oT : List WarhammerMiniature) (oO : List Bool) :
    ∀ (k i : Nat) (tc t' : WarhammerHashTable), WellFormed tc →
      (occSet tc).card ≤ tc.count → rehashLoop ins oT oO k i tc = some t' →
      WellFormed t' ∧ (occSet t').card ≤ t'.count ∧
      t'.count ≤ tc.count +
        ((Finset.Ico i (i + k)).filter (fun j => oO.getD j false = true)).card := by
  intro k
  induction k with
  | zero =>
    intro i tc t' hwf hocc h
    have : tc = t' := by simpa [rehashLoop] using h
    subst this
    exact ⟨hwf, hocc, Nat.le_add_right _ _⟩
  | succ k ih =>
    intro i tc t' hwf hocc h
    have hIco : Finset.Ico i (i + (k + 1)) = Insert.insert i (Finset.Ico (i + 1) (i + 1 + k)) := by
      ext x
      simp only [Finset.mem_Ico, Finset.mem_insert]
      omega
    rw [rehashLoop] at h
    by_cases hcond : (oO.getD i false && !tc.deleted.getD i false) = true
    · rw [if_pos hcond] at h
      have ho : oO.getD i false = true := by
        simp only [Bool.and_eq_true] at hcond; exact hcond.1
      rw [hIco, Finset.filter_insert, if_pos ho, Finset.card_insert_of_not_mem
        (by simp only [Finset.mem_filter, Finset.mem_Ico]; omega)]
      cases hi : ins tc (oT.getD i default) with
      | none => rw [hi] at h; exact absurd h (by simp)
      | some t1 =>
        rw [hi] at h
        obtain ⟨hwf1, hocc1, hc1⟩ := hins tc t1 _ hwf hocc hi
        obtain ⟨hwf2, hocc2, hc2⟩ := ih (i + 1) t1 t' hwf1 hocc1 h
        exact ⟨hwf2, hocc2, by omega⟩
    · rw [if_neg hcond] at h
      obtain ⟨hwf2, hocc2, hc2⟩ := ih (i + 1) tc t' hwf hocc h
      have hmono : ((Finset.Ico (i + 1) (i + 1 + k)).filter
          (fun j => oO.getD j false = true)).card ≤
          ((Finset.Ico i (i + (k + 1))).filter (fun j => oO.getD j false = true)).card := by
        apply Finset.card_le_card
        apply Finset.filter_subset_filter
        rw [hIco]
        exact Finset.subset_insert _ _
      exact ⟨hwf2, hocc2, by omega⟩

/-- After a rehash that returns, `count` bounds the number of occupied flags
and is at most the number of occupied flags of the table that was rehashed. -/
theorem rehashWith_count
    (ins : WarhammerHashTable → WarhammerMiniature → Option WarhammerHashTable)
    (hins : CountSpec ins) (t t' : WarhammerHashTable) (hwf : WellFormed t)
    (h : rehashWith ins t = some t') :
    WellFormed t' ∧ (occSet t').card ≤ t'.count ∧ t'.count ≤ (occSet t).card := by
  rw [rehashWith_eq] at h
  have hc : 1 ≤ t.capacity * 2 := by have := hwf.capacity_pos; omega
  obtain ⟨h1, h2, h3⟩ := rehashLoop_count ins hins _ _ _ _ _ _
    (construct_wellFormed _ hc) (by rw [occSet_construct]; exact Nat.zero_le _) h
  refine ⟨h1, h2, ?_⟩
  have hrange : Finset.Ico 0 (0 + t.table.length) = Finset.range t.capacity := by
    rw [hwf.table_length]
    ext x; simp only [Finset.mem_Ico, Finset.mem_range]; omega
  rw [hrange] at h3
  have h0 : (construct (t.capacity * 2)).count = 0 := rfl
  rw [h0, Nat.zero_add] at h3
  exact h3

theorem insertWith_countSpec
    (ins : WarhammerHashTable → WarhammerMiniature → Option WarhammerHashTable)
    (hins : CountSpec ins) : CountSpec (insertWith ins) := by
  intro t t' m hwf hocc h
  unfold insertWith at h
  have hpre : ∃ t1, (if loadAtLeastHalf t.count t.capacity = true then rehashWith ins t
      else some t) = some t1 ∧
      WellFormed t1 ∧ (occSet t1).card ≤ t1.count ∧ t1.count ≤ t.count := by
    by_cases hload : loadAtLeastHalf t.count t.capacity = true
    · rw [if_pos hload] at h ⊢
      cases h1 : rehashWith ins t with
      | none => rw [h1] at h; exact absurd h (by simp)
      | some t1 =>
        obtain ⟨a, b, c⟩ := rehashWith_count ins hins t t1 hwf h1
        exact ⟨t1, rfl, a, b, by omega⟩
    · rw [if_neg hload]
      exact ⟨t, rfl, hwf, hocc, le_refl _⟩
  obtain ⟨t1, e1, hwf1, hocc1, hle1⟩ := hpre
  rw [e1] at h
  simp only at h
  cases hl : insertLoop t1 m t1.capacity (hashFunction t1.capacity m) 0 with
  | some i =>
    rw [hl] at h
    have : place t1 i m = t' := Option.some.inj h
    subst this
    have := occSet_place_card t1 i m
    refine ⟨place_wellFormed t1 i m hwf1, ?_, ?_⟩
    · show (occSet (place t1 i m)).card ≤ t1.count + 1
      omega
    · show t1.count + 1 ≤ t.count + 1
      omega
  | none =>
    rw [hl] at h
    simp only at h
    cases h2 : rehashWith ins t1 with
    | none => rw [h2] at h; exact absurd h (by simp)
    | some t2 =>
      rw [h2] at h
      simp only at h
      obtain ⟨hwf2, hocc2, hle2⟩ := rehashWith_count ins hins t1 t2 hwf1 h2
      obtain ⟨a, b, c⟩ := hins t2 t' m hwf2 hocc2 h
      exact ⟨a, b, by omega⟩

theorem insert_countSpec (fuel : Nat) : CountSpec (insert fuel) := by
  induction fuel with
  | zero => intro t t' m _ _ h; simp [insert] at h
  | succ n ih =>
    intro t t' m hwf hocc h
    rw [insert] at h
    exact insertWith_countSpec (insert n) ih t t' m hwf hocc h

/-- After every `insert` that returns, of any well-formed table, `count` is at
most `capacity`. -/
theorem insert_count_le_capacity (fuel : Nat) (t t' : WarhammerHashTable)
    (m : WarhammerMiniature) (hwf : WellFormed t) (h : insert fuel t m = some t') :
    t'.count ≤ t'.capacity := by
  cases fuel with
  | zero => simp [insert] at h
  | succ n =>
    rw [insert, insertWith] at h
    have hcs := insert_countSpec n
    have hcap : ∀ u u' x, insert n u x = some u' → ∃ k, u'.capacity = u.capacity * 2 ^ k :=
      fun u u' x e => (insert_capacity n u u' x e).imp fun _ hk => hk.1
    -- a rehash leaves room for one more record
    have hre : ∀ u u', WellFormed u → rehashWith (insert n) u = some u' →
        WellFormed u' ∧ (occSet u').card ≤ u'.count ∧ u'.count + 1 ≤ u'.capacity := by
      intro u u' hu hr
      obtain ⟨a, b, c⟩ := rehashWith_count (insert n) hcs u u' hu hr
      obtain ⟨k, e⟩ := rehashWith_capacity (insert n) hcap u u' hr
      refine ⟨a, b, ?_⟩
      have h1 := occSet_card_le_capacity u
      have h2 := hu.capacity_pos
      have h3 : u.capacity * 2 ≤ u'.capacity := by
        have hp : 1 ≤ 2 ^ k := Nat.one_le_two_pow
        rw [e, pow_succ]
        nlinarith
      omega
    have hpre : ∃ t1, (if loadAtLeastHalf t.count t.capacity = true then
        rehashWith (insert n) t else some t) = some t1 ∧
        WellFormed t1 ∧ t1.count + 1 ≤ t1.capacity := by
      by_cases hload : loadAtLeastHalf t.count t.capacity = true
      · rw [if_pos hload] at h ⊢
        cases h1 : rehashWith (insert n) t with
        | none => rw [h1] at h; exact absurd h (by simp)
        | some t1 =>
          obtain ⟨a, _, c⟩ := hre t t1 hwf h1
          exact ⟨t1, rfl, a, c⟩
      · rw [if_neg hload]
        refine ⟨t, rfl, hwf, ?_⟩
        have hpos := hwf.capacity_pos
        unfold loadAtLeastHalf at hload
        rw [if_neg (by omega)] at hload
        have : ¬ t.capacity ≤ 2 * t.count := by simpa using hload
        omega
    obtain ⟨t1, e1, hwf1, hroom⟩ := hpre
    rw [e1] at h
    simp only at h
    cases hl : insertLoop t1 m t1.capacity (hashFunction t1.capacity m) 0 with
    | some i =>
      rw [hl] at h
      have : place t1 i m = t' := Option.some.inj h
      subst this
      exact hroom
    | none =>
      rw [hl] at h
      simp only at h
      cases h2 : rehashWith (insert n) t1 with
      | none => rw [h2] at h; exact absurd h (by simp)
      | some t2 =>
        rw [h2] at h
        simp only at h
        obtain ⟨hwf2, hocc2, hroom2⟩ := hre t1 t2 hwf1 h2
        obtain ⟨_, _, c⟩ := hcs t2 t' m hwf2 hocc2 h
        have := insert_capacity_le n t2 t' m h
        omega

/-- In every reachable table `count` is at most `capacity`. -/
theorem Reachable.count_le_capacity {t : WarhammerHashTable} (h : Reachable t) :
    t.count ≤ t.capacity := by
  induction h with
  | init c hc => exact Nat.zero_le _
  | step_insert t0 t1 fuel mini hr hins _ =>
    exact insert_count_le_capacity fuel t0 t1 mini hr.wellFormed hins
  | step_remove t0 mini hr ih =>
    rcases remove_cases t0 mini with ⟨e, _⟩ | ⟨i, hi, e, _⟩
    · rw [e]
      exact ih
    · have hc := (hr.remove_count mini (by rw [e])).2
      rw [e] at hc ⊢
      have hc' : (markDeleted t0 i).count + 1 = t0.count := hc
      show (markDeleted t0 i).count ≤ t0.capacity
      omega
/-! ## The hash function against its specification -/

theorem char_toNat_lt (c : Char) : c.toNat < 0x110000 := by
  have h := c.valid
  have e : c.toNat = c.val.toNat := rfl
  rw [e]
  rcases h with h | h
  · have : c.val.toNat < 0xd800 := h
    omega
  · exact h.2

/-! The bytes of a name are those that `String.toUTF8` gives. -/

theorem or_high_bits :
    (∀ y, y < 64 → y ||| 128 = 128 + y) ∧ (∀ y, y < 32 → y ||| 192 = 192 + y) ∧
    (∀ y, y < 16 → y ||| 224 = 224 + y) ∧ (∀ y, y < 8 → y ||| 240 = 240 + y) := by
  decide

theorem shiftRight_toNat (v k : UInt32) (hk : k.toNat < 32) :
    (v >>> k).toNat = v.toNat / 2 ^ k.toNat := by
  show (v.toBitVec >>> (k.mod 32).toBitVec).toNat = _
  rw [BitVec.ushiftRight_eq', BitVec.toNat_ushiftRight, Nat.shiftRight_eq_div_pow]
  have : (k.mod 32).toBitVec.toNat = k.toNat := by
    show k.toNat % 32 = k.toNat
    exact Nat.mod_eq_of_lt hk
  rw [this]
  rfl

theorem masked_byte_toNat (w : UInt32) (j : Nat) (hj : j ≤ 8) (hi : UInt8) :
    (w.toUInt8 &&& (2 ^ j - 1 : Nat).toUInt8 ||| hi).toNat = (w.toNat % 2 ^ j) ||| hi.toNat := by
  show (w.toNat % 256 &&& ((2 ^ j - 1) % 256)) ||| hi.toNat = _
  have h1 : (2 ^ j - 1) % 256 = 2 ^ j - 1 := by
    apply Nat.mod_eq_of_lt
    have : 2 ^ j ≤ 2 ^ 8 := Nat.pow_le_pow_right (by norm_num) hj
    have : 0 < 2 ^ j := Nat.two_pow_pos j
    omega
  rw [h1, Nat.and_pow_two_sub_one_eq_mod]
  have h2 : w.toNat % 256 % 2 ^ j = w.toNat % 2 ^ j :=
    Nat.mod_mod_of_dvd _ (by
      have : (256 : Nat) = 2 ^ 8 := by norm_num
      rw [this]
      exact Nat.pow_dvd_pow 2 hj)
  rw [h2]

theorem utf8Bytes_eq_core (c : Char) :
    (String.utf8EncodeChar c).map UInt8.toNat = utf8Bytes c := by
  have hlt := char_toNat_lt c
  have e : c.toNat = c.val.toNat := rfl
  obtain ⟨o1, o2, o3, o4⟩ := or_high_bits
  have hle : ∀ k : UInt32, c.val ≤ k ↔ c.val.toNat ≤ k.toNat := fun k => Iff.rfl
  have c0 : (c.val.toUInt8 &&& 63 ||| 128).toNat = 128 + c.toNat % 64 := by
    rw [← o1 _ (Nat.mod_lt _ (by norm_num))]
    exact masked_byte_toNat c.val 6 (by norm_num) 128
  have c6 : ((c.val >>> 6).toUInt8 &&& 63 ||| 128).toNat = 128 + c.toNat / 64 % 64 := by
    rw [← o1 _ (Nat.mod_lt _ (by norm_num))]
    have := masked_byte_toNat (c.val >>> 6) 6 (by norm_num) 128
    rw [shiftRight_toNat c.val 6 (by decide)] at this
    exact this
  have c12 : ((c.val >>> 12).toUInt8 &&& 63 ||| 128).toNat = 128 + c.toNat / 4096 % 64 := by
    rw [← o1 _ (Nat.mod_lt _ (by norm_num))]
    have := masked_byte_toNat (c.val >>> 12) 6 (by norm_num) 128
    rw [shiftRight_toNat c.val 12 (by decide)] at this
    exact this
  have l6 : ((c.val >>> 6).toUInt8 &&& 31 ||| 192).toNat = 192 + c.toNat / 64 % 32 := by
    rw [← o2 _ (Nat.mod_lt _ (by norm_num))]
    have := masked_byte_toNat (c.val >>> 6) 5 (by norm_num) 192
    rw [shiftRight_toNat c.val 6 (by decide)] at this
    exact this
  have l12 : ((c.val >>> 12).toUInt8 &&& 15 ||| 224).toNat = 224 + c.toNat / 4096 % 16 := by
    rw [← o3 _ (Nat.mod_lt _ (by norm_num))]
    have := masked_byte_toNat (c.val >>> 12) 4 (by norm_num) 224
    rw [shiftRight_toNat c.val 12 (by decide)] at this
    exact this
  have l18 : ((c.val >>> 18).toUInt8 &&& 7 ||| 240).toNat = 240 + c.toNat / 262144 % 8 := by
    rw [← o4 _ (Nat.mod_lt _ (by norm_num))]
    have := masked_byte_toNat (c.val >>> 18) 3 (by norm_num) 240
    rw [shiftRight_toNat c.val 18 (by decide)] at this
    exact this
  have s0 : c.val.toUInt8.toNat = c.toNat % 256 := rfl
  unfold String.utf8EncodeChar utf8Bytes
  simp only [hle]
  have k1 : (127 : UInt32).toNat = 127 := rfl
  have k2 : (2047 : UInt32).toNat = 2047 := rfl
  have k3 : (65535 : UInt32).toNat = 65535 := rfl
  rw [k1, k2, k3, ← e]
  by_cases h1 : c.toNat ≤ 127
  · rw [if_pos h1, if_pos (show c.toNat < 128 by omega), List.map_cons, List.map_nil, s0,
      Nat.mod_eq_of_lt (show c.toNat < 256 by omega)]
  · rw [if_neg h1, if_neg (show ¬ c.toNat < 128 by omega)]
    by_cases h2 : c.toNat ≤ 2047
    · rw [if_pos h2, if_pos (show c.toNat < 2048 by omega)]
      simp only [List.map_cons, List.map_nil, l6, c0]
      rw [Nat.mod_eq_of_lt (show c.toNat / 64 < 32 by omega)]
    · rw [if_neg h2, if_neg (show ¬ c.toNat < 2048 by omega)]
      by_cases h3 : c.toNat ≤ 65535
      · rw [if_pos h3, if_pos (show c.toNat < 65536 by omega)]
        simp only [List.map_cons, List.map_nil, l12, c6, c0]
        rw [Nat.mod_eq_of_lt (show c.toNat / 4096 < 16 by omega)]
      · rw [if_neg h3, if_neg (show ¬ c.toNat < 65536 by omega)]
        simp only [List.map_cons, List.map_nil, l18, c12, c6, c0]
        rw [Nat.mod_eq_of_lt (show c.toNat / 262144 < 8 by omega)]

/-- The bytes of a name are those of the UTF-8 encoding of the string. -/
theorem nameBytes_eq_toUTF8 (name : String) :
    nameBytes name = name.toUTF8.data.toList.map UInt8.toNat := by
  unfold nameBytes String.toUTF8
  show name.data.flatMap utf8Bytes = (name.data.flatMap String.utf8EncodeChar).map UInt8.toNat
  induction name.data with
  | nil => rfl
  | cons c rest ih => rw [List.flatMap_cons, List.flatMap_cons, List.map_append, ← ih,
      utf8Bytes_eq_core]

/-- Every byte of a name is below 256. -/
theorem nameBytes_lt (name : String) : ∀ b ∈ nameBytes name, b < 256 := by
  intro b hb
  unfold nameBytes at hb
  rw [List.mem_flatMap] at hb
  obtain ⟨c, _, hc⟩ := hb
  have hlt := char_toNat_lt c
  unfold utf8Bytes at hc
  split at hc
  · simp only [List.mem_singleton] at hc; omega
  · split at hc
    · simp only [List.mem_cons, List.mem_singleton, List.not_mem_nil, or_false] at hc
      omega
    · split at hc
      · simp only [List.mem_cons, List.mem_singleton, List.not_mem_nil, or_false] at hc
        omega
      · simp only [List.mem_cons, List.mem_singleton, List.not_mem_nil, or_false] at hc
        omega

/-- The conversion `static_cast<size_t>(c)` of a signed `char`, by its byte. -/
theorem toSizeT_charValue (b : Nat) (hb : b < 256) : toSizeT (charValue b) = byteCode b := by
  unfold toSizeT charValue byteCode
  have h64 : (2 : Int) ^ 64 = 18446744073709551616 := by norm_num
  have h64n : (2 : Nat) ^ 64 = 18446744073709551616 := by norm_num
  rw [h64, h64n]
  split <;> omega

theorem nameHashBytes_eq_foldl (l : List Nat) (hl : ∀ b ∈ l, b < 256) :
    ∀ h, nameHashBytes l h =
      l.foldl (fun hash c => (hash * 31 + toSizeT (charValue c)) % 2 ^ 64) h := by
  induction l with
  | nil => intro h; rfl
  | cons b rest ih =>
    intro h
    rw [nameHashBytes, List.foldl_cons, toSizeT_charValue b (hl b (List.mem_cons_self _ _)),
      ih (fun x hx => hl x (List.mem_cons_of_mem _ hx))]

/-- The bytes of a name of ASCII characters are the codes of its characters. -/
theorem nameBytes_ascii (l : List Char) (hl : ∀ c ∈ l, c.toNat < 128) :
    l.flatMap utf8Bytes = l.map Char.toNat := by
  induction l with
  | nil => rfl
  | cons c rest ih =>
    have hc : c.toNat < 0x80 := hl c (List.mem_cons_self _ _)
    rw [List.flatMap_cons, List.map_cons, ih (fun x hx => hl x (List.mem_cons_of_mem _ hx))]
    unfold utf8Bytes
    rw [if_pos hc]
    rfl

theorem nameHashSpec_eq_bytes (l : List Char) (hl : ∀ c ∈ l, c.toNat < 128) :
    ∀ h, nameHashSpec l h = nameHashBytes (l.map Char.toNat) h := by
  induction l with
  | nil => intro h; rfl
  | cons c rest ih =>
    intro h
    have hc : c.toNat < 128 := hl c (List.mem_cons_self _ _)
    rw [nameHashSpec, List.map_cons, nameHashBytes,
      ih (fun x hx => hl x (List.mem_cons_of_mem _ hx))]
    unfold byteCode
    rw [if_pos hc]

theorem shift_toSizeT (x : Int) (k : Nat) :
    ((x * 2 ^ k) % 2 ^ 64).toNat = (toSizeT x * 2 ^ k) % 2 ^ 64 := by
  unfold toSizeT
  have h1 : (0 : Int) ≤ x % 2 ^ 64 := Int.emod_nonneg _ (by norm_num)
  have h2 : (x * 2 ^ k) % 2 ^ 64 = ((x % 2 ^ 64) * 2 ^ k) % 2 ^ 64 := by
    symm
    rw [Int.mul_emod, Int.emod_emod_of_dvd x (dvd_refl _), ← Int.mul_emod]
  rw [h2]
  obtain ⟨n, hn⟩ := Int.eq_ofNat_of_zero_le h1
  rw [hn]
  have h3 : ((n : Int) * 2 ^ k) % 2 ^ 64 = (((n * 2 ^ k) % 2 ^ 64 : Nat) : Int) := by
    push_cast
    rfl
  rw [h3, Int.toNat_ofNat, Int.toNat_ofNat]

theorem hashFunction_eq_hashSpecBytes (capacity : Nat) (m : WarhammerMiniature) :
    hashFunction capacity m =
      hashSpecBytes capacity (nameBytes m.modelName) m.pointsCost m.releaseYear := by
  unfold hashFunction hashSpecBytes
  simp only [nameHashBytes_eq_foldl _ (nameBytes_lt m.modelName), shift_toSizeT]

/-- On names of ASCII characters the hash is the one over character codes. -/
theorem hashFunction_eq_hashSpec (capacity : Nat) (m : WarhammerMiniature)
    (hascii : ∀ c ∈ m.modelName.toList, c.toNat < 128) :
    hashFunction capacity m = hashSpec capacity m.modelName m.pointsCost m.releaseYear := by
  rw [hashFunction_eq_hashSpecBytes]
  unfold hashSpecBytes hashSpec nameBytes
  rw [nameBytes_ascii _ hascii, nameHashSpec_eq_bytes _ hascii]
/-! ## The loops along the probe sequence -/

/-- The search loop, started with enough iterations at attempt `a0` of the
probe sequence, succeeds exactly when some later attempt below `capacity`
probes a slot that holds the record and every attempt in between probes a
non-empty slot. -/
theorem findLoop_isSome_iff (t : WarhammerHashTable) (m : WarhammerMiniature) :
    ∀ (s a0 : Nat), a0 < t.capacity → t.capacity ≤ s + a0 →
      ((findLoop t m s (quadraticProbe t.capacity (hashFunction t.capacity m) a0) a0).isSome
          = true ↔
        ∃ a, a0 ≤ a ∧ a < t.capacity ∧
          slotHolds t (quadraticProbe t.capacity (hashFunction t.capacity m) a) m = true ∧
          ∀ b, a0 ≤ b → b < a →
            slotNonEmpty t (quadraticProbe t.capacity (hashFunction t.capacity m) b) = true) := by
  intro s
  induction s with
  | zero => intro a0 h1 h2; omega
  | succ s ih =>
    intro a0 h1 h2
    rw [findLoop_succ]
    by_cases hn : slotNonEmpty t (quadraticProbe t.capacity (hashFunction t.capacity m) a0) = true
    · rw [if_pos hn]
      by_cases hh : slotHolds t (quadraticProbe t.capacity (hashFunction t.capacity m) a0) m = true
      · rw [if_pos hh]
        constructor
        · intro _; exact ⟨a0, le_refl _, h1, hh, fun b hb1 hb2 => by omega⟩
        · intro _; rfl
      · rw [if_neg hh]
        by_cases hc : t.capacity ≤ a0 + 1
        · rw [if_pos hc]
          constructor
          · intro h; exact absurd h (by simp)
          · rintro ⟨a, ha1, ha2, ha3, _⟩
            have : a = a0 := by omega
            subst this
            exact absurd ha3 hh
        · rw [if_neg hc, ih (a0 + 1) (by omega) (by omega)]
          constructor
          · rintro ⟨a, ha1, ha2, ha3, ha4⟩
            refine ⟨a, by omega, ha2, ha3, ?_⟩
            intro b hb1 hb2
            by_cases hb : b = a0
            · subst hb; exact hn
            · exact ha4 b (by omega) hb2
          · rintro ⟨a, ha1, ha2, ha3, ha4⟩
            have hne : a ≠ a0 := by
              intro e; subst e; exact hh ha3
            exact ⟨a, by omega, ha2, ha3, fun b hb1 hb2 => ha4 b (by omega) hb2⟩
    · rw [if_neg hn]
      constructor
      · intro h; exact absurd h (by simp)
      · rintro ⟨a, ha1, ha2, ha3, ha4⟩
        by_cases hne : a = a0
        · subst hne; exact absurd (slotHolds_nonEmpty t _ m ha3) hn
        · exact absurd (ha4 a0 (le_refl _) (by omega)) hn

/-- The search succeeds exactly when some attempt below `capacity` probes a
slot that holds the record and every earlier attempt probes a non-empty slot. -/
theorem find_isSome_iff (t : WarhammerHashTable) (m : WarhammerMiniature)
    (hc : 1 ≤ t.capacity) :
    (find t m).isSome = true ↔
      ∃ a, a < t.capacity ∧
        slotHolds t (quadraticProbe t.capacity (hashFunction t.capacity m) a) m = true ∧
        ∀ b, b < a →
          slotNonEmpty t (quadraticProbe t.capacity (hashFunction t.capacity m) b) = true := by
  have key := findLoop_isSome_iff t m t.capacity 0 (by omega) (by omega)
  rw [quadraticProbe_zero t.capacity hc m] at key
  unfold find
  rw [key]
  constructor
  · rintro ⟨a, _, h2, h3, h4⟩
    exact ⟨a, h2, h3, fun b hb => h4 b (Nat.zero_le _) hb⟩
  · rintro ⟨a, h2, h3, h4⟩
    exact ⟨a, Nat.zero_le _, h2, h3, fun b _ hb => h4 b hb⟩

/-- While nothing wraps in 64 bits the probe is `(index + attempt²) mod
capacity`. -/
theorem quadraticProbe_eq_formula (c h a : Nat) (hc : c ≤ 2 ^ 32) (hh : h < c) (ha : a < c) :
    quadraticProbe c h a = (h + a * a) % c := by
  unfold quadraticProbe
  have h32 : (2 : Nat) ^ 32 = 4294967296 := by norm_num
  have h64 : (2 : Nat) ^ 64 = 18446744073709551616 := by norm_num
  rw [h32] at hc
  have h1 : a * a ≤ 4294967295 * 4294967295 := Nat.mul_le_mul (by omega) (by omega)
  have h2 : (a * a) % 2 ^ 64 = a * a := Nat.mod_eq_of_lt (by rw [h64]; omega)
  have h3 : (h + a * a) % 2 ^ 64 = h + a * a := Nat.mod_eq_of_lt (by rw [h64]; omega)
  rw [h2, h3]

/-- The insertion loop stops at the first attempt whose slot does not block
the record. -/
theorem insertLoop_first (t : WarhammerHashTable) (m : WarhammerMiniature) :
    ∀ (s a0 i : Nat), a0 < t.capacity →
      insertLoop t m s (quadraticProbe t.capacity (hashFunction t.capacity m) a0) a0 = some i →
      ∃ a, a0 ≤ a ∧ a < t.capacity ∧
        i = quadraticProbe t.capacity (hashFunction t.capacity m) a ∧
        ∀ b, a0 ≤ b → b < a →
          slotBlocks t (quadraticProbe t.capacity (hashFunction t.capacity m) b) m = true := by
  intro s
  induction s with
  | zero => intro a0 i _ h; simp [insertLoop] at h
  | succ s ih =>
    intro a0 i ha0 h
    rw [insertLoop_succ] at h
    by_cases hb : slotBlocks t (quadraticProbe t.capacity (hashFunction t.capacity m) a0) m = true
    · rw [if_pos hb] at h
      by_cases hc : t.capacity ≤ a0 + 1
      · rw [if_pos hc] at h; exact absurd h (by simp)
      · rw [if_neg hc] at h
        obtain ⟨a, h1, h2, h3, h4⟩ := ih (a0 + 1) i (by omega) h
        refine ⟨a, by omega, h2, h3, ?_⟩
        intro b hb1 hb2
        by_cases hba : b = a0
        · subst hba; exact hb
        · exact h4 b (by omega) hb2
    · rw [if_neg hb] at h
      exact ⟨a0, le_refl _, ha0, (Option.some.inj h).symm, fun b h1 h2 => by omega⟩

/-- The insertion loop, started with enough iterations, returns the slot of
the first attempt that does not block the record. -/
theorem insertLoop_of_path (t : WarhammerHashTable) (m : WarhammerMiniature) (a : Nat)
    (ha : a < t.capacity)
    (hfree : slotBlocks t (quadraticProbe t.capacity (hashFunction t.capacity m) a) m = false) :
    ∀ (s a0 : Nat), a0 ≤ a → t.capacity ≤ s + a0 →
      (∀ b, a0 ≤ b → b < a →
        slotBlocks t (quadraticProbe t.capacity (hashFunction t.capacity m) b) m = true) →
      insertLoop t m s (quadraticProbe t.capacity (hashFunction t.capacity m) a0) a0 =
        some (quadraticProbe t.capacity (hashFunction t.capacity m) a) := by
  intro s
  induction s with
  | zero => intro a0 h1 h2 _; omega
  | succ s ih =>
    intro a0 h1 h2 hprev
    rw [insertLoop_succ]
    by_cases hba : a0 = a
    · subst hba
      rw [hfree]
      simp only [Bool.false_eq_true, if_false]
    · rw [hprev a0 (le_refl _) (by omega)]
      simp only [if_true]
      rw [if_neg (by omega)]
      exact ih (a0 + 1) (by omega) (by omega) (fun b hb1 hb2 => hprev b (by omega) hb2)
/-! ## Live records stay on their probe sequence -/

theorem chained_construct (c : Nat) : Chained (construct c) := by
  intro j S h
  exfalso
  have ho : (construct c).occupied.getD j false = false := getD_replicate_same _ _ _
  simp only [slotHolds, ho, Bool.false_and] at h
  exact absurd h (by simp)

theorem chained_place (t : WarhammerHashTable) (m : WarhammerMiniature) (i : Nat)
    (hwf : WellFormed t) (hch : Chained t)
    (hl : insertLoop t m t.capacity (hashFunction t.capacity m) 0 = some i) :
    Chained (place t i m) := by
  have hc := hwf.capacity_pos
  have hi : i < t.capacity :=
    insertLoop_lt t m hc _ _ _ _ (hashFunction_lt _ hc _) hl
  have hl' := hl
  rw [← quadraticProbe_zero t.capacity hc m] at hl'
  obtain ⟨a, _, ha, hia, hprev⟩ := insertLoop_first t m _ 0 i (by omega) hl'
  intro j S hj
  by_cases hij : i = j
  · subst hij
    have hS : S = m := by
      have h1 := slotHolds_record _ _ _ hj
      have h2 := slotHolds_record _ _ _ (place_slotHolds_self t i m hwf hi)
      rw [← h1, h2]
    subst hS
    refine ⟨a, ha, hia.symm, ?_⟩
    intro b hb
    exact place_slotNonEmpty_mono t i _ S hwf hi
      (slotBlocks_nonEmpty t _ S (hprev b (Nat.zero_le _) hb))
  · rw [place_slotHolds_other t i j m S hij] at hj
    obtain ⟨a', h1, h2, h3⟩ := hch j S hj
    exact ⟨a', h1, h2, fun b hb => place_slotNonEmpty_mono t i _ m hwf hi (h3 b hb)⟩

theorem markDeleted_slotHolds (t : WarhammerHashTable) (i j : Nat) (S : WarhammerMiniature)
    (hwf : WellFormed t) (hi : i < t.capacity)
    (h : slotHolds (markDeleted t i) j S = true) : slotHolds t j S = true ∧ i ≠ j := by
  by_cases hij : i = j
  · subst hij
    have hd : (markDeleted t i).deleted.getD i false = true :=
      getD_set_self _ _ _ _ (by rw [hwf.deleted_length]; exact hi)
    simp only [slotHolds, hd, Bool.not_true, Bool.and_false, Bool.false_and] at h
    exact absurd h (by simp)
  · have hd : (markDeleted t i).deleted.getD j false = t.deleted.getD j false :=
      getD_set_other _ _ _ _ _ hij
    have ho : (markDeleted t i).occupied = t.occupied := rfl
    have ht : (markDeleted t i).table = t.table := rfl
    simp only [slotHolds, hd, ho, ht] at h
    exact ⟨h, hij⟩

theorem markDeleted_slotNonEmpty (t : WarhammerHashTable) (i j : Nat)
    (hwf : WellFormed t) (hi : i < t.capacity) (h : slotNonEmpty t j = true) :
    slotNonEmpty (markDeleted t i) j = true := by
  have ho : (markDeleted t i).occupied = t.occupied := rfl
  by_cases hij : i = j
  · subst hij
    have hd : (markDeleted t i).deleted.getD i false = true :=
      getD_set_self _ _ _ _ (by rw [hwf.deleted_length]; exact hi)
    simp only [slotNonEmpty, hd, Bool.or_true]
  · have hd : (markDeleted t i).deleted.getD j false = t.deleted.getD j false :=
      getD_set_other _ _ _ _ _ hij
    simp only [slotNonEmpty, hd, ho]
    exact h

theorem chained_markDeleted (t : WarhammerHashTable) (i : Nat) (hwf : WellFormed t)
    (hi : i < t.capacity) (hch : Chained t) : Chained (markDeleted t i) := by
  intro j S hj
  obtain ⟨a, h1, h2, h3⟩ := hch j S (markDeleted_slotHolds t i j S hwf hi hj).1
  exact ⟨a, h1, h2, fun b hb => markDeleted_slotNonEmpty t i _ hwf hi (h3 b hb)⟩

/-- Every reachable table is chained. -/
theorem Reachable.chained {t : WarhammerHashTable} (h : Reachable t) : Chained t := by
  induction h with
  | init c hc => exact chained_construct c
  | step_insert t t' fuel mini hr hins ih =>
    exact (insert_invariant Chained (fun c _ => chained_construct c)
      (fun u m i hu hc hl => chained_place u m i hu hc hl) fuel t t' mini
      hr.wellFormed ih hins).2
  | step_remove t mini hr ih =>
    rcases remove_cases t mini with ⟨e, _⟩ | ⟨i, hi, e, _⟩
    · rw [e]; exact ih
    · rw [e]
      have hmem := slotHolds_mem_liveSet t i mini hr.wellFormed hi
      have hlt : i < t.capacity := by
        simp only [liveSet, Finset.mem_filter, Finset.mem_range] at hmem; exact hmem.1
      exact chained_markDeleted t i hr.wellFormed hlt ih

/-- In a chained table every record held by a slot is found. -/
theorem chained_find (t : WarhammerHashTable) (hwf : WellFormed t) (hch : Chained t)
    (j : Nat) (S : WarhammerMiniature) (hj : slotHolds t j S = true) : find t S = some S := by
  obtain ⟨a, h1, h2, h3⟩ := hch j S hj
  have hsome : (find t S).isSome = true :=
    (find_isSome_iff t S hwf.capacity_pos).2 ⟨a, h1, by rw [h2]; exact hj, h3⟩
  cases hf : find t S with
  | none => rw [hf] at hsome; exact absurd hsome (by simp)
  | some r => rw [findLoop_result t S _ _ _ r hf]
/-! ## Inserting a record that is already in its slot -/

theorem set_getD_self {α : Type} (l : List α) (v d : α) :
    ∀ i, l.getD i d = v → l.set i v = l := by
  induction l with
  | nil => intro i _; rfl
  | cons x rest ih =>
    intro i h
    cases i with
    | zero =>
      have : x = v := h
      rw [List.set_cons_zero, this]
    | succ i =>
      rw [List.set_cons_succ, ih i h]

/-- Writing a record into a slot that already holds it only increments
`count`. -/
theorem place_of_holds (t : WarhammerHashTable) (i : Nat) (m : WarhammerMiniature)
    (h : slotHolds t i m = true) : place t i m = { t with count := t.count + 1 } := by
  have hrec := slotHolds_record t i m h
  simp only [slotHolds, Bool.and_eq_true, Bool.not_eq_true'] at h
  unfold place
  rw [set_getD_self t.table m default i hrec, set_getD_self t.occupied true false i h.1.1,
    set_getD_self t.deleted false false i h.1.2]

theorem slotHolds_not_blocks (t : WarhammerHashTable) (i : Nat) (m : WarhammerMiniature)
    (h : slotHolds t i m = true) : slotBlocks t i m = false := by
  simp only [slotHolds, Bool.and_eq_true] at h
  simp only [slotBlocks, WarhammerMiniature.opNe, h.2, Bool.not_true, Bool.and_false]

/-- An insert whose load test fails and whose probe sequence meets, behind
blocking slots only, a slot that already holds the record: the table is
returned with `count` incremented and nothing else changed. -/
theorem insert_duplicate (n : Nat) (t : WarhammerHashTable) (m : WarhammerMiniature) (a : Nat)
    (hload : 2 * t.count < t.capacity) (ha : a < t.capacity)
    (hprev : ∀ b, b < a →
      slotBlocks t (quadraticProbe t.capacity (hashFunction t.capacity m) b) m = true)
    (hhold : slotHolds t (quadraticProbe t.capacity (hashFunction t.capacity m) a) m = true) :
    insert (n + 1) t m = some { t with count := t.count + 1 } := by
  have hc : 1 ≤ t.capacity := by omega
  have hl := insertLoop_of_path t m a ha (slotHolds_not_blocks t _ m hhold) t.capacity 0
    (Nat.zero_le _) (by omega) (fun b _ hb => hprev b hb)
  rw [quadraticProbe_zero t.capacity hc m] at hl
  rw [insert_of_insertLoop n t m _ (loadAtLeastHalf_false _ _ hc hload) hl,
    place_of_holds t _ m hhold]

/-- After one insert into an empty table of capacity 5 exactly the home slot of
the record is live. -/
theorem liveSet_single (S : WarhammerMiniature) :
    liveSet (place (construct 5) (hashFunction 5 S) S) = {hashFunction 5 S} := by
  have hh := hashFunction_lt 5 (by decide) S
  have hwf := construct_wellFormed 5 (by decide)
  ext j
  simp only [liveSet, Finset.mem_filter, Finset.mem_range, Finset.mem_singleton]
  constructor
  · rintro ⟨_, ho, _⟩
    by_contra hne
    rw [place_occupied_other _ _ _ _ (fun e => hne e.symm)] at ho
    have : (List.replicate 5 false).getD j false = true := ho
    rw [getD_replicate_same] at this
    exact absurd this (by simp)
  · intro e
    subst e
    have h1 := place_slotHolds_self (construct 5) (hashFunction 5 S) S hwf hh
    simp only [slotHolds, Bool.and_eq_true, Bool.not_eq_true'] at h1
    exact ⟨hh, h1.1.1, h1.1.2⟩
/-! ## The bounds-checked runs never fault on well-formed tables -/

theorem inRange_of_lt (t : WarhammerHashTable) (hwf : WellFormed t) (i : Nat)
    (hi : i < t.capacity) : inRange t i = true := by
  have h1 := hwf.capacity_pos
  unfold inRange
  rw [hwf.table_length, hwf.occupied_length, hwf.deleted_length]
  simp only [Bool.and_eq_true, decide_eq_true_eq]
  exact ⟨⟨⟨hi, hi⟩, hi⟩, by omega⟩

theorem findLoopChecked_eq (t : WarhammerHashTable) (m : WarhammerMiniature)
    (hwf : WellFormed t) :
    ∀ (s idx a : Nat), idx < t.capacity →
      findLoopChecked t m s idx a = Run.done (findLoop t m s idx a) := by
  intro s
  induction s with
  | zero => intro idx a _; rfl
  | succ s ih =>
    intro idx a hidx
    rw [findLoopChecked, findLoop, if_pos (inRange_of_lt t hwf idx hidx)]
    split
    · split
      · rfl
      · split
        · rfl
        · exact ih _ _ (quadraticProbe_lt _ hwf.capacity_pos _ _)
    · rfl

theorem removeLoopChecked_eq (t : WarhammerHashTable) (m : WarhammerMiniature)
    (hwf : WellFormed t) :
    ∀ (s idx a : Nat), idx < t.capacity →
      removeLoopChecked t m s idx a = Run.done (removeLoop t m s idx a) := by
  intro s
  induction s with
  | zero => intro idx a _; rfl
  | succ s ih =>
    intro idx a hidx
    rw [removeLoopChecked, removeLoop, if_pos (inRange_of_lt t hwf idx hidx)]
    split
    · split
      · rfl
      · split
        · rfl
        · exact ih _ _ (quadraticProbe_lt _ hwf.capacity_pos _ _)
    · rfl

theorem insertLoopChecked_eq (t : WarhammerHashTable) (m : WarhammerMiniature)
    (hwf : WellFormed t) :
    ∀ (s idx a : Nat), idx < t.capacity →
      insertLoopChecked t m s idx a = Run.done (insertLoop t m s idx a) := by
  intro s
  induction s with
  | zero => intro idx a _; rfl
  | succ s ih =>
    intro idx a hidx
    rw [insertLoopChecked, insertLoop, if_pos (inRange_of_lt t hwf idx hidx)]
    split
    · split
      · rfl
      · exact ih _ _ (quadraticProbe_lt _ hwf.capacity_pos _ _)
    · rfl

theorem rehashLoopChecked_eq
    (insC : WarhammerHashTable → WarhammerMiniature → Run WarhammerHashTable)
    (ins : WarhammerHashTable → WarhammerMiniature → Option WarhammerHashTable)
    (hagree : ∀ t m, WellFormed t → insC t m = Run.ofOption (ins t m))
    (hins : ∀ t t' m, WellFormed t → ins t m = some t' →
      WellFormed t' ∧ t.capacity ≤ t'.capacity)
    (oT : List WarhammerMiniature) (oO : List Bool) (hlen : oT.length = oO.length) :
    ∀ (n i : Nat) (tc : WarhammerHashTable), WellFormed tc → i + n ≤ oT.length →
      oT.length ≤ tc.capacity →
      rehashLoopChecked insC oT oO n i tc = Run.ofOption (rehashLoop ins oT oO n i tc) := by
  intro n
  induction n with
  | zero => intro i tc _ _ _; rfl
  | succ n ih =>
    intro i tc hwf hin hcap
    have hguard : (decide (i < oT.length) && decide (i < oO.length) &&
        decide (i < tc.deleted.length)) = true := by
      rw [hwf.deleted_length, ← hlen]
      simp only [Bool.and_eq_true, decide_eq_true_eq]
      exact ⟨⟨by omega, by omega⟩, by omega⟩
    rw [rehashLoopChecked, rehashLoop, if_pos hguard]
    by_cases hcond : (oO.getD i false && !tc.deleted.getD i false) = true
    · rw [if_pos hcond, if_pos hcond, hagree tc _ hwf]
      cases hi : ins tc (oT.getD i default) with
      | none => rfl
      | some t1 =>
        obtain ⟨hwf1, hle⟩ := hins tc t1 _ hwf hi
        exact ih (i + 1) t1 hwf1 (by omega) (by omega)
    · rw [if_neg hcond, if_neg hcond]
      exact ih (i + 1) tc hwf (by omega) hcap

/-- On a well-formed table the bounds-checked `insert` never faults and gives
the result of `insert`. -/
theorem insertChecked_eq (fuel : Nat) :
    ∀ (t : WarhammerHashTable) (m : WarhammerMiniature), WellFormed t →
      insertChecked fuel t m = Run.ofOption (insert fuel t m) := by
  induction fuel with
  | zero => intro t m _; rfl
  | succ n ih =>
    intro t m hwf
    have hins : ∀ (u u' : WarhammerHashTable) (x : WarhammerMiniature), WellFormed u →
        insert n u x = some u' → WellFormed u' ∧ u.capacity ≤ u'.capacity :=
      fun u u' x hu e => ⟨(insert_spec n u u' x hu e).1, insert_capacity_le n u u' x e⟩
    have hre : ∀ u, WellFormed u →
        rehashWithChecked (insertChecked n) u = Run.ofOption (rehashWith (insert n) u) := by
      intro u hu
      rw [rehashWith_eq]
      have hc : 1 ≤ u.capacity * 2 := by have := hu.capacity_pos; omega
      exact rehashLoopChecked_eq (insertChecked n) (insert n) ih hins u.table u.occupied
        (by rw [hu.table_length, hu.occupied_length]) _ 0 _ (construct_wellFormed _ hc)
        (by omega) (by rw [hu.table_length]; show u.capacity ≤ u.capacity * 2; omega)
    have hrewf : ∀ u u', WellFormed u → rehashWith (insert n) u = some u' → WellFormed u' :=
      fun u u' hu e => (rehashWith_spec (insert n) (insert_spec n) u u' hu e).1
    -- the part of the body after the load test
    have hrest : ∀ t1, WellFormed t1 →
        (if t1.capacity = 0 then Run.fault
          else
            match insertLoopChecked t1 m t1.capacity (hashFunction t1.capacity m) 0 with
            | Run.fault => Run.fault
            | Run.stuck => Run.stuck
            | Run.done (some index) => Run.done (place t1 index m)
            | Run.done none =>
              match rehashWithChecked (insertChecked n) t1 with
              | Run.fault => Run.fault
              | Run.stuck => Run.stuck
              | Run.done t2 => insertChecked n t2 m) =
        Run.ofOption
          (match insertLoop t1 m t1.capacity (hashFunction t1.capacity m) 0 with
            | some index => some (place t1 index m)
            | none =>
              match rehashWith (insert n) t1 with
              | none => none
              | some t2 => insert n t2 m) := by
      intro t1 hwf1
      have hc1 := hwf1.capacity_pos
      rw [if_neg (by omega), insertLoopChecked_eq t1 m hwf1 _ _ _ (hashFunction_lt _ hc1 _)]
      cases hl : insertLoop t1 m t1.capacity (hashFunction t1.capacity m) 0 with
      | some i => rfl
      | none =>
        simp only
        rw [hre t1 hwf1]
        cases h2 : rehashWith (insert n) t1 with
        | none => rfl
        | some t2 => exact ih t2 m (hrewf t1 t2 hwf1 h2)
    rw [insertChecked, insert, insertWithChecked, insertWith]
    by_cases hload : loadAtLeastHalf t.count t.capacity = true
    · rw [if_pos hload, if_pos hload, hre t hwf]
      cases h1 : rehashWith (insert n) t with
      | none => rfl
      | some t1 => exact hrest t1 (hrewf t t1 hwf h1)
    · rw [if_neg hload, if_neg hload]
      exact hrest t hwf

theorem rehashChecked_eq (fuel : Nat) (t : WarhammerHashTable) (hwf : WellFormed t) :
    rehashChecked fuel t = Run.ofOption (rehash fuel t) := by
  unfold rehashChecked rehash
  rw [rehashWith_eq]
  have hc : 1 ≤ t.capacity * 2 := by have := hwf.capacity_pos; omega
  exact rehashLoopChecked_eq (insertChecked fuel) (insert fuel)
    (fun u x hu => insertChecked_eq fuel u x hu)
    (fun u u' x hu e => ⟨(insert_spec fuel u u' x hu e).1, insert_capacity_le fuel u u' x e⟩)
    t.table t.occupied (by rw [hwf.table_length, hwf.occupied_length]) _ 0 _
    (construct_wellFormed _ hc) (by omega)
    (by rw [hwf.table_length]; show t.capacity ≤ t.capacity * 2; omega)

theorem findChecked_eq (t : WarhammerHashTable) (m : WarhammerMiniature) (hwf : WellFormed t) :
    findChecked t m = Run.done (find t m) := by
  have hc := hwf.capacity_pos
  unfold findChecked find
  rw [if_neg (by omega)]
  exact findLoopChecked_eq t m hwf _ _ _ (hashFunction_lt _ hc _)

theorem removeChecked_eq (t : WarhammerHashTable) (m : WarhammerMiniature)
    (hwf : WellFormed t) : removeChecked t m = Run.done (remove t m) := by
  have hc := hwf.capacity_pos
  unfold removeChecked remove
  rw [if_neg (by omega)]
  exact removeLoopChecked_eq t m hwf _ _ _ (hashFunction_lt _ hc _)

/-- The guards are real: on a table whose vectors are shorter than `capacity`
the bounds-checked `find` faults. -/
theorem findChecked_fault_example :
    findChecked ⟨[], [], [], 5, 0⟩ captain = Run.fault ∧
    insertChecked 1 ⟨[], [], [], 5, 0⟩ captain = Run.fault ∧
    findChecked ⟨[], [], [], 0, 0⟩ captain = Run.fault := by
  decide
/-! ## Termination of insert -/

/-- Squares of odd numbers below `2 ^ j` are different modulo `2 ^ (j + 2)`. -/
theorem odd_square_lt (j p d : Nat) (hd : 0 < d) (hq : 2 * (p + d) + 1 < 2 ^ j)
    (h : ((2 * p + 1) * (2 * p + 1)) % 2 ^ (j + 2) =
      ((2 * (p + d) + 1) * (2 * (p + d) + 1)) % 2 ^ (j + 2)) : False := by
  have hz := Nat.sub_mod_eq_zero_of_mod_eq h.symm
  have hdiff : (2 * (p + d) + 1) * (2 * (p + d) + 1) - (2 * p + 1) * (2 * p + 1) =
      4 * (d * (2 * p + d + 1)) := by
    have : (2 * (p + d) + 1) * (2 * (p + d) + 1) =
        (2 * p + 1) * (2 * p + 1) + 4 * (d * (2 * p + d + 1)) := by ring
    omega
  rw [hdiff] at hz
  have hdvd : 2 ^ j ∣ d * (2 * p + d + 1) := by
    have h4 : 4 * 2 ^ j ∣ 4 * (d * (2 * p + d + 1)) := by
      have : (2 : Nat) ^ (j + 2) = 4 * 2 ^ j := by rw [pow_add]; ring
      rw [← this]
      exact Nat.dvd_of_mod_eq_zero hz
    exact Nat.dvd_of_mul_dvd_mul_left (by norm_num) h4
  rcases Nat.even_or_odd d with he | ho
  · have hodd : Odd (2 * p + d + 1) := by
      obtain ⟨r, hr⟩ := he
      exact ⟨p + r, by omega⟩
    have hco : Nat.Coprime (2 ^ j) (2 * p + d + 1) :=
      Nat.Coprime.pow_left j (Nat.coprime_two_left.2 hodd)
    have := Nat.le_of_dvd hd (hco.dvd_of_dvd_mul_right hdvd)
    omega
  · have hco : Nat.Coprime (2 ^ j) d := Nat.Coprime.pow_left j (Nat.coprime_two_left.2 ho)
    have := Nat.le_of_dvd (by omega) (hco.dvd_of_dvd_mul_left hdvd)
    omega

theorem odd_square_inj (j p q : Nat) (hp : 2 * p + 1 < 2 ^ j) (hq : 2 * q + 1 < 2 ^ j)
    (h : ((2 * p + 1) * (2 * p + 1)) % 2 ^ (j + 2) =
      ((2 * q + 1) * (2 * q + 1)) % 2 ^ (j + 2)) : p = q := by
  by_contra hne
  rcases Nat.lt_or_gt_of_ne hne with hlt | hgt
  · obtain ⟨d, hd⟩ : ∃ d, q = p + d := ⟨q - p, by omega⟩
    subst hd
    exact odd_square_lt j p d (by omega) hq h
  · obtain ⟨d, hd⟩ : ∃ d, p = q + d := ⟨p - q, by omega⟩
    subst hd
    exact odd_square_lt j q d (by omega) hp h.symm

/-- Modulo a power of two that divides both `capacity` and `2 ^ 64`, the probe
is `index + attempt²`, whether or not the 64-bit arithmetic wraps. -/
theorem quadraticProbe_mod_pow (c h a k : Nat) (hk : k ≤ 64) (hdvd : 2 ^ k ∣ c) :
    quadraticProbe c h a % 2 ^ k = (h + a * a) % 2 ^ k := by
  have hW : 2 ^ k ∣ 2 ^ 64 := pow_dvd_pow 2 hk
  unfold quadraticProbe
  rw [Nat.mod_mod_of_dvd _ hdvd, Nat.mod_mod_of_dvd _ hW, Nat.add_mod,
    Nat.mod_mod_of_dvd _ hW, ← Nat.add_mod]

/-- No overflow in a roomy table: if `2 ^ (e + 3)` divides `capacity`, with
`e + 3 ≤ 64`, and fewer than `2 ^ e` occupied flags are set, the insertion loop
finds a slot.  The odd attempts below `2 ^ (e + 1)` probe `2 ^ e` different
slots. -/
theorem insertLoop_roomy (t : WarhammerHashTable) (m : WarhammerMiniature) (e : Nat)
    (hwf : WellFormed t) (he : e + 3 ≤ 64) (hdvd : 2 ^ (e + 3) ∣ t.capacity)
    (hN : (occSet t).card < 2 ^ e) :
    ∃ i, insertLoop t m t.capacity (hashFunction t.capacity m) 0 = some i := by
  cases hl : insertLoop t m t.capacity (hashFunction t.capacity m) 0 with
  | some i => exact ⟨i, rfl⟩
  | none =>
    exfalso
    have hc := hwf.capacity_pos
    have hle : 2 ^ (e + 3) ≤ t.capacity := Nat.le_of_dvd (by omega) hdvd
    have hpow : (2 : Nat) ^ (e + 3) = 4 * 2 ^ (e + 1) := by rw [pow_add]; ring
    have hpow1 : (2 : Nat) ^ (e + 1) = 2 * 2 ^ e := by rw [pow_succ]; ring
    have hpos : 0 < 2 ^ e := Nat.two_pow_pos e
    obtain ⟨_, hrest⟩ := insertLoop_none_blocks t m _ _ 0 (by omega) (by omega) hl
    have hmaps : ∀ p ∈ Finset.range (2 ^ e),
        quadraticProbe t.capacity (hashFunction t.capacity m) (2 * p + 1) ∈ occSet t := by
      intro p hp
      rw [Finset.mem_range] at hp
      exact slotBlocks_mem_occSet t _ m hwf (hrest (2 * p + 1) (by omega) (by omega))
    have hinj : Set.InjOn
        (fun p => quadraticProbe t.capacity (hashFunction t.capacity m) (2 * p + 1))
        (Finset.range (2 ^ e) : Set Nat) := by
      intro p hp q hq heq
      simp only [Finset.coe_range, Set.mem_Iio] at hp hq
      simp only at heq
      have h1 := congrArg (fun x => x % 2 ^ (e + 3)) heq
      simp only at h1
      rw [quadraticProbe_mod_pow _ _ _ _ he hdvd, quadraticProbe_mod_pow _ _ _ _ he hdvd] at h1
      have h2 : ((2 * p + 1) * (2 * p + 1)) % 2 ^ (e + 1 + 2) =
          ((2 * q + 1) * (2 * q + 1)) % 2 ^ (e + 1 + 2) :=
        Nat.ModEq.add_left_cancel' _ h1
      exact odd_square_inj (e + 1) p q (by omega) (by omega) h2
    have := Finset.card_le_card_of_injOn _ hmaps hinj
    rw [Finset.card_range] at this
    omega

theorem rehashWith_fuel_le (fuel fuel' : Nat) (hle : fuel ≤ fuel')
    (v v' : WarhammerHashTable) (h : rehashWith (insert fuel) v = some v') :
    rehashWith (insert fuel') v = some v' :=
  rehashLoop_mono (insert fuel) (insert fuel')
    (fun t m t' e => insert_fuel_le fuel fuel' hle t t' m e) _ _ _ _ _ _ h

/-- The loop of `rehash` returns when every insert into a table with fewer
than `k` counted records returns and at most `k` records are to be counted in
the end. -/
theorem rehashLoop_returns (k : Nat)
    (H : ∀ (tc : WarhammerHashTable) (x : WarhammerMiniature), WellFormed tc →
      (occSet tc).card ≤ tc.count → tc.count < k → ∃ fuel tc', insert fuel tc x = some tc')
    (oT : List WarhammerMiniature) (oO : List Bool) :
    ∀ (j i : Nat) (tc : WarhammerHashTable), WellFormed tc →
      (occSet tc).card ≤ tc.count →
      tc.count + ((Finset.Ico i (i + j)).filter (fun q => oO.getD q false = true)).card ≤ k →
      ∃ fuel t', rehashLoop (insert fuel) oT oO j i tc = some t' := by
  intro j
  induction j with
  | zero =>
    intro i tc _ _ _
    exact ⟨0, tc, rfl⟩
  | succ j ih =>
    intro i tc hwf hocc hsum
    have hIco : Finset.Ico i (i + (j + 1)) = Insert.insert i (Finset.Ico (i + 1) (i + 1 + j)) := by
      ext x
      simp only [Finset.mem_Ico, Finset.mem_insert]
      omega
    by_cases hcond : (oO.getD i false && !tc.deleted.getD i false) = true
    · have ho : oO.getD i false = true := by
        simp only [Bool.and_eq_true] at hcond; exact hcond.1
      rw [hIco, Finset.filter_insert, if_pos ho, Finset.card_insert_of_not_mem
        (by simp only [Finset.mem_filter, Finset.mem_Ico]; omega)] at hsum
      obtain ⟨f1, t1, e1⟩ := H tc (oT.getD i default) hwf hocc (by omega)
      obtain ⟨hwf1, hocc1, hcount1⟩ := insert_countSpec f1 tc t1 _ hwf hocc e1
      obtain ⟨f2, t', e2⟩ := ih (i + 1) t1 hwf1 hocc1 (by omega)
      refine ⟨max f1 f2, t', ?_⟩
      rw [rehashLoop, if_pos hcond,
        insert_fuel_le f1 (max f1 f2) (le_max_left _ _) tc t1 _ e1]
      exact rehashLoop_mono (insert f2) (insert (max f1 f2))
        (fun t m t'' e => insert_fuel_le f2 _ (le_max_right _ _) t t'' m e) _ _ _ _ _ _ e2
    · have hmono : ((Finset.Ico (i + 1) (i + 1 + j)).filter
          (fun q => oO.getD q false = true)).card ≤
          ((Finset.Ico i (i + (j + 1))).filter (fun q => oO.getD q false = true)).card := by
        apply Finset.card_le_card
        apply Finset.filter_subset_filter
        rw [hIco]
        exact Finset.subset_insert _ _
      obtain ⟨f, t', e⟩ := ih (i + 1) tc hwf hocc (by omega)
      refine ⟨f, t', ?_⟩
      rw [rehashLoop, if_neg hcond]
      exact e

/-- A rehash of a table with at most `k` occupied flags returns when every
insert into a table with fewer than `k` counted records returns; the capacity
of the result is a multiple of the doubled capacity. -/
theorem rehashWith_returns (k : Nat)
    (H : ∀ (tc : WarhammerHashTable) (x : WarhammerMiniature), WellFormed tc →
      (occSet tc).card ≤ tc.count → tc.count < k → ∃ fuel tc', insert fuel tc x = some tc')
    (v : WarhammerHashTable) (hwf : WellFormed v) (hN : (occSet v).card ≤ k) :
    ∃ fuel v', rehashWith (insert fuel) v = some v' ∧ WellFormed v' ∧
      (occSet v').card ≤ v'.count ∧ v'.count ≤ (occSet v).card ∧
      v.capacity * 2 ∣ v'.capacity := by
  have hc : 1 ≤ v.capacity * 2 := by have := hwf.capacity_pos; omega
  have hrange : Finset.Ico 0 (0 + v.table.length) = Finset.range v.capacity := by
    rw [hwf.table_length]
    ext x; simp only [Finset.mem_Ico, Finset.mem_range]; omega
  obtain ⟨f, v', e⟩ := rehashLoop_returns k H v.table v.occupied v.table.length 0
    (construct (v.capacity * 2)) (construct_wellFormed _ hc)
    (by rw [occSet_construct]; exact Nat.zero_le _)
    (by
      rw [hrange]
      show 0 + (occSet v).card ≤ k
      omega)
  have e' : rehashWith (insert f) v = some v' := by rw [rehashWith_eq]; exact e
  obtain ⟨a, b, c⟩ := rehashWith_count (insert f) (insert_countSpec f) v v' hwf e'
  obtain ⟨q, hq⟩ := rehashWith_capacity (insert f)
    (fun u u' x h => (insert_capacity f u u' x h).imp fun _ hk => hk.1) v v' e'
  refine ⟨f, v', e', a, b, c, ?_⟩
  rw [hq, pow_succ]
  exact ⟨2 ^ q, by ring⟩

/-- One call of `insert` returns, provided the inserts of the rehashes it
starts return (`H`) and the retry after an overflow, on a table whose capacity
is a multiple of the doubled capacity, returns (`hover`). -/
theorem insert_returns_step (n : Nat)
    (H : ∀ (tc : WarhammerHashTable) (x : WarhammerMiniature), WellFormed tc →
      (occSet tc).card ≤ tc.count → tc.count < n → ∃ fuel tc', insert fuel tc x = some tc')
    (u : WarhammerHashTable) (m : WarhammerMiniature) (hwf : WellFormed u)
    (hN : (occSet u).card ≤ n)
    (hover : ∀ u1, WellFormed u1 → (occSet u1).card ≤ n → u.capacity ∣ u1.capacity →
      insertLoop u1 m u1.capacity (hashFunction u1.capacity m) 0 = none →
      ∀ u2, WellFormed u2 → (occSet u2).card ≤ u2.count → u2.count ≤ n →
        u1.capacity * 2 ∣ u2.capacity → ∃ fuel u', insert fuel u2 m = some u') :
    ∃ fuel u', insert fuel u m = some u' := by
  -- the table after the load test
  have hpre : ∃ f1 u1, (∀ F, f1 ≤ F →
      (if loadAtLeastHalf u.count u.capacity = true then rehashWith (insert F) u
        else some u) = some u1) ∧
      WellFormed u1 ∧ (occSet u1).card ≤ n ∧ u.capacity ∣ u1.capacity := by
    by_cases hl : loadAtLeastHalf u.count u.capacity = true
    · obtain ⟨f, u1, e, a, b, c, d⟩ := rehashWith_returns n H u hwf hN
      refine ⟨f, u1, ?_, a, by omega, Dvd.dvd.trans (Dvd.intro _ rfl) d⟩
      intro F hF
      rw [if_pos hl]
      exact rehashWith_fuel_le f F hF u u1 e
    · exact ⟨0, u, fun F _ => by rw [if_neg hl], hwf, hN, dvd_refl _⟩
  obtain ⟨f1, u1, e1, hwf1, hN1, hdvd1⟩ := hpre
  cases hl : insertLoop u1 m u1.capacity (hashFunction u1.capacity m) 0 with
  | some i =>
    refine ⟨f1 + 1, place u1 i m, ?_⟩
    rw [insert, insertWith, e1 f1 (le_refl _)]
    simp only
    rw [hl]
  | none =>
    obtain ⟨f2, u2, e2, hwf2, hocc2, hcount2, hgrow2⟩ := rehashWith_returns n H u1 hwf1 hN1
    obtain ⟨f3, u', e3⟩ :=
      hover u1 hwf1 hN1 hdvd1 hl u2 hwf2 hocc2 (by omega) hgrow2
    refine ⟨max f1 (max f2 f3) + 1, u', ?_⟩
    rw [insert, insertWith, e1 _ (le_max_left _ _)]
    simp only
    rw [hl]
    simp only
    rw [rehashWith_fuel_le f2 _ (le_trans (le_max_left _ _) (le_max_right _ _)) u1 u2 e2]
    simp only
    exact insert_fuel_le f3 _ (le_trans (le_max_right _ _) (le_max_right _ _)) u2 u' m e3

/-- Every insert returns on a table in which `count` bounds the number of
occupied flags (as in every table a rehash is filling) and is below `2 ^ 61`.
After at most 64 overflows `2 ^ 64` divides the capacity and the table is
roomy. -/
theorem insert_returns_chain :
    ∀ n, n < 2 ^ 61 → ∀ (u : WarhammerHashTable) (x : WarhammerMiniature), WellFormed u →
      (occSet u).card ≤ u.count → u.count ≤ n → ∃ fuel u', insert fuel u x = some u' := by
  intro n
  induction n using Nat.strong_induction_on with
  | _ n IH =>
    intro hn
    have H : ∀ (tc : WarhammerHashTable) (x : WarhammerMiniature), WellFormed tc →
        (occSet tc).card ≤ tc.count → tc.count < n →
        ∃ fuel tc', insert fuel tc x = some tc' :=
      fun tc x a b c => IH tc.count c (by omega) tc x a b (le_refl _)
    have inner : ∀ (w j : Nat) (u : WarhammerHashTable) (x : WarhammerMiniature),
        64 ≤ j + w → 2 ^ j ∣ u.capacity → WellFormed u → (occSet u).card ≤ u.count →
        u.count ≤ n → ∃ fuel u', insert fuel u x = some u' := by
      intro w
      induction w with
      | zero =>
        intro j u x hj hdvd hwf hocc hcount
        refine insert_returns_step n H u x hwf (by omega) ?_
        intro u1 hwf1 hN1 hd1 hnone
        exfalso
        have h64 : 2 ^ (61 + 3) ∣ u1.capacity :=
          Dvd.dvd.trans (Dvd.dvd.trans (pow_dvd_pow 2 (by omega)) hdvd) hd1
        obtain ⟨i, hi⟩ := insertLoop_roomy u1 x 61 hwf1 (by omega) h64 (by omega)
        rw [hi] at hnone
        exact absurd hnone (by simp)
      | succ w ihw =>
        intro j u x hj hdvd hwf hocc hcount
        refine insert_returns_step n H u x hwf (by omega) ?_
        intro u1 _ _ hd1 _ u2 hwf2 hocc2 hcount2 hd2
        refine ihw (j + 1) u2 x (by omega) ?_ hwf2 hocc2 hcount2
        rw [pow_succ]
        exact Dvd.dvd.trans (Nat.mul_dvd_mul_right (Dvd.dvd.trans hdvd hd1) 2) hd2
    intro u x hwf hocc hcount
    exact inner 64 0 u x (by omega) (by rw [pow_zero]; exact one_dvd _) hwf hocc hcount

/-- The call `insert(t, m)` returns for every well-formed table with fewer than
`2 ^ 61` occupied flags: some recursion budget suffices, and every larger
budget gives the same table. -/
theorem insert_returns (t : WarhammerHashTable) (m : WarhammerMiniature)
    (hwf : WellFormed t) (hN : (occSet t).card < 2 ^ 61) :
    ∃ fuel t', insert fuel t m = some t' ∧
      ∀ fuel', fuel ≤ fuel' → insert fuel' t m = some t' := by
  obtain ⟨f, t', e⟩ := insert_returns_step (2 ^ 61 - 1)
    (fun tc x a b c => insert_returns_chain tc.count (by omega) tc x a b (le_refl _))
    t m hwf (by omega)
    (fun _ _ _ _ _ u2 a b c _ =>
      insert_returns_chain (2 ^ 61 - 1) (by omega) u2 m a b c)
  exact ⟨f, t', e, fun f' hle => insert_fuel_le f f' hle t t' m e⟩
theorem collSix_reachable : Reachable collSix :=
  runCalls_reachable 2 [Call.ins (coll 1), Call.ins (coll 2), Call.ins (coll 3),
    Call.ins (coll 4), Call.ins (coll 5), Call.ins (coll 6)] (construct 5) collSix
    (Reachable.init 5 (by decide)) (by decide)

/-! ## A table wider than `2 ^ 32` slots -/

theorem wideCap_eq : wideCap = 5368709120 := by norm_num [wideCap]

theorem wideCount_eq : wideCount = 1342177281 := by norm_num [wideCount]

theorem widePos_eq : widePos = 3221225473 := by norm_num [widePos]

theorem wideSlot_lt (a : Nat) : wideSlot a < wideCap :=
  Nat.mod_lt _ (by rw [wideCap_eq]; norm_num)

theorem xor_low_high (s : Nat) : (s % 128) ^^^ (s / 128 * 128) = s := by
  apply Nat.eq_of_testBit_eq
  intro i
  have e1 : (128 : Nat) = 2 ^ 7 := by norm_num
  rw [Nat.testBit_xor, e1, Nat.testBit_mod_two_pow, Nat.mul_comm, Nat.testBit_mul_pow_two,
    ← Nat.shiftRight_eq_div_pow, Nat.testBit_shiftRight]
  by_cases h : i < 7
  · have h2 : ¬ i ≥ 7 := by omega
    simp [h, h2]
  · have h2 : i ≥ 7 := by omega
    have h3 : 7 + (i - 7) = i := by omega
    simp [h, h2, h3]

theorem toSizeT_natCast (n : Nat) (h : n < 2 ^ 64) : toSizeT (n : Int) = n := by
  unfold toSizeT
  have h64 : (2 : Int) ^ 64 = 18446744073709551616 := by norm_num
  have h64n : (2 : Nat) ^ 64 = 18446744073709551616 := by norm_num
  rw [h64]
  rw [h64n] at h
  omega

theorem char_ofNat_toNat_ascii : ∀ n, n < 128 → (Char.ofNat n).toNat = n := by
  decide

/-- The record `wideRec s` has home slot `s` in the wide table. -/
theorem hashFunction_wideRec (s : Nat) (hs : s < wideCap) :
    hashFunction wideCap (wideRec s) = s := by
  have hc := wideCap_eq
  have hb : s % 128 < 128 := Nat.mod_lt _ (by norm_num)
  have hbytes : nameBytes (String.singleton (Char.ofNat (s % 128))) = [s % 128] := by
    have hchar : (Char.ofNat (s % 128)).toNat = s % 128 := char_ofNat_toNat_ascii _ hb
    show [Char.ofNat (s % 128)].flatMap utf8Bytes = _
    rw [List.flatMap_cons, List.flatMap_nil, List.append_nil]
    unfold utf8Bytes
    rw [hchar, if_pos hb]
  have h64n : (2 : Nat) ^ 64 = 18446744073709551616 := by norm_num
  unfold hashFunction wideRec
  simp only [hbytes, List.foldl_cons, List.foldl_nil]
  have hz : toSizeT 0 = 0 := by decide
  rw [toSizeT_charValue _ (by omega), hz,
    toSizeT_natCast (s / 128) (by rw [h64n]; omega)]
  unfold byteCode
  rw [if_pos hb]
  have e7 : (2 : Nat) ^ 7 = 128 := by norm_num
  rw [e7, h64n, Nat.zero_mul, Nat.zero_mul, Nat.zero_add, Nat.zero_mod, Nat.xor_zero,
    Nat.mod_eq_of_lt (show s % 128 < 18446744073709551616 by omega),
    Nat.mod_eq_of_lt (show s / 128 * 128 < 18446744073709551616 by omega),
    xor_low_high, Nat.mod_eq_of_lt hs]

/-- Every square modulo `5 * 2 ^ 30` is the square of a number up to
`5 * 2 ^ 28`. -/
theorem wideSlot_fold (b : Nat) : ∃ a, a < wideCount ∧ wideSlot a = wideSlot b := by
  unfold wideSlot
  rw [wideCap_eq, wideCount_eq]
  -- reduce `b` modulo half the capacity
  have h1 : b * b % 5368709120 = (b % 2684354560) * (b % 2684354560) % 5368709120 := by
    have hb := Nat.div_add_mod b 2684354560
    generalize b / 2684354560 = q at hb
    generalize b % 2684354560 = r at hb
    subst hb
    have : (2684354560 * q + r) * (2684354560 * q + r) =
        r * r + 5368709120 * (1342177280 * q * q + q * r) := by ring
    rw [this, Nat.add_mul_mod_self_left]
  have hr : b % 2684354560 < 2684354560 := Nat.mod_lt _ (by norm_num)
  generalize b % 2684354560 = r at h1 hr
  rw [h1]
  by_cases hle : r ≤ 1342177280
  · exact ⟨r, by omega, rfl⟩
  · refine ⟨2684354560 - r, by omega, ?_⟩
    obtain ⟨k, hk⟩ : ∃ k, r = 1342177280 + k := ⟨r - 1342177280, by omega⟩
    subst hk
    have e : 2684354560 - (1342177280 + k) = 1342177280 - k := by omega
    rw [e]
    obtain ⟨j, hj⟩ : ∃ j, 1342177280 = k + j := ⟨1342177280 - k, by omega⟩
    have e2 : 1342177280 - k = j := by omega
    rw [e2]
    have : (1342177280 + k) * (1342177280 + k) = j * j + 5368709120 * k := by
      rw [hj]
      have : (k + j + k) * (k + j + k) = j * j + 4 * (k + j) * k := by ring
      rw [this, ← hj]
    rw [this, Nat.add_mul_mod_self_left]

/-- No square is congruent to slot `widePos` modulo `5 * 2 ^ 30`: the slot is 3
modulo 5. -/
theorem wideSlot_ne_widePos (a : Nat) : wideSlot a ≠ widePos := by
  unfold wideSlot
  rw [wideCap_eq, widePos_eq]
  intro h
  have h5 : a * a % 5368709120 % 5 = a * a % 5 :=
    Nat.mod_mod_of_dvd _ (by norm_num)
  rw [h, Nat.mul_mod] at h5
  have ha : a % 5 < 5 := Nat.mod_lt _ (by norm_num)
  generalize a % 5 = r at h5 ha
  interval_cases r <;> simp at h5

theorem wideRec_ne_plain (s : Nat) : wideRec s ≠ plain 0 := by
  intro h
  have h1 := congrArg (fun m => m.modelName.toList) h
  have h2 : [Char.ofNat (s % 128)] = ([] : List Char) := h1
  exact List.cons_ne_nil _ _ h2

theorem wideFill_capacity (n : Nat) : (wideFill n).capacity = wideCap := by
  induction n with
  | zero => rfl
  | succ n ih => rw [wideFill, place_capacity, ih]

theorem wideFill_wellFormed (n : Nat) : WellFormed (wideFill n) := by
  induction n with
  | zero => exact construct_wellFormed wideCap (by rw [wideCap_eq]; norm_num)
  | succ n ih => exact place_wellFormed _ _ _ ih

theorem wideFill_count (n : Nat) : (wideFill n).count = n := by
  induction n with
  | zero => rfl
  | succ n ih =>
    show (wideFill n).count + 1 = n + 1
    rw [ih]

theorem wideFill_noDeleted (n : Nat) : NoDeleted (wideFill n) := by
  induction n with
  | zero => intro i; exact getD_replicate_same _ _ _
  | succ n ih => exact place_noDeleted _ _ _ ih

/-- The Occupied slots of `wideFill n` are the slots `a² mod capacity` for
`a < n`. -/
theorem wideFill_occupied (n s : Nat) :
    (wideFill n).occupied.getD s false = true ↔ ∃ a, a < n ∧ wideSlot a = s := by
  induction n with
  | zero =>
    have h : (wideFill 0).occupied.getD s false = false := getD_replicate_same _ _ _
    rw [h]
    constructor
    · intro h; exact absurd h (by simp)
    · rintro ⟨a, ha, _⟩; omega
  | succ n ih =>
    by_cases hs : wideSlot n = s
    · have hlen : wideSlot n < (wideFill n).occupied.length := by
        rw [(wideFill_wellFormed n).occupied_length, wideFill_capacity]
        exact wideSlot_lt n
      have h1 : (wideFill (n + 1)).occupied.getD (wideSlot n) false = true :=
        getD_set_self _ _ _ _ hlen
      rw [← hs, h1]
      exact ⟨fun _ => ⟨n, Nat.lt_succ_self n, rfl⟩, fun _ => rfl⟩
    · have h1 : (wideFill (n + 1)).occupied.getD s false = (wideFill n).occupied.getD s false :=
        place_occupied_other _ _ _ _ hs
      rw [h1, ih]
      constructor
      · rintro ⟨a, ha, e⟩; exact ⟨a, by omega, e⟩
      · rintro ⟨a, ha, e⟩
        by_cases han : a = n
        · subst han; exact absurd e hs
        · exact ⟨a, by omega, e⟩

/-- Every Occupied slot `s` of `wideFill n` stores the record `wideRec s`. -/
theorem wideFill_table (n s : Nat) (h : (wideFill n).occupied.getD s false = true) :
    (wideFill n).table.getD s default = wideRec s := by
  induction n with
  | zero =>
    have h0 : (wideFill 0).occupied.getD s false = false := getD_replicate_same _ _ _
    rw [h0] at h
    exact absurd h (by simp)
  | succ n ih =>
    by_cases hs : wideSlot n = s
    · have hlen : wideSlot n < (wideFill n).table.length := by
        rw [(wideFill_wellFormed n).table_length, wideFill_capacity]
        exact wideSlot_lt n
      have h1 : (wideFill (n + 1)).table.getD (wideSlot n) default = wideRec (wideSlot n) :=
        getD_set_self _ _ _ _ hlen
      rw [← hs, h1]
    · have h1 : (wideFill (n + 1)).table.getD s default = (wideFill n).table.getD s default :=
        place_table_other _ _ _ _ hs
      have h2 : (wideFill (n + 1)).occupied.getD s false = (wideFill n).occupied.getD s false :=
        place_occupied_other _ _ _ _ hs
      rw [h1]
      rw [h2] at h
      exact ih h

/-- A slot of `wideFill n` never blocks the record whose home slot it is. -/
theorem wideFill_home_free (n s : Nat) : slotBlocks (wideFill n) s (wideRec s) = false := by
  unfold slotBlocks
  by_cases h : (wideFill n).occupied.getD s false = true
  · rw [wideFill_table n s h]
    have : (wideRec s).opNe (wideRec s) = false := by
      cases hne : (wideRec s).opNe (wideRec s) with
      | false => rfl
      | true => exact absurd rfl ((opNe_iff _ _).1 hne)
    rw [this, Bool.and_false]
  · rw [Bool.not_eq_true] at h
    rw [h, Bool.false_and, Bool.false_and]

/-- An Occupied slot of `wideFill n` blocks the record `plain 0`. -/
theorem wideFill_blocks (n s : Nat) (h : (wideFill n).occupied.getD s false = true) :
    slotBlocks (wideFill n) s (plain 0) = true := by
  unfold slotBlocks
  rw [h, wideFill_noDeleted n s, wideFill_table n s h, (opNe_iff _ _).2 (wideRec_ne_plain s)]
  rfl

/-- The insert that takes `wideFill n` to `wideFill (n + 1)`: the load test fails
and the home slot of the record does not block it. -/
theorem wideFill_insert (n fuel : Nat) (h : 2 * n < wideCap) :
    insert (fuel + 1) (wideFill n) (wideRec (wideSlot n)) = some (wideFill (n + 1)) := by
  have hcap := wideFill_capacity n
  have hpos : 1 ≤ (wideFill n).capacity := (wideFill_wellFormed n).capacity_pos
  have hhash : hashFunction (wideFill n).capacity (wideRec (wideSlot n)) = wideSlot n := by
    rw [hcap]; exact hashFunction_wideRec _ (wideSlot_lt n)
  have hfree : slotBlocks (wideFill n)
      (quadraticProbe (wideFill n).capacity
        (hashFunction (wideFill n).capacity (wideRec (wideSlot n))) 0)
      (wideRec (wideSlot n)) = false := by
    rw [quadraticProbe_zero _ hpos, hhash]
    exact wideFill_home_free n _
  have hl := insertLoop_of_path (wideFill n) (wideRec (wideSlot n)) 0 (by omega) hfree
    (wideFill n).capacity 0 (Nat.le_refl _) (by omega) (fun b _ hb => by omega)
  rw [quadraticProbe_zero _ hpos] at hl
  have hload : loadAtLeastHalf (wideFill n).count (wideFill n).capacity = false :=
    loadAtLeastHalf_false _ _ hpos (by rw [wideFill_count, hcap]; exact h)
  have := insert_of_insertLoop fuel (wideFill n) (wideRec (wideSlot n)) _ hload hl
  rw [hhash] at this
  exact this

theorem wideFill_reachable (n : Nat) (h : 2 * n ≤ wideCap) : Reachable (wideFill n) := by
  induction n with
  | zero => exact Reachable.init wideCap (by rw [wideCap_eq]; norm_num)
  | succ n ih =>
    exact Reachable.step_insert (wideFill n) (wideFill (n + 1)) 1 (wideRec (wideSlot n))
      (ih (by omega)) (wideFill_insert n 0 (by omega))

theorem hashFunction_wide_plain : hashFunction wideCap (plain 0) = 0 := by
  decide

/-- Up to attempt `2 ^ 32` the probe sequence of `plain 0` in the wide table
visits squares modulo the capacity only: below `2 ^ 32` nothing wraps, and at
`2 ^ 32` the square wraps to 0. -/
theorem quadraticProbe_wide_square (b : Nat) (hb : b ≤ 2 ^ 32) :
    ∃ a, a < wideCount ∧ wideSlot a = quadraticProbe wideCap 0 b := by
  have h32 : (2 : Nat) ^ 32 = 4294967296 := by norm_num
  have h64 : (2 : Nat) ^ 64 = 18446744073709551616 := by norm_num
  rw [h32] at hb
  unfold quadraticProbe
  rw [Nat.zero_add, Nat.mod_mod]
  by_cases hlt : b < 4294967296
  · have h1 : b * b ≤ 4294967295 * 4294967295 := Nat.mul_le_mul (by omega) (by omega)
    rw [Nat.mod_eq_of_lt (show b * b < 2 ^ 64 by rw [h64]; omega)]
    exact wideSlot_fold b
  · have e : b = 4294967296 := by omega
    subst e
    refine ⟨0, by rw [wideCount_eq]; norm_num, ?_⟩
    unfold wideSlot
    norm_num

/-- Attempt `2 ^ 32 + 1` of the probe sequence of `plain 0` in the wide table
is slot `widePos`. -/
theorem quadraticProbe_wide_wrap : quadraticProbe wideCap 0 (2 ^ 32 + 1) = widePos := by
  decide

/-- In `wideFill wideCount` the insertion loop for `plain 0` passes the blocked
slots of attempts 0 to `2 ^ 32` and stops at attempt `2 ^ 32 + 1`, slot
`widePos`. -/
theorem wideFill_insertLoop :
    insertLoop (wideFill wideCount) (plain 0) (wideFill wideCount).capacity
      (hashFunction (wideFill wideCount).capacity (plain 0)) 0 = some widePos := by
  have hcap := wideFill_capacity wideCount
  have hpos : 1 ≤ (wideFill wideCount).capacity := (wideFill_wellFormed wideCount).capacity_pos
  have hfree : slotBlocks (wideFill wideCount)
      (quadraticProbe (wideFill wideCount).capacity
        (hashFunction (wideFill wideCount).capacity (plain 0)) (2 ^ 32 + 1)) (plain 0) = false := by
    rw [hcap, hashFunction_wide_plain, quadraticProbe_wide_wrap]
    have hocc : (wideFill wideCount).occupied.getD widePos false = false := by
      cases ho : (wideFill wideCount).occupied.getD widePos false with
      | false => rfl
      | true =>
        obtain ⟨a, _, ha⟩ := (wideFill_occupied wideCount widePos).1 ho
        exact absurd ha (wideSlot_ne_widePos a)
    unfold slotBlocks
    rw [hocc, Bool.false_and, Bool.false_and]
  have hl := insertLoop_of_path (wideFill wideCount) (plain 0) (2 ^ 32 + 1)
    (by rw [hcap, wideCap_eq]; norm_num) hfree (wideFill wideCount).capacity 0 (Nat.zero_le _)
    (by omega)
    (fun b _ hb => by
      rw [hcap, hashFunction_wide_plain]
      obtain ⟨a, ha, e⟩ := quadraticProbe_wide_square b (by omega)
      rw [← e]
      exact wideFill_blocks wideCount _ ((wideFill_occupied wideCount _).2 ⟨a, ha, rfl⟩))
  rw [quadraticProbe_zero _ hpos] at hl
  rw [hl, hcap, hashFunction_wide_plain, quadraticProbe_wide_wrap]

theorem wideTable_insert :
    insert 1 (wideFill wideCount) (plain 0) = some wideTable := by
  have hpos : 1 ≤ (wideFill wideCount).capacity := (wideFill_wellFormed wideCount).capacity_pos
  have hload : loadAtLeastHalf (wideFill wideCount).count (wideFill wideCount).capacity = false :=
    loadAtLeastHalf_false _ _ hpos (by
      rw [wideFill_count, wideFill_capacity, wideCap_eq, wideCount_eq]; norm_num)
  exact insert_of_insertLoop 0 (wideFill wideCount) (plain 0) widePos hload wideFill_insertLoop

theorem wideTable_reachable : Reachable wideTable :=
  Reachable.step_insert (wideFill wideCount) wideTable 1 (plain 0)
    (wideFill_reachable wideCount (by rw [wideCap_eq, wideCount_eq]; norm_num))
    wideTable_insert

theorem wideTable_capacity : wideTable.capacity = wideCap := by
  unfold wideTable
  rw [place_capacity]
  exact wideFill_capacity wideCount

/-- The record `plain 0` is in no slot `a² mod capacity` of the wide table. -/
theorem wideTable_square_free (a : Nat) : slotHolds wideTable (wideSlot a) (plain 0) = false := by
  cases hh : slotHolds wideTable (wideSlot a) (plain 0) with
  | false => rfl
  | true =>
    have hne : widePos ≠ wideSlot a := fun e => wideSlot_ne_widePos a e.symm
    have h1 : slotHolds wideTable (wideSlot a) (plain 0) =
        slotHolds (wideFill wideCount) (wideSlot a) (plain 0) :=
      place_slotHolds_other _ _ _ _ _ hne
    rw [h1] at hh
    have hrec := slotHolds_record _ _ _ hh
    simp only [slotHolds, Bool.and_eq_true] at hh
    rw [wideFill_table wideCount _ hh.1.1] at hrec
    exact absurd hrec (wideRec_ne_plain _)

/-! ## Properties of the specification -/

/-- C1 (round trip).  For every reachable table `T` and record `R`: if
`insert(T, R)` returns, then `find` on the resulting table with query `R`
reports found and the record it returns is `R` (equal in all three fields). -/
theorem insert_then_find (T T' : WarhammerHashTable) (fuel : Nat) (R : WarhammerMiniature)
    (hT : Reachable T) (hins : insert fuel T R = some T') : find T' R = some R :=
  (insert_spec fuel T T' R hT.wellFormed hins).2.1

/-- Witness for C1: inserting `plain 7` into the table of `main` returns (after
a rehash to capacity 10) and the record is then found. -/
theorem insert_then_find_witness :
    insert 2 mainTable (plain 7) = some mainGrown ∧ find mainGrown (plain 7) = some (plain 7) :=
  ⟨by decide, insert_then_find mainTable mainGrown 2 (plain 7) mainTable_reachable (by decide)⟩

/-- C2 (the scenario of `main`).  From an empty table of capacity 5 the three
inserts give `mainTable`, in which slot 1 holds "Imperial Guard"; `find` of the
captain reports found with that record; `remove` of the guard returns true; a
subsequent `find` of the guard reports not found; and slot 1 then has both its
occupied flag and its deleted flag set (a tombstone, not empty). -/
theorem main_scenario :
    runCalls 1 (construct 5) [Call.ins captain, Call.ins guard, Call.ins warboss]
      = some mainTable ∧
    find mainTable captain = some captain ∧
    slotHolds mainTable 1 guard = true ∧
    (remove mainTable guard).2 = true ∧
    find (remove mainTable guard).1 guard = none ∧
    (remove mainTable guard).1.occupied.getD 1 false = true ∧
    (remove mainTable guard).1.deleted.getD 1 false = true ∧
    slotTombstone (remove mainTable guard).1 1 = true ∧
    slotNonEmpty (remove mainTable guard).1 1 = true := by
  decide

/-- C3 (delete then find), evaluated at a failing input.  The table
`tombFirst` is reached from an empty table of capacity 5 by inserting `plain 5`
and `plain 10` (same home slot 0) and removing `plain 5`.  Then
`insert (plain 10)` writes a second copy into the tombstone in slot 0,
`remove (plain 10)` returns true having deleted that copy, and
`find (plain 10)` still reports found, through the copy in slot 1. -/
theorem delete_then_find_second_copy :
    runCalls 1 (construct 5) [Call.ins (plain 5), Call.ins (plain 10), Call.rem (plain 5)]
      = some tombFirst ∧
    insert 1 tombFirst (plain 10) = some twoCopies ∧
    (remove twoCopies (plain 10)).2 = true ∧
    find (remove twoCopies (plain 10)).1 (plain 10) = some (plain 10) := by
  decide

/-- C4 (a removed record stays removed), evaluated at a failing input.  The
table `tombAndThree` is reached from an empty table of capacity 5 by inserting
and removing `plain 5` and inserting `plain 1`, `plain 2`, `plain 3`; in it
`find (plain 5)` reports not found.  The insert of the different record
`plain 4` rehashes to capacity 10, the rehash reinserts the record of the
tombstone, and `find (plain 5)` reports found afterwards. -/
theorem rehash_revives_tombstone :
    runCalls 1 (construct 5) [Call.ins (plain 5), Call.rem (plain 5), Call.ins (plain 1),
        Call.ins (plain 2), Call.ins (plain 3)] = some tombAndThree ∧
    slotTombstone tombAndThree 0 = true ∧
    plain 4 ≠ plain 5 ∧
    find tombAndThree (plain 5) = none ∧
    insert 2 tombAndThree (plain 4) = some tombRevived ∧
    find tombRevived (plain 5) = some (plain 5) := by
  decide

/-- C5 (insert never loses another record).  For every reachable table `T` and
records `R` and `S`: if `find(T, S)` reports found then, whenever
`insert(T, R)` returns, `find` on the resulting table reports found for `S`
with result `S`.  Nothing is assumed about whether the insert rehashed. -/
theorem insert_keeps_found (T T' : WarhammerHashTable) (fuel : Nat)
    (R S : WarhammerMiniature) (hT : Reachable T) (hS : (find T S).isSome = true)
    (hins : insert fuel T R = some T') : find T' S = some S := by
  cases hf : find T S with
  | none => rw [hf] at hS; exact absurd hS (by simp)
  | some r => exact (insert_spec fuel T T' R hT.wellFormed hins).2.2.1 S r hf

/-- Witness for C5: the guard is found in the table of `main` and is still
found after the insert of `plain 7`, which rehashes to capacity 10. -/
theorem insert_keeps_found_witness :
    (find mainTable guard).isSome = true ∧ insert 2 mainTable (plain 7) = some mainGrown ∧
    mainGrown.capacity = 10 ∧ find mainGrown guard = some guard :=
  ⟨by decide, by decide, by decide,
    insert_keeps_found mainTable mainGrown 2 (plain 7) guard mainTable_reachable (by decide)
      (by decide)⟩

/-- C6 (a tombstone does not break probe chains).  For every table `T` and
distinct records `A` and `B`, `find(B)` gives the same answer on `T` and on `T`
after `remove(A)`.  In particular, if `A` and then `B` are inserted into an
empty table of capacity `c ≥ 1` in which `B` has the home slot of `A`, then
after `remove(A)` the search `find(B)` reports found. -/
theorem tombstone_keeps_chain (T : WarhammerHashTable) (A B : WarhammerMiniature)
    (hAB : A ≠ B) :
    find (remove T A).1 B = find T B ∧
    ∀ (c fuel : Nat) (T1 T2 : WarhammerHashTable), 1 ≤ c →
      hashFunction c B = hashFunction c A →
      insert fuel (construct c) A = some T1 → insert fuel T1 B = some T2 →
      find (remove T2 A).1 B = some B := by
  have key : ∀ U : WarhammerHashTable, find (remove U A).1 B = find U B := by
    intro U
    rcases remove_cases U A with ⟨e, _⟩ | ⟨i, hi, e, _⟩
    · rw [e]
    · rw [e]; exact find_markDeleted U i A B hAB hi
  refine ⟨key T, ?_⟩
  intro c fuel T1 T2 hc _ h1 h2
  have hw1 := (insert_spec fuel _ T1 A (construct_wellFormed c hc) h1).1
  rw [key T2]
  exact (insert_spec fuel T1 T2 B hw1 h2).2.1

/-- Witness for C6: `plain 5` and `plain 10` share home slot 0 under capacity 5;
after both inserts and the removal of `plain 5`, `plain 10` is found. -/
theorem tombstone_keeps_chain_witness :
    plain 5 ≠ plain 10 ∧ hashFunction 5 (plain 10) = hashFunction 5 (plain 5) ∧
    (remove collided (plain 5)).1 = tombFirst ∧
    find (remove collided (plain 5)).1 (plain 10) = find collided (plain 10) ∧
    find (remove collided (plain 5)).1 (plain 10) = some (plain 10) :=
  ⟨by decide, by decide, by decide,
    (tombstone_keeps_chain collided (plain 5) (plain 10) (by decide)).1,
    (tombstone_keeps_chain collided (plain 5) (plain 10) (by decide)).2 5 1
      (place (construct 5) 0 (plain 5)) collided (by decide) (by decide) (by decide)
      (by decide)⟩

/-- C7 (idempotent duplicate), evaluated at a failing input.  Starting from the
reachable table `tombFirst`, inserting `plain 10` twice in a row leaves two
slots, 0 and 1, that hold a record equal to `plain 10`; after a single
`remove (plain 10)` the search `find (plain 10)` still reports found. -/
theorem duplicate_insert_two_holders :
    runCalls 1 (construct 5) [Call.ins (plain 5), Call.ins (plain 10), Call.rem (plain 5)]
      = some tombFirst ∧
    runCalls 1 tombFirst [Call.ins (plain 10), Call.ins (plain 10)]
      = some { twoCopies with count := 3 } ∧
    holders { twoCopies with count := 3 } (plain 10) = [0, 1] ∧
    find (remove { twoCopies with count := 3 } (plain 10)).1 (plain 10) = some (plain 10) := by
  decide

/-- C8 as stated fails: `plain 1`, `plain 2`, `plain 3` are pairwise distinct
and have the pairwise distinct home slots 3, 1, 4 under capacity 5; after the
three inserts into an empty table of capacity 5 the capacity is 5, not 10. -/
theorem growth_trigger_counterexample :
    plain 1 ≠ plain 2 ∧ plain 1 ≠ plain 3 ∧ plain 2 ≠ plain 3 ∧
    hashFunction 5 (plain 1) = 3 ∧ hashFunction 5 (plain 2) = 1 ∧
    hashFunction 5 (plain 3) = 4 ∧
    (runCalls 1 (construct 5) [Call.ins (plain 1), Call.ins (plain 2), Call.ins (plain 3)]).map
      (fun t => (t.capacity, t.count)) = some (5, 3) ∧
    (runCalls 1 (construct 5) [Call.ins (plain 1), Call.ins (plain 2), Call.ins (plain 3)]).map
      (fun t => t.capacity) ≠ some 10 := by
  decide

/-- C8 amended (growth trigger).  Starting from an empty table of capacity 5,
inserting three records `a`, `b`, `c` whose home slots under capacity 5 are
pairwise different (so the records are pairwise distinct and no placement
collides) returns a table of capacity 5 and count 3 in which each record sits
in its home slot: the load test saw the counts 0, 1 and 2.  The doubling
happens in the fourth insert: for every record `d` the insert returns a table
of capacity 10.  Every recursion budget of at least 1 for the first three
inserts and at least 2 for the fourth suffices. -/
theorem growth_on_fourth_insert (a b c d : WarhammerMiniature) (n : Nat)
    (hab : hashFunction 5 a ≠ hashFunction 5 b) (hac : hashFunction 5 a ≠ hashFunction 5 c)
    (hbc : hashFunction 5 b ≠ hashFunction 5 c) :
    ∃ t3 t4, runCalls (n + 1) (construct 5) [Call.ins a, Call.ins b, Call.ins c] = some t3 ∧
      t3.capacity = 5 ∧ t3.count = 3 ∧
      slotHolds t3 (hashFunction 5 a) a = true ∧ slotHolds t3 (hashFunction 5 b) b = true ∧
      slotHolds t3 (hashFunction 5 c) c = true ∧
      insert (n + 2) t3 d = some t4 ∧ t4.capacity = 10 := by
  have hw0 := construct_wellFormed 5 (by decide)
  have ha := hashFunction_lt 5 (by decide) a
  have hb := hashFunction_lt 5 (by decide) b
  have hc := hashFunction_lt 5 (by decide) c
  -- first insert
  have e1 : insert (n + 1) (construct 5) a = some (place (construct 5) (hashFunction 5 a) a) :=
    insert_at_home n (construct 5) a (by decide) (by decide)
      (getD_replicate_same _ _ _)
  have hw1 := place_wellFormed (construct 5) (hashFunction 5 a) a hw0
  -- second insert
  have e2 : insert (n + 1) (place (construct 5) (hashFunction 5 a) a) b =
      some (place (place (construct 5) (hashFunction 5 a) a) (hashFunction 5 b) b) := by
    apply insert_at_home n (place (construct 5) (hashFunction 5 a) a) b
      (by show 1 ≤ 5; decide) (by show loadAtLeastHalf 1 5 = false; decide)
    show ((construct 5).occupied.set (hashFunction 5 a) true).getD (hashFunction 5 b) false = false
    rw [getD_set_other _ _ _ _ _ hab]
    exact getD_replicate_same _ _ _
  have hw2 := place_wellFormed _ (hashFunction 5 b) b hw1
  -- third insert
  have e3 : insert (n + 1)
      (place (place (construct 5) (hashFunction 5 a) a) (hashFunction 5 b) b) c =
      some (place (place (place (construct 5) (hashFunction 5 a) a) (hashFunction 5 b) b)
        (hashFunction 5 c) c) := by
    apply insert_at_home n _ c
      (by show 1 ≤ 5; decide) (by show loadAtLeastHalf 2 5 = false; decide)
    show (((construct 5).occupied.set (hashFunction 5 a) true).set (hashFunction 5 b) true).getD
      (hashFunction 5 c) false = false
    rw [getD_set_other _ _ _ _ _ hbc, getD_set_other _ _ _ _ _ hac]
    exact getD_replicate_same _ _ _
  have hw3 := place_wellFormed _ (hashFunction 5 c) c hw2
  have hcard3 : (occSet (place (place (place (construct 5) (hashFunction 5 a) a)
      (hashFunction 5 b) b) (hashFunction 5 c) c)).card ≤ 3 := by
    have k1 := occSet_place_card (construct 5) (hashFunction 5 a) a
    have k2 := occSet_place_card (place (construct 5) (hashFunction 5 a) a) (hashFunction 5 b) b
    have k3 := occSet_place_card (place (place (construct 5) (hashFunction 5 a) a)
      (hashFunction 5 b) b) (hashFunction 5 c) c
    rw [occSet_construct, Finset.card_empty] at k1
    omega
  -- the rehash that starts the fourth insert
  obtain ⟨u, hu, hwu, hcapu, hcardu, hcountu⟩ :=
    rehashLoop_ten n
      (place (place (place (construct 5) (hashFunction 5 a) a) (hashFunction 5 b) b)
        (hashFunction 5 c) c).table
      (place (place (place (construct 5) (hashFunction 5 a) a) (hashFunction 5 b) b)
        (hashFunction 5 c) c).occupied
      5 0 (construct 10) (construct_wellFormed 10 (by decide)) rfl
      (by rw [occSet_construct]; exact Nat.zero_le _)
      (by
        have : Finset.Ico 0 (0 + 5) = Finset.range 5 := by
          ext x; simp only [Finset.mem_Ico, Finset.mem_range]; omega
        rw [this]
        show 0 + (occSet (place (place (place (construct 5) (hashFunction 5 a) a)
          (hashFunction 5 b) b) (hashFunction 5 c) c)).card ≤ 3
        omega)
  obtain ⟨i, hi⟩ := insertLoop_ten u d hwu hcapu (by omega)
  refine ⟨place (place (place (construct 5) (hashFunction 5 a) a) (hashFunction 5 b) b)
    (hashFunction 5 c) c, place u i d, ?_, rfl, rfl, ?_, ?_, ?_, ?_, hcapu⟩
  · rw [runCalls, e1]
    simp only
    rw [runCalls, e2]
    simp only
    rw [runCalls, e3]
    simp only
    rw [runCalls]
  · rw [place_slotHolds_other _ _ _ _ _ (Ne.symm hac), place_slotHolds_other _ _ _ _ _ (Ne.symm hab)]
    exact place_slotHolds_self _ _ _ hw0 ha
  · rw [place_slotHolds_other _ _ _ _ _ (Ne.symm hbc)]
    exact place_slotHolds_self _ _ _ hw1 hb
  · exact place_slotHolds_self _ _ _ hw2 hc
  · have hlen : (place (place (place (construct 5) (hashFunction 5 a) a) (hashFunction 5 b) b)
        (hashFunction 5 c) c).table.length = 5 := hw3.table_length
    rw [insert, insertWith]
    have hload : loadAtLeastHalf (place (place (place (construct 5) (hashFunction 5 a) a)
        (hashFunction 5 b) b) (hashFunction 5 c) c).count
        (place (place (place (construct 5) (hashFunction 5 a) a)
        (hashFunction 5 b) b) (hashFunction 5 c) c).capacity = true := by
      show loadAtLeastHalf 3 5 = true
      decide
    rw [hload, if_pos rfl, rehashWith_eq, hlen]
    have hu' : rehashLoop (insert (n + 1))
        (place (place (place (construct 5) (hashFunction 5 a) a) (hashFunction 5 b) b)
          (hashFunction 5 c) c).table
        (place (place (place (construct 5) (hashFunction 5 a) a) (hashFunction 5 b) b)
          (hashFunction 5 c) c).occupied 5 0
        (construct ((place (place (place (construct 5) (hashFunction 5 a) a)
          (hashFunction 5 b) b) (hashFunction 5 c) c).capacity * 2)) = some u := hu
    rw [hu']
    simp only
    rw [hi]

/-- Witness for the amended C8: `plain 1`, `plain 2`, `plain 3` have the home
slots 3, 1, 4; the fourth record is `plain 4`. -/
theorem growth_on_fourth_insert_witness :
    hashFunction 5 (plain 1) ≠ hashFunction 5 (plain 2) ∧
    hashFunction 5 (plain 1) ≠ hashFunction 5 (plain 3) ∧
    hashFunction 5 (plain 2) ≠ hashFunction 5 (plain 3) ∧
    ∃ t3 t4, runCalls 1 (construct 5) [Call.ins (plain 1), Call.ins (plain 2),
        Call.ins (plain 3)] = some t3 ∧
      t3.capacity = 5 ∧ t3.count = 3 ∧
      slotHolds t3 (hashFunction 5 (plain 1)) (plain 1) = true ∧
      slotHolds t3 (hashFunction 5 (plain 2)) (plain 2) = true ∧
      slotHolds t3 (hashFunction 5 (plain 3)) (plain 3) = true ∧
      insert 2 t3 (plain 4) = some t4 ∧ t4.capacity = 10 :=
  ⟨by decide, by decide, by decide,
    growth_on_fourth_insert (plain 1) (plain 2) (plain 3) (plain 4) 0 (by decide) (by decide)
      (by decide)⟩

/-- C9 (remove agrees with find).  For every table `T` and record `R`,
`remove(T, R)` returns true if and only if `find(T, R)` on the table before the
call reports found. -/
theorem remove_true_iff_found (T : WarhammerHashTable) (R : WarhammerMiniature) :
    (remove T R).2 = true ↔ (find T R).isSome = true := by
  rcases remove_cases T R with ⟨e, f⟩ | ⟨i, _, e, f⟩
  · rw [e, f]; simp
  · rw [e, f]; simp

/-- C10 (a failed remove changes nothing).  For every table `T` and record `R`,
if `remove(T, R)` returns false then the table after the call is the table
before it: the three vectors, `count` and `capacity` are all unchanged. -/
theorem remove_false_unchanged (T : WarhammerHashTable) (R : WarhammerMiniature)
    (h : (remove T R).2 = false) : (remove T R).1 = T := by
  rcases remove_cases T R with ⟨e, _⟩ | ⟨i, _, e, _⟩
  · rw [e]
  · rw [e] at h; exact absurd h (by simp)

/-- Witness for C10: `plain 7` is not in the table of `main`. -/
theorem remove_false_unchanged_witness :
    (remove mainTable (plain 7)).2 = false ∧ (remove mainTable (plain 7)).1 = mainTable :=
  ⟨by decide, remove_false_unchanged mainTable (plain 7) (by decide)⟩

/-- C11 (effect of a successful remove).  For every reachable table `T` and
record `R`, if `remove(T, R)` returns true then there is an attempt `a` below
`capacity` such that the slot `i` probed at attempt `a` held `R` before the
call, no slot probed at an earlier attempt held `R` (so `i` is the first slot
on the probe sequence of `R` that is Occupied with a record equal to `R`), and
after the call slot `i` is a Tombstone.  Nothing else changed: the vectors
`table` and `occupied` are the same, the deleted flag of every other slot is
the same, `capacity` is the same, and `count` went down by exactly 1. -/
theorem remove_true_effect (T : WarhammerHashTable) (R : WarhammerMiniature)
    (hT : Reachable T) (h : (remove T R).2 = true) :
    ∃ a, a < T.capacity ∧
      slotHolds T (quadraticProbe T.capacity (hashFunction T.capacity R) a) R = true ∧
      (∀ b, b < a →
        slotHolds T (quadraticProbe T.capacity (hashFunction T.capacity R) b) R = false) ∧
      slotTombstone (remove T R).1
        (quadraticProbe T.capacity (hashFunction T.capacity R) a) = true ∧
      (remove T R).1.table = T.table ∧
      (remove T R).1.occupied = T.occupied ∧
      (∀ j, j ≠ quadraticProbe T.capacity (hashFunction T.capacity R) a →
        (remove T R).1.deleted.getD j false = T.deleted.getD j false) ∧
      (remove T R).1.capacity = T.capacity ∧
      (remove T R).1.count + 1 = T.count := by
  have hwf := hT.wellFormed
  obtain ⟨a, ha, hh, hfirst, e⟩ := remove_first T R hwf.capacity_pos h
  have hcount := (hT.remove_count R h).2
  rw [e] at hcount ⊢
  have hlt := quadraticProbe_lt T.capacity hwf.capacity_pos (hashFunction T.capacity R) a
  have hocc : T.occupied.getD (quadraticProbe T.capacity (hashFunction T.capacity R) a) false
      = true := by
    simp only [slotHolds, Bool.and_eq_true] at hh; exact hh.1.1
  refine ⟨a, ha, hh, fun b hb => (hfirst b hb).1, ?_, rfl, rfl, ?_, rfl, hcount⟩
  · have hd : (markDeleted T (quadraticProbe T.capacity (hashFunction T.capacity R) a)).deleted.getD
        (quadraticProbe T.capacity (hashFunction T.capacity R) a) false = true :=
      getD_set_self _ _ _ _ (by rw [hwf.deleted_length]; exact hlt)
    have ho : (markDeleted T (quadraticProbe T.capacity (hashFunction T.capacity R) a)).occupied
        = T.occupied := rfl
    simp only [slotTombstone, hd, ho, hocc, Bool.and_self]
  · intro j hj
    exact getD_set_other _ _ _ _ _ (Ne.symm hj)

/-- Witness for C11: removing the guard from the table of `main` returns true. -/
theorem remove_true_effect_witness :
    (remove mainTable guard).2 = true ∧
    ∃ a, a < mainTable.capacity ∧
      slotHolds mainTable
        (quadraticProbe mainTable.capacity (hashFunction mainTable.capacity guard) a) guard
        = true ∧
      (∀ b, b < a → slotHolds mainTable
        (quadraticProbe mainTable.capacity (hashFunction mainTable.capacity guard) b) guard
        = false) ∧
      slotTombstone (remove mainTable guard).1
        (quadraticProbe mainTable.capacity (hashFunction mainTable.capacity guard) a) = true ∧
      (remove mainTable guard).1.table = mainTable.table ∧
      (remove mainTable guard).1.occupied = mainTable.occupied ∧
      (∀ j, j ≠ quadraticProbe mainTable.capacity (hashFunction mainTable.capacity guard) a →
        (remove mainTable guard).1.deleted.getD j false = mainTable.deleted.getD j false) ∧
      (remove mainTable guard).1.capacity = mainTable.capacity ∧
      (remove mainTable guard).1.count + 1 = mainTable.count :=
  ⟨by decide, remove_true_effect mainTable guard mainTable_reachable (by decide)⟩

/-- C12 (`count ≤ capacity` is an invariant).  It holds for a freshly
constructed table of any capacity `c`; it holds in every reachable table `T`;
and from a reachable table it holds again after every `insert` that returns
and after every `remove`.  Reachable tables include those with duplicate
inserts and reused tombstones. -/
theorem count_le_capacity_invariant (c : Nat) (T : WarhammerHashTable)
    (hT : Reachable T) :
    (construct c).count ≤ (construct c).capacity ∧
    T.count ≤ T.capacity ∧
    (∀ (fuel : Nat) (R : WarhammerMiniature) (T' : WarhammerHashTable),
      insert fuel T R = some T' → T'.count ≤ T'.capacity) ∧
    (∀ R : WarhammerMiniature, (remove T R).1.count ≤ (remove T R).1.capacity) := by
  refine ⟨Nat.zero_le _, hT.count_le_capacity, ?_, ?_⟩
  · intro fuel R T' h
    exact (Reachable.step_insert T T' fuel R hT h).count_le_capacity
  · intro R
    exact (Reachable.step_remove T R hT).count_le_capacity

/-- Witness for C12: the reachable table `tombFirst` (one tombstone, one live
record); inserting `plain 10` again writes a duplicate into the tombstone. -/
theorem count_le_capacity_invariant_witness :
    (construct 5).count ≤ (construct 5).capacity ∧
    tombFirst.count ≤ tombFirst.capacity ∧
    insert 1 tombFirst (plain 10) = some twoCopies ∧
    twoCopies.count ≤ twoCopies.capacity ∧
    (remove tombFirst (plain 10)).1.count ≤ (remove tombFirst (plain 10)).1.capacity :=
  ⟨(count_le_capacity_invariant 5 tombFirst tombFirst_reachable).1,
    (count_le_capacity_invariant 5 tombFirst tombFirst_reachable).2.1,
    by decide,
    (count_le_capacity_invariant 5 tombFirst tombFirst_reachable).2.2.1 1
      (plain 10) twoCopies (by decide),
    (count_le_capacity_invariant 5 tombFirst tombFirst_reachable).2.2.2
      (plain 10)⟩

/-- C13 (capacity grows only by doubling and never shrinks).  For every table
`T` and record `R`, if `insert(T, R)` returns `T'` then the capacity of `T'` is
the capacity of `T` times `2 ^ k` for some `k`, and `k` can be taken at least 1
whenever `2 * count ≥ capacity` held at entry.  `remove` leaves the capacity of
every table unchanged.  (`find` is a `const` method: it returns no table.) -/
theorem capacity_doubles (T T' : WarhammerHashTable) (fuel : Nat) (R : WarhammerMiniature)
    (h : insert fuel T R = some T') :
    (∃ k, T'.capacity = T.capacity * 2 ^ k ∧ (T.capacity ≤ 2 * T.count → 1 ≤ k)) ∧
    T.capacity ≤ T'.capacity ∧
    ∀ (U : WarhammerHashTable) (S : WarhammerMiniature), (remove U S).1.capacity = U.capacity := by
  refine ⟨?_, insert_capacity_le fuel T T' R h, remove_capacity⟩
  obtain ⟨k, e, hk⟩ := insert_capacity fuel T T' R h
  by_cases h0 : T.capacity = 0
  · refine ⟨k + 1, ?_, fun _ => by omega⟩
    rw [e, h0, Nat.zero_mul, Nat.zero_mul]
  · refine ⟨k, e, fun hle => hk ?_⟩
    unfold loadAtLeastHalf
    rw [if_neg h0]
    exact decide_eq_true hle

/-- Witness for C13: the insert of `plain 7` into the table of `main` (capacity
5, count 3) returns a table of capacity 10. -/
theorem capacity_doubles_witness :
    insert 2 mainTable (plain 7) = some mainGrown ∧
    (∃ k, mainGrown.capacity = mainTable.capacity * 2 ^ k ∧
      (mainTable.capacity ≤ 2 * mainTable.count → 1 ≤ k)) ∧
    mainTable.capacity ≤ mainGrown.capacity ∧
    (remove mainGrown guard).1.capacity = mainGrown.capacity :=
  ⟨by decide, (capacity_doubles mainTable mainGrown 2 (plain 7) (by decide)).1,
    (capacity_doubles mainTable mainGrown 2 (plain 7) (by decide)).2.1,
    (capacity_doubles mainTable mainGrown 2 (plain 7) (by decide)).2.2 mainGrown guard⟩

/-- C14, the claim as worded fails on a name with a character outside ASCII.
The name "é" is the two bytes 195 and 169; the source folds them in as the
negative `char`s -61 and -87, sign-extended to 64 bits, so the record
(cost 1, name "é", year 1) hashes to 4 under capacity 5 (and the record
(cost 0, name "é", year 0) to `2 ^ 64 - 1978` before the reduction), while
the fold over the character code 233 gives `(233 XOR 8 XOR 128) mod 5 = 2`.
Reading `charCode` as the unsigned bytes 195 and 169 gives
`((195 * 31 + 169) XOR 8 XOR 128) mod 5 = 0`, which is not the result either. -/
theorem hash_non_ascii_counterexample :
    nameBytes "é" = [195, 169] ∧
    hashFunction 5 ⟨1, "é", 1⟩ = 4 ∧
    hashSpec 5 "é" 1 1 = (233 ^^^ 8 ^^^ 128) % 5 ∧
    hashSpec 5 "é" 1 1 = 2 ∧
    ((195 * 31 + 169) ^^^ 8 ^^^ 128) % 5 = 0 ∧
    hashFunction (2 ^ 64) ⟨0, "é", 0⟩ = 2 ^ 64 - 1978 ∧
    hashSpec (2 ^ 64) "é" 0 0 = 233 ∧
    ¬ (hashFunction 5 ⟨1, "é", 1⟩ = hashSpec 5 "é" 1 1) :=
  ⟨by decide, by decide, by decide, by decide, by decide, by decide, by decide, by decide⟩

/-- C14 (hash definition, amended).  For every record and every capacity,
`hashFunction` returns `(p XOR (cost * 2 ^ 3) XOR (year * 2 ^ 7)) mod capacity`
where `p` is the fold `h := h * 31 + charCode` over the bytes of the name
starting from 0, `charCode` of a byte below 128 being the byte and `charCode`
of a byte `b` from 128 to 255 being `2 ^ 64 - 256 + b`, all intermediate
arithmetic modulo `2 ^ 64` (`hashSpecBytes`).  Every byte of a name is below
256.  For a name of ASCII characters the bytes are the character codes and
the hash is the fold over the character codes (`hashSpec`).  For the record
(cost 1, name "A", year 1) and capacity 5 this is
`(65 XOR 8 XOR 128) mod 5 = 201 mod 5 = 1`. -/
theorem hash_matches_definition (capacity : Nat) (m : WarhammerMiniature) :
    hashFunction capacity m =
      hashSpecBytes capacity (nameBytes m.modelName) m.pointsCost m.releaseYear ∧
    (∀ b ∈ nameBytes m.modelName, b < 256) ∧
    ((∀ c ∈ m.modelName.toList, c.toNat < 128) →
      nameBytes m.modelName = m.modelName.toList.map Char.toNat ∧
      hashFunction capacity m =
        hashSpec capacity m.modelName m.pointsCost m.releaseYear) ∧
    hashFunction 5 ⟨1, "A", 1⟩ = (65 ^^^ 8 ^^^ 128) % 5 ∧
    (65 ^^^ 8 ^^^ 128 : Nat) = 201 ∧ 201 % 5 = 1 ∧
    hashFunction 5 ⟨1, "A", 1⟩ = 1 :=
  ⟨hashFunction_eq_hashSpecBytes capacity m, nameBytes_lt m.modelName,
    fun hascii => ⟨nameBytes_ascii _ hascii, hashFunction_eq_hashSpec capacity m hascii⟩,
    by decide, by decide, by decide, by decide⟩

/-- Witness for C14: the name of the captain of `main` is ASCII; its hash under
capacity 5 is the fold over its character codes, slot 2. -/
theorem hash_matches_definition_witness :
    (∀ c ∈ captain.modelName.toList, c.toNat < 128) ∧
    hashFunction 5 captain = hashSpec 5 captain.modelName captain.pointsCost captain.releaseYear ∧
    hashFunction 5 captain = 2 :=
  ⟨by decide, ((hash_matches_definition 5 captain).2.2.1 (by decide)).2, by decide⟩

/-- C15 (every live record is reachable by its probe sequence).  In every
reachable table, for every slot `j` that is Occupied (occupied flag set,
deleted flag clear) holding the record `S`, `find(S)` reports found with
result `S`; indeed `j` is probed at some attempt below `capacity` and every
slot probed before it is non-empty. -/
theorem live_record_found (T : WarhammerHashTable) (hT : Reachable T) (j : Nat)
    (S : WarhammerMiniature) (hj : slotHolds T j S = true) :
    find T S = some S ∧
    ∃ a, a < T.capacity ∧ quadraticProbe T.capacity (hashFunction T.capacity S) a = j ∧
      ∀ b, b < a →
        slotNonEmpty T (quadraticProbe T.capacity (hashFunction T.capacity S) b) = true :=
  ⟨chained_find T hT.wellFormed hT.chained j S hj, hT.chained j S hj⟩

/-- Witness for C15: in the table of `main` the warboss sits in slot 3, one
probe behind its home slot 2, and is found. -/
theorem live_record_found_witness :
    slotHolds mainTable 3 warboss = true ∧ hashFunction 5 warboss = 2 ∧
    find mainTable warboss = some warboss ∧
    ∃ a, a < mainTable.capacity ∧
      quadraticProbe mainTable.capacity (hashFunction mainTable.capacity warboss) a = 3 ∧
      ∀ b, b < a → slotNonEmpty mainTable
        (quadraticProbe mainTable.capacity (hashFunction mainTable.capacity warboss) b) = true :=
  ⟨by decide, by decide, (live_record_found mainTable mainTable_reachable 3 warboss (by decide)).1,
    (live_record_found mainTable mainTable_reachable 3 warboss (by decide)).2⟩

/-- C16, the claim as worded fails on a table of more than `2 ^ 32` slots.
The table `wideTable` has capacity `5 * 2 ^ 30` and is produced by calls of
`insert` on an empty table of that capacity: first the records with home slots
`a² mod capacity` for `a ≤ 5 * 2 ^ 28`, which fill every slot of that form, then
the record `plain 0` (home slot 0).  The probe sequence of `plain 0` finds the
slots of attempts 0 to `2 ^ 32` Occupied (the squares below `2 ^ 64` modulo the
capacity, and `(2 ^ 32)² mod 2 ^ 64 = 0`), and at attempt `2 ^ 32 + 1` the
64-bit product wraps to `2 ^ 33 + 1`, slot `3221225473`, where the record is
written.  So `find` reports found, at an attempt below `capacity`, but slot
`3221225473` is 3 modulo 5 and so is not `(0 + a²) mod capacity` for any `a`:
no slot `(h + a²) mod capacity` is Occupied with the record. -/
theorem find_formula_counterexample :
    wideTable.capacity = 5 * 2 ^ 30 ∧ WellFormed wideTable ∧ Reachable wideTable ∧
    hashFunction wideTable.capacity (plain 0) = 0 ∧
    2 ^ 32 + 1 < wideTable.capacity ∧
    quadraticProbe wideTable.capacity (hashFunction wideTable.capacity (plain 0)) (2 ^ 32 + 1)
      = 3221225473 ∧
    slotHolds wideTable 3221225473 (plain 0) = true ∧
    find wideTable (plain 0) = some (plain 0) ∧
    ¬ ∃ a, a < wideTable.capacity ∧
      slotHolds wideTable
        ((hashFunction wideTable.capacity (plain 0) + a * a) % wideTable.capacity) (plain 0)
        = true ∧
      ∀ b, b < a → slotNonEmpty wideTable
        ((hashFunction wideTable.capacity (plain 0) + b * b) % wideTable.capacity) = true := by
  have hwf := wideFill_wellFormed wideCount
  have hspec := place_spec (wideFill wideCount) (plain 0) widePos hwf wideFill_insertLoop
  have hpos : widePos < (wideFill wideCount).capacity := by
    rw [wideFill_capacity, wideCap_eq, widePos_eq]; norm_num
  refine ⟨wideTable_capacity, hspec.1, wideTable_reachable, ?_, ?_, ?_, ?_, hspec.2.1, ?_⟩
  · rw [wideTable_capacity]; exact hashFunction_wide_plain
  · rw [wideTable_capacity, wideCap_eq]; norm_num
  · rw [wideTable_capacity, hashFunction_wide_plain, quadraticProbe_wide_wrap, widePos_eq]
  · have := place_slotHolds_self (wideFill wideCount) widePos (plain 0) hwf hpos
    rw [widePos_eq] at this
    exact this
  · rintro ⟨a, _, hh, _⟩
    rw [wideTable_capacity, hashFunction_wide_plain, Nat.zero_add] at hh
    have := wideTable_square_free a
    unfold wideSlot at this
    rw [this] at hh
    exact absurd hh (by simp)

/-- C16 (reference semantics of `find`, amended).  For every table `T` whose
vectors have length `capacity ≥ 1` and every record `R` with home index `h`:
`find(T, R)` reports found if and only if there is an attempt `a < capacity`
such that the slot probed at attempt `a` is Occupied (not deleted) with a
record equal to `R` and the slot probed at every attempt `b < a` is non-empty.
The slot probed at attempt `a` is `quadraticProbe capacity h a`, that is
`((h + (a² mod 2 ^ 64)) mod 2 ^ 64) mod capacity`, the square and the sum being
computed in 64-bit unsigned arithmetic; it is `(h + a²) mod capacity` for every
capacity up to `2 ^ 32`, where nothing wraps.  The loop inspects at most
`capacity` slots (a larger iteration budget gives the same answer), a found
result is `R`, and otherwise the answer is not found. -/
theorem find_reference_semantics (T : WarhammerHashTable) (R : WarhammerMiniature)
    (hT : WellFormed T) :
    ((find T R).isSome = true ↔
      ∃ a, a < T.capacity ∧
        slotHolds T (quadraticProbe T.capacity (hashFunction T.capacity R) a) R = true ∧
        ∀ b, b < a →
          slotNonEmpty T (quadraticProbe T.capacity (hashFunction T.capacity R) b) = true) ∧
    (∀ a, quadraticProbe T.capacity (hashFunction T.capacity R) a =
      ((hashFunction T.capacity R + (a * a) % 2 ^ 64) % 2 ^ 64) % T.capacity) ∧
    (T.capacity ≤ 2 ^ 32 →
      (∀ a, a < T.capacity → quadraticProbe T.capacity (hashFunction T.capacity R) a =
        (hashFunction T.capacity R + a * a) % T.capacity) ∧
      ((find T R).isSome = true ↔
        ∃ a, a < T.capacity ∧
          slotHolds T ((hashFunction T.capacity R + a * a) % T.capacity) R = true ∧
          ∀ b, b < a →
            slotNonEmpty T ((hashFunction T.capacity R + b * b) % T.capacity) = true)) ∧
    (∀ s, T.capacity ≤ s → findLoop T R s (hashFunction T.capacity R) 0 = find T R) ∧
    (∀ r, find T R = some r → r = R) ∧
    ((find T R).isSome = false → find T R = none) := by
  have hc := hT.capacity_pos
  have hh := hashFunction_lt T.capacity hc R
  refine ⟨find_isSome_iff T R hc, fun _ => rfl, ?_, ?_, ?_, ?_⟩
  · intro hsmall
    refine ⟨fun a ha => quadraticProbe_eq_formula _ _ _ hsmall hh ha, ?_⟩
    rw [find_isSome_iff T R hc]
    constructor
    · rintro ⟨a, h1, h2, h3⟩
      refine ⟨a, h1, ?_, ?_⟩
      · rw [← quadraticProbe_eq_formula _ _ _ hsmall hh h1]; exact h2
      · intro b hb
        rw [← quadraticProbe_eq_formula _ _ _ hsmall hh (by omega)]; exact h3 b hb
    · rintro ⟨a, h1, h2, h3⟩
      refine ⟨a, h1, ?_, ?_⟩
      · rw [quadraticProbe_eq_formula _ _ _ hsmall hh h1]; exact h2
      · intro b hb
        rw [quadraticProbe_eq_formula _ _ _ hsmall hh (by omega)]; exact h3 b hb
  · intro s hs
    exact findLoop_steps T R s T.capacity _ 0 (by omega) (by omega) (by omega)
  · intro r hr
    exact findLoop_result T R _ _ _ r hr
  · intro h
    cases hf : find T R with
    | none => rfl
    | some r => rw [hf] at h; exact absurd h (by simp)

/-- Witness for C16: the table of `main` is well formed; the warboss is found
at attempt 1. -/
theorem find_reference_semantics_witness :
    mainTable.capacity ≤ 2 ^ 32 ∧
    ((find mainTable warboss).isSome = true ↔
      ∃ a, a < mainTable.capacity ∧
        slotHolds mainTable
          ((hashFunction mainTable.capacity warboss + a * a) % mainTable.capacity) warboss
          = true ∧
        ∀ b, b < a → slotNonEmpty mainTable
          ((hashFunction mainTable.capacity warboss + b * b) % mainTable.capacity) = true) ∧
    (find mainTable warboss).isSome = true :=
  ⟨by decide,
    ((find_reference_semantics mainTable warboss mainTable_reachable.wellFormed).2.2.1
      (by decide)).2,
    by decide⟩

/-- C17 (duplicate insertion inflates `count`).  For every table `T` with
`2 * count < capacity` and every record `R`: if the slot probed at some attempt
`a < capacity` is Occupied with a record equal to `R` and the slot probed at
every earlier attempt is Occupied with a different record (so the slot at `a`
is the first one that is not Occupied with a different record), then
`insert(T, R)` returns `T` with `count` increased by exactly 1 and every slot
and the capacity unchanged.  For example, inserting any record `S` twice into
an empty table of capacity 5 gives count 2, capacity 5 and exactly one
Occupied slot, the home slot of `S`. -/
theorem duplicate_insert_inflates_count (T : WarhammerHashTable) (R : WarhammerMiniature)
    (a n : Nat) (hload : 2 * T.count < T.capacity) (ha : a < T.capacity)
    (hprev : ∀ b, b < a →
      slotBlocks T (quadraticProbe T.capacity (hashFunction T.capacity R) b) R = true)
    (hhold : slotHolds T (quadraticProbe T.capacity (hashFunction T.capacity R) a) R = true) :
    insert (n + 1) T R = some { T with count := T.count + 1 } ∧
    ∀ S : WarhammerMiniature, ∃ t2,
      runCalls (n + 1) (construct 5) [Call.ins S, Call.ins S] = some t2 ∧
      t2.count = 2 ∧ t2.capacity = 5 ∧ liveSet t2 = {hashFunction 5 S} ∧
      (liveSet t2).card = 1 := by
  refine ⟨insert_duplicate n T R a hload ha hprev hhold, ?_⟩
  intro S
  have hh := hashFunction_lt 5 (by decide) S
  have hwf := construct_wellFormed 5 (by decide)
  have e1 : insert (n + 1) (construct 5) S = some (place (construct 5) (hashFunction 5 S) S) :=
    insert_at_home n (construct 5) S (by decide) (by decide) (getD_replicate_same _ _ _)
  have h0 : quadraticProbe 5 (hashFunction 5 S) 0 = hashFunction 5 S :=
    quadraticProbe_zero 5 (by decide) S
  have e2 : insert (n + 1) (place (construct 5) (hashFunction 5 S) S) S =
      some { place (construct 5) (hashFunction 5 S) S with count := 2 } :=
    insert_duplicate n (place (construct 5) (hashFunction 5 S) S) S 0
      (by show 2 * 1 < 5; decide) (by show 0 < 5; decide) (fun b hb => by omega)
      (by
        show slotHolds (place (construct 5) (hashFunction 5 S) S)
          (quadraticProbe 5 (hashFunction 5 S) 0) S = true
        rw [h0]
        exact place_slotHolds_self _ _ _ hwf hh)
  refine ⟨{ place (construct 5) (hashFunction 5 S) S with count := 2 }, ?_, rfl, rfl, ?_, ?_⟩
  · rw [runCalls, e1]
    simp only
    rw [runCalls, e2]
    simp only
    rw [runCalls]
  · exact liveSet_single S
  · have : liveSet { place (construct 5) (hashFunction 5 S) S with count := 2 } =
        {hashFunction 5 S} := liveSet_single S
    rw [this, Finset.card_singleton]

/-- Witness for C17: in the table `collided` the record `plain 10` has home slot
0, which holds the different record `plain 5`, and sits in the slot of
attempt 1; inserting it again only raises `count` from 2 to 3. -/
theorem duplicate_insert_inflates_count_witness :
    2 * collided.count < collided.capacity ∧
    slotBlocks collided
      (quadraticProbe collided.capacity (hashFunction collided.capacity (plain 10)) 0)
      (plain 10) = true ∧
    slotHolds collided
      (quadraticProbe collided.capacity (hashFunction collided.capacity (plain 10)) 1)
      (plain 10) = true ∧
    insert 1 collided (plain 10) = some { collided with count := collided.count + 1 } :=
  ⟨by decide, by decide, by decide,
    (duplicate_insert_inflates_count collided (plain 10) 1 0 (by decide) (by decide)
      (fun b hb => by
        have : b = 0 := by omega
        subst this
        decide)
      (by decide)).1⟩

/-- C18 (`insert` terminates).  For every reachable table `T` with fewer than
`2 ^ 61` occupied flags (any table that fits a 64-bit address space) and every
record `R`, the call `insert(T, R)` returns: there is a recursion budget for
which it returns a table, and every larger budget returns the same table.
Each probe loop runs at most `capacity` iterations, each rehash loop runs once
over the old table, and the rehash-and-retry recursion is bounded: an overflow
doubles the capacity, and once `2 ^ 64` divides the capacity the odd attempts
alone probe `2 ^ 61` different slots, so no overflow is possible. -/
theorem insert_terminates (T : WarhammerHashTable) (R : WarhammerMiniature)
    (hT : Reachable T) (hsize : (occSet T).card < 2 ^ 61) :
    ∃ fuel T', insert fuel T R = some T' ∧
      ∀ fuel', fuel ≤ fuel' → insert fuel' T R = some T' :=
  insert_returns T R hT.wellFormed hsize

/-- Witness for C18: in the reachable table `collSix` the probe sequence of
`coll 7` overflows (all six slots it visits are occupied by other records);
the insert rehashes to capacity 40, retries and returns. -/
theorem insert_terminates_witness :
    insertLoop collSix (coll 7) collSix.capacity (hashFunction collSix.capacity (coll 7)) 0
      = none ∧
    (insert 2 collSix (coll 7)).map (fun t => (t.capacity, t.count)) = some (40, 7) ∧
    ∃ fuel T', insert fuel collSix (coll 7) = some T' ∧
      ∀ fuel', fuel ≤ fuel' → insert fuel' collSix (coll 7) = some T' :=
  ⟨by decide, by decide,
    insert_terminates collSix (coll 7) collSix_reachable
      (lt_of_le_of_lt (occSet_card_le_capacity collSix) (by decide))⟩

/-- C19 (`count` never undercounts and never underflows).  In every reachable
table the number of slots that are Occupied (occupied flag set, deleted flag
clear) is at most `count`.  Consequently, whenever `remove` finds a match,
`count` is at least 1 and the unsigned decrement gives `count - 1` without
wrapping. -/
theorem live_slots_le_count (T : WarhammerHashTable) (hT : Reachable T) :
    (liveSet T).card ≤ T.count ∧
    ∀ R : WarhammerMiniature, (remove T R).2 = true →
      1 ≤ T.count ∧ (remove T R).1.count = T.count - 1 ∧ sizeDec T.count = T.count - 1 := by
  refine ⟨hT.live_le_count, ?_⟩
  intro R h
  obtain ⟨h1, h2⟩ := hT.remove_count R h
  refine ⟨h1, by omega, ?_⟩
  unfold sizeDec
  rw [if_neg (by omega)]

/-- Witness for C19: the table of `main` has three live slots and count 3;
removing the guard leaves count 2. -/
theorem live_slots_le_count_witness :
    (liveSet mainTable).card ≤ mainTable.count ∧
    (remove mainTable guard).2 = true ∧
    1 ≤ mainTable.count ∧ (remove mainTable guard).1.count = mainTable.count - 1 ∧
    sizeDec mainTable.count = mainTable.count - 1 :=
  ⟨(live_slots_le_count mainTable mainTable_reachable).1, by decide,
    (live_slots_le_count mainTable mainTable_reachable).2 guard (by decide)⟩

/-- C20 (all slot accesses are in bounds).  In every reachable table
`capacity ≥ 1`, each of the three vectors has length exactly `capacity`, and
every index produced by `hashFunction` or `quadraticProbe` is below
`capacity`.  Consequently the bounds-checked runs of `find`, `remove`,
`insert` and `rehash`, which stop with a fault at the first vector access out
of range or division by zero, never fault on a reachable table: they give the
results of the unchecked operations (for `insert` and `rehash` with every
recursion budget, tables built on the way included). -/
theorem accesses_in_bounds (T : WarhammerHashTable) (hT : Reachable T) :
    1 ≤ T.capacity ∧
    T.table.length = T.capacity ∧ T.occupied.length = T.capacity ∧
    T.deleted.length = T.capacity ∧
    (∀ R : WarhammerMiniature, hashFunction T.capacity R < T.capacity) ∧
    (∀ index attempt : Nat, quadraticProbe T.capacity index attempt < T.capacity) ∧
    (∀ R : WarhammerMiniature, findChecked T R = Run.done (find T R)) ∧
    (∀ R : WarhammerMiniature, removeChecked T R = Run.done (remove T R)) ∧
    (∀ (fuel : Nat) (R : WarhammerMiniature),
      insertChecked fuel T R = Run.ofOption (insert fuel T R)) ∧
    (∀ fuel : Nat, rehashChecked fuel T = Run.ofOption (rehash fuel T)) := by
  have hwf := hT.wellFormed
  exact ⟨hwf.capacity_pos, hwf.table_length, hwf.occupied_length, hwf.deleted_length,
    fun R => hashFunction_lt _ hwf.capacity_pos R,
    fun i a => quadraticProbe_lt _ hwf.capacity_pos i a,
    fun R => findChecked_eq T R hwf, fun R => removeChecked_eq T R hwf,
    fun fuel R => insertChecked_eq fuel T R hwf, fun fuel => rehashChecked_eq fuel T hwf⟩

/-- Witness for C20: the table of `main`; the checked insert of `plain 7` goes
through a rehash to capacity 10 without a fault. -/
theorem accesses_in_bounds_witness :
    1 ≤ mainTable.capacity ∧ mainTable.table.length = mainTable.capacity ∧
    hashFunction mainTable.capacity warboss < mainTable.capacity ∧
    quadraticProbe mainTable.capacity (hashFunction mainTable.capacity warboss) 1
      < mainTable.capacity ∧
    findChecked mainTable warboss = Run.done (find mainTable warboss) ∧
    removeChecked mainTable guard = Run.done (remove mainTable guard) ∧
    insertChecked 2 mainTable (plain 7) = Run.ofOption (insert 2 mainTable (plain 7)) ∧
    insert 2 mainTable (plain 7) = some mainGrown :=
  ⟨(accesses_in_bounds mainTable mainTable_reachable).1,
    (accesses_in_bounds mainTable mainTable_reachable).2.1,
    (accesses_in_bounds mainTable mainTable_reachable).2.2.2.2.1 warboss,
    (accesses_in_bounds mainTable mainTable_reachable).2.2.2.2.2.1 _ 1,
    (accesses_in_bounds mainTable mainTable_reachable).2.2.2.2.2.2.1 warboss,
    (accesses_in_bounds mainTable mainTable_reachable).2.2.2.2.2.2.2.1 guard,
    (accesses_in_bounds mainTable mainTable_reachable).2.2.2.2.2.2.2.2.1 2 (plain 7),
    by decide⟩

end Warhammer
